import Mathlib

/-!
The package `fieldmask`: a verification development.

A shallow embedding of the Go package `fieldmask` (descriptor.go, fieldmask.go,
paths.go, errors.go) together with the slice of package `reflect` that the
package relies on.

Modelling conventions.

* A Go type (`reflect.Type`) is a `GoType` tree: struct types carry their
  fields inline (Go stores nested structs by value), a pointer type names its
  element through an index into a type table, so that recursive types such as
  `type Node struct { Next *Node }` can be written down.
* The contents of a variable are a `Data` tree.  A `Value` (`reflect.Value`)
  is a type, the contents, the address of the storage (when the value is
  addressable) and the read-only flag.
* In-place mutation is explicit state passing: `apply` returns the new
  contents of the value it was given together with the new `visited` map.
* Go maps are association lists with unique keys.  One `range` over a map
  visits the entries in the order of the list.  Go picks the order of every
  `range` anew, so the lists with the same entries in another order stand for
  the same map, and a statement about one call holds for every order only when
  it is proved for every well-formed descriptor; `FieldMask.ApplyRanged` is
  `Apply` with the order of the call made explicit.
* The package never follows a pointer that is stored in a field, so the
  contents of such a pointer are its address only.
* A Go panic is the result `none` of `apply` and the result `panic` of the
  builder and of `Apply`.  Recursion over the type graph is bounded by an
  explicit budget; `buildDescriptor_returns` shows that `buildFuel` is enough.
-/

namespace fieldmask

/-! ## Package reflect -/

/-- Kinds of the types that have neither fields nor an element the package looks at. -/
inductive BasicKind where
  | Bool | Int | String | Interface | Slice | Map
  deriving DecidableEq, Repr

/-- The type `reflect.StructField`: `Typ` is the field's type, `PkgPath` is empty
exactly for exported fields, `jsonTag` is the result of `Tag.Get("json")`,
`Offset` is the offset of the field within its struct in bytes. -/
structure StructFieldOf (τ : Type) where
  Name : String
  PkgPath : String
  jsonTag : String
  Typ : τ
  Offset : Nat

/-- The type `reflect.Type`.  `Ptr elem` is the pointer type whose element type
is entry `elem` of the type table. -/
inductive GoType where
  | basic (k : BasicKind)
  | Ptr (elem : Nat)
  | Struct (name : String) (fields : List (StructFieldOf GoType))

abbrev StructField := StructFieldOf GoType

mutual
/-- Identity of types, `t1 == t2` on `reflect.Type`. -/
def GoType.decEq : (a b : GoType) → Decidable (a = b)
  | .basic a, .basic b =>
    if h : a = b then isTrue (by rw [h]) else isFalse (by intro e; cases e; exact h rfl)
  | .Ptr a, .Ptr b =>
    if h : a = b then isTrue (by rw [h]) else isFalse (by intro e; cases e; exact h rfl)
  | .Struct n fs, .Struct m gs =>
    if h : n = m then
      match GoType.decEqFields fs gs with
      | isTrue h2 => isTrue (by rw [h, h2])
      | isFalse h2 => isFalse (by intro e; cases e; exact h2 rfl)
    else isFalse (by intro e; cases e; exact h rfl)
  | .basic _, .Ptr _ => isFalse (by intro e; cases e)
  | .basic _, .Struct _ _ => isFalse (by intro e; cases e)
  | .Ptr _, .basic _ => isFalse (by intro e; cases e)
  | .Ptr _, .Struct _ _ => isFalse (by intro e; cases e)
  | .Struct _ _, .basic _ => isFalse (by intro e; cases e)
  | .Struct _ _, .Ptr _ => isFalse (by intro e; cases e)
/-- Identity of field lists. -/
def GoType.decEqFields : (a b : List (StructFieldOf GoType)) → Decidable (a = b)
  | [], [] => isTrue rfl
  | [], _ :: _ => isFalse (by intro e; cases e)
  | _ :: _, [] => isFalse (by intro e; cases e)
  | ⟨n1, p1, j1, t1, o1⟩ :: r1, ⟨n2, p2, j2, t2, o2⟩ :: r2 =>
    if h : n1 = n2 ∧ p1 = p2 ∧ j1 = j2 ∧ o1 = o2 then
      match GoType.decEq t1 t2, GoType.decEqFields r1 r2 with
      | isTrue h1, isTrue h2 =>
        isTrue (by obtain ⟨a, b, c, d⟩ := h; rw [a, b, c, d, h1, h2])
      | isFalse h1, _ => isFalse (by intro e; cases e; exact h1 rfl)
      | _, isFalse h2 => isFalse (by intro e; cases e; exact h2 rfl)
    else isFalse (by intro e; cases e; exact h ⟨rfl, rfl, rfl, rfl⟩)
end

instance : DecidableEq GoType := GoType.decEq

/-- The type `reflect.Kind`, restricted to the kinds of `GoType`. -/
inductive Kind where
  | Bool | Int | String | Interface | Slice | Map | Ptr | Struct
  deriving DecidableEq, Repr

/-- The method `Type.Kind`. -/
def GoType.Kind : GoType → Kind
  | .basic .Bool => .Bool
  | .basic .Int => .Int
  | .basic .String => .String
  | .basic .Interface => .Interface
  | .basic .Slice => .Slice
  | .basic .Map => .Map
  | .Ptr _ => .Ptr
  | .Struct _ _ => .Struct

/-- The method `StructField.IsExported`: `f.PkgPath == ""`. -/
def StructFieldOf.IsExported {τ : Type} (f : StructFieldOf τ) : Bool :=
  f.PkgPath == ""

/-- The contents of a variable.  `nil` is the nil pointer, interface, slice or map,
`pointer a` a pointer to address `a`, `handle n` the contents of a non-nil
interface, slice or map (never inspected by the package). -/
inductive Data where
  | bool (b : Bool)
  | int (n : Int)
  | string (s : String)
  | nil
  | pointer (addr : Nat)
  | handle (n : Nat)
  | struct (fields : List Data)
  deriving Repr

mutual
/-- Equality of contents. -/
def Data.decEq : (a b : Data) → Decidable (a = b)
  | .bool a, .bool b =>
    if h : a = b then isTrue (by rw [h]) else isFalse (by intro e; cases e; exact h rfl)
  | .int a, .int b =>
    if h : a = b then isTrue (by rw [h]) else isFalse (by intro e; cases e; exact h rfl)
  | .string a, .string b =>
    if h : a = b then isTrue (by rw [h]) else isFalse (by intro e; cases e; exact h rfl)
  | .nil, .nil => isTrue rfl
  | .pointer a, .pointer b =>
    if h : a = b then isTrue (by rw [h]) else isFalse (by intro e; cases e; exact h rfl)
  | .handle a, .handle b =>
    if h : a = b then isTrue (by rw [h]) else isFalse (by intro e; cases e; exact h rfl)
  | .struct a, .struct b =>
    match Data.decEqList a b with
    | isTrue h => isTrue (by rw [h])
    | isFalse h => isFalse (by intro e; cases e; exact h rfl)
  | .bool _, .int _ | .bool _, .string _ | .bool _, .nil | .bool _, .pointer _
  | .bool _, .handle _ | .bool _, .struct _ => isFalse (by intro e; cases e)
  | .int _, .bool _ | .int _, .string _ | .int _, .nil | .int _, .pointer _
  | .int _, .handle _ | .int _, .struct _ => isFalse (by intro e; cases e)
  | .string _, .bool _ | .string _, .int _ | .string _, .nil | .string _, .pointer _
  | .string _, .handle _ | .string _, .struct _ => isFalse (by intro e; cases e)
  | .nil, .bool _ | .nil, .int _ | .nil, .string _ | .nil, .pointer _
  | .nil, .handle _ | .nil, .struct _ => isFalse (by intro e; cases e)
  | .pointer _, .bool _ | .pointer _, .int _ | .pointer _, .string _ | .pointer _, .nil
  | .pointer _, .handle _ | .pointer _, .struct _ => isFalse (by intro e; cases e)
  | .handle _, .bool _ | .handle _, .int _ | .handle _, .string _ | .handle _, .nil
  | .handle _, .pointer _ | .handle _, .struct _ => isFalse (by intro e; cases e)
  | .struct _, .bool _ | .struct _, .int _ | .struct _, .string _ | .struct _, .nil
  | .struct _, .pointer _ | .struct _, .handle _ => isFalse (by intro e; cases e)
/-- Equality of lists of contents. -/
def Data.decEqList : (a b : List Data) → Decidable (a = b)
  | [], [] => isTrue rfl
  | [], _ :: _ => isFalse (by intro e; cases e)
  | _ :: _, [] => isFalse (by intro e; cases e)
  | x :: r1, y :: r2 =>
    match Data.decEq x y, Data.decEqList r1 r2 with
    | isTrue h1, isTrue h2 => isTrue (by rw [h1, h2])
    | isFalse h1, _ => isFalse (by intro e; cases e; exact h1 rfl)
    | _, isFalse h2 => isFalse (by intro e; cases e; exact h2 rfl)
end

instance : DecidableEq Data := Data.decEq

mutual
/-- The function `reflect.Zero`: the zero value of a type. -/
def Zero : GoType → Data
  | .basic .Bool => .bool false
  | .basic .Int => .int 0
  | .basic .String => .string ""
  | .basic .Interface => .nil
  | .basic .Slice => .nil
  | .basic .Map => .nil
  | .Ptr _ => .nil
  | .Struct _ fields => .struct (ZeroFields fields)
/-- The zero values of the fields of a struct type, in declaration order. -/
def ZeroFields : List (StructFieldOf GoType) → List Data
  | [] => []
  | ⟨_, _, _, t, _⟩ :: rest => Zero t :: ZeroFields rest
end

/-- The type `reflect.Value`: `addr` is the address of the storage when the value
is addressable (`flagAddr`), `flagRO` is set when the value was reached through
an unexported field. -/
structure Value where
  typ : GoType
  data : Data
  addr : Option Nat
  flagRO : Bool

/-- The method `Value.Kind`. -/
def Value.Kind (v : Value) : Kind := v.typ.Kind

/-- The method `Value.CanAddr`. -/
def Value.CanAddr (v : Value) : Bool := v.addr.isSome

/-- The method `Value.CanSet`: addressable and not read-only. -/
def Value.CanSet (v : Value) : Bool := v.addr.isSome && !v.flagRO

/-- The method `Value.Field`: the `i`-th field of a struct value, stored at the
struct's address plus the field's offset.  It panics (`none`) when the value is
not of kind struct or `i` is out of range. -/
def Value.Field (v : Value) (i : Nat) : Option Value :=
  match v.typ, v.data with
  | .Struct _ fields, .struct ds =>
    match fields.get? i, ds.get? i with
    | some f, some x =>
      some ⟨f.Typ, x, v.addr.map (fun a => a + f.Offset), v.flagRO || !f.IsExported⟩
    | _, _ => none
  | _, _ => none

/-- The effect of `v.Field(i).Set(x)` on the contents of `v`. -/
def Data.setField (d : Data) (i : Nat) (x : Data) : Data :=
  match d with
  | .struct ds => .struct (ds.set i x)
  | other => other

/-- The value `v` after its `i`-th field has been overwritten with `x`. -/
def Value.setField (v : Value) (i : Nat) (x : Data) : Value :=
  ⟨v.typ, v.data.setField i x, v.addr, v.flagRO⟩

/-- The value `v` with the contents `x` in its storage. -/
def Value.withData (v : Value) (x : Data) : Value :=
  ⟨v.typ, x, v.addr, v.flagRO⟩

/-! ## Strings and maps -/

/-- Cuts a sequence of characters at the first occurrence of `sep`:
`none` when `sep` does not occur, otherwise what stands before and after it. -/
def cutAt (sep : Char) : List Char → Option (List Char × List Char)
  | [] => none
  | c :: cs =>
    if c = sep then some ([], cs)
    else match cutAt sep cs with
      | none => none
      | some (a, b) => some (c :: a, b)

/-- The call `strings.SplitN(p, ".", 2)`. -/
def SplitN2 (p : String) : List String :=
  match cutAt '.' p.data with
  | none => [p]
  | some (a, b) => [String.mk a, String.mk b]

/-- The function `strings.HasPrefix`. -/
def HasPrefix (s pre : String) : Bool := pre.data.isPrefixOf s.data

/-- The function `unicode.IsSpace`: tab, line feed, vertical tab, form feed, carriage
return, space, U+0085 and U+00A0 in Latin-1, and the `White_Space` characters beyond. -/
def IsSpace (c : Char) : Bool :=
  let n := c.toNat
  n == 0x09 || n == 0x0A || n == 0x0B || n == 0x0C || n == 0x0D || n == 0x20 ||
    n == 0x85 || n == 0xA0 || n == 0x1680 || (0x2000 ≤ n && n ≤ 0x200A) ||
    n == 0x2028 || n == 0x2029 || n == 0x202F || n == 0x205F || n == 0x3000

/-- The test `strings.TrimSpace(s) != ""`: some character of `s` is not white space. -/
def TrimSpaceNonEmpty (s : String) : Bool := s.data.any (fun c => !IsSpace c)

/-- The map read `m[k]` with its presence flag. -/
def mapLookup {β : Type} : List (String × β) → String → Option β
  | [], _ => none
  | (k, v) :: rest, key => if k = key then some v else mapLookup rest key

/-- The map write `m[k] = v`: overwrites the entry of `k` or adds one. -/
def mapInsert {β : Type} : List (String × β) → String → β → List (String × β)
  | [], key, v => [(key, v)]
  | (k, w) :: rest, key, v =>
    if k = key then (k, v) :: rest else (k, w) :: mapInsert rest key v

/-! ## errors.go -/

/-- The error values of the package: the two sentinels and the three error types. -/
inductive Error where
  | ErrNilInput
  | ErrNoStruct
  | errUnexpectedKind (kind : Kind)
  | errCircularReference (reflectType : GoType)
  | errFieldProcessing (fieldName : String) (err : Error)
  deriving DecidableEq

/-! ## descriptor.go -/

/-- The constant `jsonTagSeparator`. -/
def jsonTagSeparator : Char := ','

/-- The constant `jsonTagIgnore`. -/
def jsonTagIgnore : String := "-"

/-- The constant `pathSeparator` of paths.go. -/
def pathSeparator : String := "."

mutual
/-- The type `typeDescriptor`: the map `fields` from serialization key to field
descriptor.  The list holds the entries of the map in the order in which one `range`
over the map yields them; Go picks that order anew for every `range`, so the lists
with the same entries in another order stand for the same map. -/
inductive typeDescriptor where
  | mk (fields : List (String × fieldDescriptor))
/-- The type `fieldDescriptor`.  `index` is the single element of `field.Index`. -/
inductive fieldDescriptor where
  | mk (tag : String) (index : Nat) (child : Option typeDescriptor)
end

/-- The field `fields` of a type descriptor. -/
def typeDescriptor.fields : typeDescriptor → List (String × fieldDescriptor)
  | .mk fields => fields

/-- The field `tag` of a field descriptor. -/
def fieldDescriptor.tag : fieldDescriptor → String
  | .mk tag _ _ => tag

/-- The field `index` of a field descriptor. -/
def fieldDescriptor.index : fieldDescriptor → Nat
  | .mk _ index _ => index

/-- The field `child` of a field descriptor. -/
def fieldDescriptor.child : fieldDescriptor → Option typeDescriptor
  | .mk _ _ child => child

/-- The function `buildPathMaps`, one step of its loop: a path without separator goes
to `keepMap`, a path with one is appended under the text before the separator. -/
def buildPathMapsStep (maps : List String × List (String × List String)) (p : String) :
    List String × List (String × List String) :=
  match SplitN2 p with
  | [part0] => (if part0 ∈ maps.1 then maps.1 else maps.1 ++ [part0], maps.2)
  | [part0, part1] =>
    (maps.1, mapInsert maps.2 part0 ((mapLookup maps.2 part0).getD [] ++ [part1]))
  | _ => maps

/-- The function `buildPathMaps`: the set `keepMap` and the map `nestedPaths`. -/
def buildPathMaps (paths : List String) : List String × List (String × List String) :=
  paths.foldl buildPathMapsStep ([], [])

/-- The function `parseJSONTag`. -/
def parseJSONTag (tag : String) : String :=
  match cutAt jsonTagSeparator tag.data with
  | some (name, _) => String.mk name
  | none => tag

/-- The function `getZero`.  The package memoizes `reflect.Zero(t)` per type in
`zeroCache`; the memo table only ever holds `reflect.Zero(t)` under `t`, so the
result is `reflect.Zero(t)` whatever the table holds. -/
def getZero (t : GoType) : Data := Zero t

/-- What a call of `apply` leaves behind: the contents of the value it was given,
the `visited` map, and the returned error. -/
structure applyResult where
  data : Data
  visited : List Nat
  err : Option Error

mutual
/-- The method `typeDescriptor.apply`.  A value that is not addressable is left
alone; otherwise its address is looked up in, and added to, `visited`. -/
def typeDescriptor.apply :
    typeDescriptor → Value → List String → List Nat → Option applyResult
  | .mk fields, value, paths, visited =>
    match value.addr with
    | none => some ⟨value.data, visited, none⟩
    | some addr =>
      if addr ∈ visited then some ⟨value.data, visited, none⟩
      else
        applyFields fields (buildPathMaps paths).1 (buildPathMaps paths).2 value
          (addr :: visited)
/-- The loop `for tag, desc := range d.fields` of `apply`, on the entries still to
visit, in the order in which this `range` yields them (the order of the list; another
call may range over the same map in another order). -/
def applyFields :
    List (String × fieldDescriptor) → List String → List (String × List String) →
      Value → List Nat → Option applyResult
  | [], _, _, value, visited => some ⟨value.data, visited, none⟩
  | (tag, .mk _ index child) :: rest, keepMap, nestedPaths, value, visited =>
    match value.Field index with
    | none => none
    | some fieldValue =>
      if !fieldValue.CanSet then applyFields rest keepMap nestedPaths value visited
      else
        match child, mapLookup nestedPaths tag with
        | some c, some sub =>
          match c.apply fieldValue sub visited with
          | none => none
          | some r =>
            match r.err with
            | some e => some ⟨(value.setField index r.data).data, r.visited, some e⟩
            | none =>
              applyFields rest keepMap nestedPaths (value.setField index r.data) r.visited
        | _, _ =>
          if tag ∈ keepMap then applyFields rest keepMap nestedPaths value visited
          else
            applyFields rest keepMap nestedPaths
              (value.setField index (getZero fieldValue.typ)) visited
end

/-- Results of the functions that build descriptors: a value, a returned error,
a panic, or a recursion budget that ran out before the call returned. -/
inductive Result (α : Type) where
  | ok (a : α)
  | fail (e : Error)
  | panic
  | outOfFuel

/-- The type `ft` of the nested record of a field type, when the test
`Kind() == Struct || (Kind() == Ptr && Elem().Kind() == Struct)` holds: the type itself,
or the element of the pointer (its entry in the type table `env`). -/
def nestedStruct (env : List GoType) : GoType → Option GoType
  | .Struct name fields => some (.Struct name fields)
  | .Ptr elem =>
    match env.get? elem with
    | some (.Struct name fields) => some (.Struct name fields)
    | _ => none
  | .basic _ => none

/-- The serialization key `tagName` that `buildDescriptor` computes for a field: the
name part of the json tag, or the declared name when that part is empty. -/
def tagNameOf (field : StructField) : String :=
  if parseJSONTag field.jsonTag = "" then field.Name else parseJSONTag field.jsonTag

/-- The loop `for i := 0; i < t.NumField(); i++` of `buildDescriptor`, on the fields
from number `i` on; `build` is the recursive call of `buildDescriptor`, `desc` the
map `desc.fields` filled so far. -/
def buildFields (build : GoType → List GoType → Result (typeDescriptor × List GoType))
    (env : List GoType) :
    List StructField → Nat → List (String × fieldDescriptor) → List GoType →
      Result (typeDescriptor × List GoType)
  | [], _, desc, visited => .ok (.mk desc, visited)
  | field :: rest, i, desc, visited =>
    if !field.IsExported then buildFields build env rest (i + 1) desc visited
    else if field.jsonTag = jsonTagIgnore then buildFields build env rest (i + 1) desc visited
    else
      let tagName := tagNameOf field
      match nestedStruct env field.Typ with
      | some ft =>
        match build ft visited with
        | .ok (child, visited1) =>
          buildFields build env rest (i + 1)
            (mapInsert desc tagName (.mk tagName i (some child))) visited1
        | .fail e => .fail e
        | .panic => .panic
        | .outOfFuel => .outOfFuel
      | none =>
        buildFields build env rest (i + 1) (mapInsert desc tagName (.mk tagName i none))
          visited

/-- The function `buildDescriptor`; `env` is the type table, `visited` the map of the
types entered so far, returned with the descriptor because the callee shares it.
The first argument bounds the depth of the recursion.  `t.NumField()` panics on a
type that is not a struct. -/
def buildDescriptor (env : List GoType) :
    Nat → GoType → List GoType → Result (typeDescriptor × List GoType)
  | 0, _, _ => .outOfFuel
  | fuel + 1, t, visited =>
    if t ∈ visited then .fail (.errCircularReference t)
    else
      match t with
      | .Struct _ fields =>
        buildFields (buildDescriptor env fuel) env fields 0 [] (t :: visited)
      | _ => .panic

/-- The read `descriptorCache.Load(t)`. -/
def cacheLoad : List (GoType × typeDescriptor) → GoType → Option typeDescriptor
  | [], _ => none
  | (k, v) :: rest, t => if k = t then some v else cacheLoad rest t

/-- The write `descriptorCache.Store(t, desc)`. -/
def cacheStore : List (GoType × typeDescriptor) → GoType → typeDescriptor →
    List (GoType × typeDescriptor)
  | [], t, d => [(t, d)]
  | (k, v) :: rest, t, d => if k = t then (k, d) :: rest else (k, v) :: cacheStore rest t d

/-- The function `getTypeDescriptor`, with the process-wide `descriptorCache` passed in
and returned.  `t.Elem()` of a pointer type is its entry in the type table. -/
def getTypeDescriptor (env : List GoType) (fuel : Nat) (cache : List (GoType × typeDescriptor))
    (t : GoType) : Result (typeDescriptor × List (GoType × typeDescriptor)) :=
  let elem : Option GoType :=
    match t with
    | .Ptr e => env.get? e
    | other => some other
  match elem with
  | none => .panic
  | some t1 =>
    match cacheLoad cache t1 with
    | some cached => .ok (cached, cache)
    | none =>
      match buildDescriptor env fuel t1 [] with
      | .ok (desc, _) => .ok (desc, cacheStore cache t1 desc)
      | .fail e => .fail e
      | .panic => .panic
      | .outOfFuel => .outOfFuel

/-! ## paths.go -/

/-- The function `removeEmptyPaths`. -/
def removeEmptyPaths (paths : List String) : List String :=
  paths.filter TrimSpaceNonEmpty

/-- The loop of `removeDuplicatePaths`: `seen` is the set of the paths met so far. -/
def removeDuplicatePathsLoop : List String → List String → List String
  | [], _ => []
  | path :: rest, seen =>
    if path ∈ seen then removeDuplicatePathsLoop rest seen
    else path :: removeDuplicatePathsLoop rest (path :: seen)

/-- The function `removeDuplicatePaths`. -/
def removeDuplicatePaths (paths : List String) : List String :=
  removeDuplicatePathsLoop paths []

/-! ## fieldmask.go -/

/-- The type `FieldMask`; a `*FieldMask` is an `Option FieldMask`, `none` being nil. -/
structure FieldMask where
  Paths : List String
  deriving DecidableEq

/-- The method `IsEmpty`. -/
def FieldMask.IsEmpty (f : Option FieldMask) : Bool :=
  match f with
  | none => true
  | some m => m.Paths.length == 0

/-- The method `Normalize`. -/
def FieldMask.Normalize (f : Option FieldMask) : Option FieldMask :=
  if FieldMask.IsEmpty f then f
  else f.map (fun m => ⟨removeDuplicatePaths (removeEmptyPaths m.Paths)⟩)

/-- The method `HasPath`. -/
def FieldMask.HasPath (f : Option FieldMask) (path : String) : Bool :=
  match f with
  | none => false
  | some m =>
    if m.Paths.length == 0 then false
    else m.Paths.any (fun p => p == path || HasPrefix p (path ++ "."))

/-- The method `RemovePaths`. -/
def FieldMask.RemovePaths (f : Option FieldMask) (paths : List String) : Option FieldMask :=
  if FieldMask.IsEmpty f then f
  else
    f.map (fun m =>
      ⟨paths.foldl
        (fun cur p => cur.filter (fun existing => !(existing == p || HasPrefix existing (p ++ "."))))
        m.Paths⟩)

/-- The function `New`. -/
def New (paths : List String) : Option FieldMask :=
  if paths.length == 0 then none
  else FieldMask.Normalize (some ⟨paths⟩)

/-- The argument `i any` of `Apply`: the nil interface, a value of a basic type, a
struct passed by value, or a pointer of type `*elem` that is nil (`none`) or holds
the address and the contents of the variable it points to. -/
inductive Iface where
  | nil
  | basic (k : BasicKind) (data : Data)
  | struct (name : String) (fields : List StructField) (data : Data)
  | pointer (elem : GoType) (target : Option (Nat × Data))

/-- What a call of `Apply` does: it returns, with an error or nil, leaving the
argument and the descriptor cache in some state; or it panics; or the model's
recursion budget ran out. -/
inductive ApplyOutcome where
  | returned (err : Option Error) (i : Iface) (cache : List (GoType × typeDescriptor))
  | panic
  | outOfFuel

/-- The field `f.Paths` of a mask pointer that has passed the `IsEmpty` test. -/
def FieldMask.pathsOf (f : Option FieldMask) : List String :=
  match f with
  | none => []
  | some m => m.Paths

/-- The method `Apply`.  `reflect.ValueOf(i)` has kind `Ptr` exactly for the
`pointer` arguments, and `v.Elem()` is then the addressable variable pointed to.
The call ranges over the maps of the descriptor in the order of their lists, that
is, in the order of insertion for a descriptor that `buildDescriptor` has built;
`FieldMask.ApplyRanged` is the call with another order. -/
def FieldMask.Apply (env : List GoType) (fuel : Nat) (cache : List (GoType × typeDescriptor))
    (f : Option FieldMask) (i : Iface) : ApplyOutcome :=
  if FieldMask.IsEmpty f then .returned none i cache
  else
    match i with
    | .nil => .returned (some .ErrNilInput) i cache
    | .basic _ _ => .returned (some .ErrNilInput) i cache
    | .struct _ _ _ => .returned (some .ErrNilInput) i cache
    | .pointer _ none => .returned (some .ErrNilInput) i cache
    | .pointer elem (some (addr, data)) =>
      if elem.Kind ≠ .Struct then .returned (some .ErrNoStruct) i cache
      else
        match getTypeDescriptor env fuel cache elem with
        | .fail e => .returned (some e) i cache
        | .panic => .panic
        | .outOfFuel => .outOfFuel
        | .ok (td, cache1) =>
          match td.apply ⟨elem, data, some addr, false⟩ (FieldMask.pathsOf f) [] with
          | none => .panic
          | some r => .returned r.err (.pointer elem (some (addr, r.data))) cache1

/-- The error a call of `Apply` returned (`some none` is the nil error), when it returned. -/
def ApplyOutcome.err : ApplyOutcome → Option (Option Error)
  | .returned e _ _ => some e
  | _ => none

/-- The contents, after the call, of the variable the argument of `Apply` points to. -/
def ApplyOutcome.contents : ApplyOutcome → Option Data
  | .returned _ (.pointer _ (some (_, d))) _ => some d
  | _ => none

/-- The argument of `Apply` after the call, when it returned. -/
def ApplyOutcome.target : ApplyOutcome → Option Iface
  | .returned _ i _ => some i
  | _ => none

/-- The field `Data.struct ds` stores under number `i`. -/
def Data.field : Data → Nat → Option Data
  | .struct ds, i => ds.get? i
  | _, _ => none

/-- The maskable field a list of serialization keys leads to, starting from a record
with descriptor `d` and contents `x`: every key is looked up in the descriptor of the
record reached so far.  Fields behind a pointer are not part of the record. -/
def fieldAt : Option typeDescriptor → Data → List String → Option Data
  | _, x, [] => some x
  | none, _, _ :: _ => none
  | some d, x, k :: ks =>
    match mapLookup d.fields k with
    | none => none
    | some fd =>
      match x.field fd.index with
      | none => none
      | some y => fieldAt fd.child y ks

/-- The declared type of the maskable field a list of serialization keys leads to. -/
def typeAt : Option typeDescriptor → GoType → List String → Option GoType
  | _, t, [] => some t
  | none, _, _ :: _ => none
  | some d, t, k :: ks =>
    match mapLookup d.fields k, t with
    | some fd, .Struct _ fields =>
      match fields.get? fd.index with
      | none => none
      | some f => typeAt fd.child f.Typ ks
    | _, _ => none

/-- The dotted path of a field: its keys joined by the path separator. -/
def dotted : List String → String
  | [] => ""
  | [k] => k
  | k :: k2 :: ks => k ++ pathSeparator ++ dotted (k2 :: ks)

/-- A key or path without path separator. -/
def bare (k : String) : Prop := '.' ∉ k.data

instance (k : String) : Decidable (bare k) := by
  unfold bare
  exact inferInstance

/-! ## Predicates used in the statements -/

mutual
/-- The contents `x` are a value of type `t`. -/
def HasType : GoType → Data → Bool
  | .basic .Bool, .bool _ => true
  | .basic .Int, .int _ => true
  | .basic .String, .string _ => true
  | .basic .Interface, .nil => true
  | .basic .Interface, .handle _ => true
  | .basic .Slice, .nil => true
  | .basic .Slice, .handle _ => true
  | .basic .Map, .nil => true
  | .basic .Map, .handle _ => true
  | .Ptr _, .nil => true
  | .Ptr _, .pointer _ => true
  | .Struct _ fields, .struct ds => HasTypeFields fields ds
  | _, _ => false
/-- The contents `ds` are the values of the fields `fields`, in declaration order. -/
def HasTypeFields : List (StructFieldOf GoType) → List Data → Bool
  | [], [] => true
  | ⟨_, _, _, t, _⟩ :: fs, x :: xs => HasType t x && HasTypeFields fs xs
  | _, _ => false
end

/-- The record type `c` is the type of the nested record of a field of the record
type `s` that `buildDescriptor` retains (exported and not tagged `json:"-"`). -/
def nestedIn (env : List GoType) (s c : GoType) : Prop :=
  ∃ name fields f, s = .Struct name fields ∧ f ∈ fields ∧ f.IsExported = true ∧
    f.jsonTag ≠ jsonTagIgnore ∧ nestedStruct env f.Typ = some c

/-- The record type `c` is the type of the nested record of some field of the record
type `s`, exported or not, tagged or not. -/
def nestedInAny (env : List GoType) (s c : GoType) : Prop :=
  ∃ name fields f, s = .Struct name fields ∧ f ∈ fields ∧ nestedStruct env f.Typ = some c

mutual
/-- The struct types that occur in a type, through fields stored by value. -/
def structsOf : GoType → List GoType
  | .basic _ => []
  | .Ptr _ => []
  | .Struct name fields => .Struct name fields :: structsOfFields fields
/-- The struct types that occur in the types of a list of fields. -/
def structsOfFields : List (StructFieldOf GoType) → List GoType
  | [] => []
  | ⟨_, _, _, t, _⟩ :: rest => structsOf t ++ structsOfFields rest
end

/-- The struct types that occur in the entries of a type table. -/
def structsOfTable : List GoType → List GoType
  | [] => []
  | t :: rest => structsOf t ++ structsOfTable rest

/-- The number of entries of `all` that are not in `visited`. -/
def unvisited (all visited : List GoType) : Nat :=
  (all.filter (fun x => decide (x ∉ visited))).length

/-- The struct types `buildDescriptor` can meet when it starts from `t`. -/
def typeUniverse (env : List GoType) (t : GoType) : List GoType :=
  structsOf t ++ structsOfTable env

/-- A recursion budget that is enough for `buildDescriptor env · t []`. -/
def buildFuel (env : List GoType) (t : GoType) : Nat :=
  (typeUniverse env t).length + 1

/-- A field that `buildDescriptor` retains: exported and not tagged `json:"-"`. -/
def retained (f : StructField) : Prop :=
  f.IsExported = true ∧ f.jsonTag ≠ jsonTagIgnore

/-- Field number `i` of `fields`, which is `f`, is maskable: it is retained, and no
retained field declared after it has the same serialization key. -/
def maskable (fields : List StructField) (i : Nat) (f : StructField) : Prop :=
  fields.get? i = some f ∧ retained f ∧
    ∀ j g, i < j → fields.get? j = some g → retained g → tagNameOf g ≠ tagNameOf f

/-- The descriptor `d` describes the record type `t`: its keys are distinct, its field
numbers are distinct, every entry stands for a maskable field of `t` under that field's
serialization key, every retained field has its key in the descriptor, and the child of
an entry describes the nested record type of its field. -/
inductive Describes (env : List GoType) : typeDescriptor → GoType → Prop where
  | mk (es : List (String × fieldDescriptor)) (name : String) (fields : List StructField)
      (hkeys : (es.map (fun e => e.1)).Nodup)
      (hidx : (es.map (fun e => e.2.index)).Nodup)
      (hfield : ∀ tag fd, (tag, fd) ∈ es →
        ∃ f, maskable fields fd.index f ∧ tagNameOf f = tag ∧ fd.tag = tag ∧
          (fd.child = none ↔ nestedStruct env f.Typ = none))
      (hall : ∀ j g, fields.get? j = some g → retained g → ∃ fd, (tagNameOf g, fd) ∈ es)
      (hchild : ∀ tag t i c, (tag, fieldDescriptor.mk t i (some c)) ∈ es →
        ∀ f s, fields.get? i = some f → nestedStruct env f.Typ = some s → Describes env c s) :
      Describes env (.mk es) (.Struct name fields)

/-- The invariant of the loop of `buildDescriptor` over the fields `all`, when the fields
before number `i` have been handled and `desc` is the map filled so far. -/
def DescInv (env : List GoType) (all : List StructField) (i : Nat)
    (desc : List (String × fieldDescriptor)) : Prop :=
  (desc.map (fun e => e.1)).Nodup ∧ (desc.map (fun e => e.2.index)).Nodup ∧
  (∀ tag fd, (tag, fd) ∈ desc →
    fd.index < i ∧ ∃ f, all.get? fd.index = some f ∧ retained f ∧
      (∀ j g, fd.index < j → j < i → all.get? j = some g → retained g →
        tagNameOf g ≠ tagNameOf f) ∧
      tagNameOf f = tag ∧ fd.tag = tag ∧
      (fd.child = none ↔ nestedStruct env f.Typ = none)) ∧
  (∀ j g, j < i → all.get? j = some g → retained g → ∃ fd, (tagNameOf g, fd) ∈ desc) ∧
  (∀ tag t j c, (tag, fieldDescriptor.mk t j (some c)) ∈ desc →
    ∀ f s, all.get? j = some f → nestedStruct env f.Typ = some s → Describes env c s)

/-- Every descriptor in the cache is one `buildDescriptor` returned for its type. -/
def CacheSound (env : List GoType) (cache : List (GoType × typeDescriptor)) : Prop :=
  ∀ t d, cacheLoad cache t = some d →
    ∃ fuel visited, buildDescriptor env fuel t [] = .ok (d, visited)

/-- The descriptor reached from `d` by following a list of serialization keys; `none`
when the keys end at, or pass through, a field without nested descriptor. -/
def descAt : Option typeDescriptor → List String → Option typeDescriptor
  | d, [] => d
  | none, _ :: _ => none
  | some d, k :: ks =>
    match mapLookup d.fields k with
    | none => none
    | some fd => descAt fd.child ks

/-- The descriptor is well formed: at every level the keys are distinct and the field
numbers are distinct. -/
inductive WFDesc : typeDescriptor → Prop where
  | mk (es : List (String × fieldDescriptor))
      (hkeys : (es.map (fun e => e.1)).Nodup)
      (hidx : (es.map (fun e => e.2.index)).Nodup)
      (hchild : ∀ tag t i c, (tag, fieldDescriptor.mk t i (some c)) ∈ es → WFDesc c) :
      WFDesc (.mk es)

/-- The continuations of the paths of `paths` that begin with the key `k` followed by
the path separator, in the order of `paths`. -/
def suffixesOf (k : String) (paths : List String) : List String :=
  paths.filterMap (fun p =>
    match cutAt '.' p.data with
    | some (a, b) => if String.mk a = k then some (String.mk b) else none
    | none => none)

/-! ## Example types (64-bit layout: int and pointers 8 bytes, strings 16) -/

/-- The type `type Profile struct { Age int; Bio string }` with json keys `age`, `bio`. -/
def exProfile : GoType :=
  .Struct "Profile" [⟨"Age", "", "age", .basic .Int, 0⟩, ⟨"Bio", "", "bio", .basic .String, 8⟩]

/-- The type `type User struct { Profile Profile; Name string }`, nested record first. -/
def exUser : GoType :=
  .Struct "User" [⟨"Profile", "", "profile", exProfile, 0⟩,
    ⟨"Name", "", "name", .basic .String, 24⟩]

/-- The value `{profile:{age:30,bio:"x"}, name:"John"}`. -/
def exUserData : Data := .struct [.struct [.int 30, .string "x"], .string "John"]

/-- The fields of `type Member struct { Name string; Profile Profile }`. -/
def exMemberFields : List StructField :=
  [⟨"Name", "", "name", .basic .String, 0⟩, ⟨"Profile", "", "profile", exProfile, 16⟩]

/-- The type `type Member struct { Name string; Profile Profile }`, nested record last. -/
def exMember : GoType := .Struct "Member" exMemberFields

/-- The value `{name:"John", profile:{age:30,bio:"x"}}`. -/
def exMemberData : Data := .struct [.string "John", .struct [.int 30, .string "x"]]

/-- The type `type Person struct { Name string; Email string }`. -/
def exPerson : GoType :=
  .Struct "Person" [⟨"Name", "", "name", .basic .String, 0⟩,
    ⟨"Email", "", "email", .basic .String, 16⟩]

/-- The type `type Account struct { Owner Person; Balance int }`. -/
def exAccount : GoType :=
  .Struct "Account" [⟨"Owner", "", "owner", exPerson, 0⟩,
    ⟨"Balance", "", "balance", .basic .Int, 32⟩]

/-- The value `{owner:{name:"Ann",email:"ann@example.com"}, balance:7}`. -/
def exAccountData : Data :=
  .struct [.struct [.string "Ann", .string "ann@example.com"], .int 7]

/-- The fields of `type Flat struct { Name string; Age int; Bio string }`. -/
def exFlatFields : List StructField :=
  [⟨"Name", "", "name", .basic .String, 0⟩, ⟨"Age", "", "age", .basic .Int, 16⟩,
    ⟨"Bio", "", "bio", .basic .String, 24⟩]

/-- The type `type Flat struct { Name string; Age int; Bio string }`. -/
def exFlat : GoType := .Struct "Flat" exFlatFields

/-- The value `{name:"John", age:30, bio:"x"}`. -/
def exFlatData : Data := .struct [.string "John", .int 30, .string "x"]

/-- The type `type Dotted struct { Version string }` with json key `a.b`. -/
def exDotted : GoType := .Struct "Dotted" [⟨"Version", "", "a.b", .basic .String, 0⟩]

/-- The type `type Node struct { Next *Node }` of the tests (`Recursive`), entry 0 of
its type table. -/
def exNode : GoType := .Struct "Node" [⟨"Next", "", "", .Ptr 0, 0⟩]

/-- The type `type chain struct { next *chain; Val int }`: the reference to itself is
an unexported field. -/
def exChain : GoType :=
  .Struct "chain" [⟨"next", "fieldmask", "", .Ptr 0, 0⟩, ⟨"Val", "", "", .basic .Int, 8⟩]

/-- The type `type Tree struct { Parent *Tree; Val int }` with `Parent` tagged `json:"-"`. -/
def exTree : GoType :=
  .Struct "Tree" [⟨"Parent", "", "-", .Ptr 0, 0⟩, ⟨"Val", "", "", .basic .Int, 8⟩]

/-- The type `type TestStruct struct { Field1 string; Field2 string }` of the tests. -/
def exTestStructFields : List StructField :=
  [⟨"Field1", "", "field1", .basic .String, 0⟩, ⟨"Field2", "", "field2", .basic .String, 16⟩]

/-- The descriptor of `exMember`. -/
def exMemberDesc : typeDescriptor :=
  .mk [("name", .mk "name" 0 none),
    ("profile", .mk "profile" 1 (some (.mk [("age", .mk "age" 0 none), ("bio", .mk "bio" 1 none)])))]

/-- The descriptor of `exAccount`. -/
def exAccountDesc : typeDescriptor :=
  .mk [("owner", .mk "owner" 0
      (some (.mk [("name", .mk "name" 0 none), ("email", .mk "email" 1 none)]))),
    ("balance", .mk "balance" 1 none)]

/-- The descriptor of `exUser`. -/
def exUserDesc : typeDescriptor :=
  .mk [("profile", .mk "profile" 0 (some (.mk [("age", .mk "age" 0 none), ("bio", .mk "bio" 1 none)]))),
    ("name", .mk "name" 1 none)]

/-- The type `type Inner struct { X int }`. -/
def exInner : GoType := .Struct "Inner" [⟨"X", "", "", .basic .Int, 0⟩]

/-- The type `type Pair struct { A Inner; B Inner }`: two sibling fields of one record type. -/
def exPair : GoType := .Struct "Pair" [⟨"A", "", "", exInner, 0⟩, ⟨"B", "", "", exInner, 8⟩]

/-! ## Predicates on paths used in the statements -/

/-- The path `a` is a strict ancestor of the path `p`: `a` followed by the path
separator is a prefix of `p`, so `a` ends in `p` exactly at a separator. -/
def strictAncestor (a p : String) : Bool := HasPrefix p (a ++ pathSeparator)

/-- A path that is empty or consists of white space only. -/
def blank (p : String) : Prop := ∀ c ∈ p.data, IsSpace c = true

/-- The list `R` is the list `P` without blank entries and without duplicates, ordered
by first occurrence in `P`. -/
def NormalizedOf (P R : List String) : Prop :=
  (∀ r ∈ R, r ∈ P ∧ ¬ blank r) ∧ R.Nodup ∧ (∀ p ∈ P, ¬ blank p → p ∈ R) ∧
    R.Pairwise (fun a b => P.indexOf a < P.indexOf b)

/-- The serialization key of a field in the words of the specification: the part of
the json tag before the first comma when that part is not empty, otherwise the
declared name of the field. -/
def serializationKey (f : StructField) : String :=
  if String.mk (f.jsonTag.data.takeWhile (fun c => c ≠ ',')) ≠ "" then
    String.mk (f.jsonTag.data.takeWhile (fun c => c ≠ ','))
  else f.Name

/-! ## Further example types -/

/-- The fields of `type MixedTagsStruct struct { WithTag string; WithoutTag string;
AnotherTag string; NoTag int }` of the tests, with json tags `with_tag` on the first
and `another_tag` on the third field. -/
def exMixedFields : List StructField :=
  [⟨"WithTag", "", "with_tag", .basic .String, 0⟩, ⟨"WithoutTag", "", "", .basic .String, 16⟩,
    ⟨"AnotherTag", "", "another_tag", .basic .String, 32⟩, ⟨"NoTag", "", "", .basic .Int, 48⟩]

/-- The descriptor of `MixedTagsStruct`. -/
def exMixedDesc : typeDescriptor :=
  .mk [("with_tag", .mk "with_tag" 0 none), ("WithoutTag", .mk "WithoutTag" 1 none),
    ("another_tag", .mk "another_tag" 2 none), ("NoTag", .mk "NoTag" 3 none)]

/-- The value `{WithTag:"tagged", WithoutTag:"notag", AnotherTag:"another", NoTag:42}`. -/
def exMixedData : Data :=
  .struct [.string "tagged", .string "notag", .string "another", .int 42]

/-- The type `type NestedStruct struct { Subfield string }` of the tests, json key
`subfield`; entry 0 of the type table `exNestedEnv`. -/
def exNested : GoType :=
  .Struct "NestedStruct" [⟨"Subfield", "", "subfield", .basic .String, 0⟩]

/-- The type table in which `*NestedStruct` is `.Ptr 0`. -/
def exNestedEnv : List GoType := [exNested]

/-- The descriptor of `NestedStruct`. -/
def exNestedDesc : typeDescriptor := .mk [("subfield", .mk "subfield" 0 none)]

/-- The type `type PointerNestedStruct struct { Nested *NestedStruct; Field string }` of
the tests, json keys `nested` and `field`: the reference is the first field. -/
def exPointerNested : GoType :=
  .Struct "PointerNestedStruct" [⟨"Nested", "", "nested", .Ptr 0, 0⟩,
    ⟨"Field", "", "field", .basic .String, 8⟩]

/-- The descriptor of `PointerNestedStruct`. -/
def exPointerNestedDesc : typeDescriptor :=
  .mk [("nested", .mk "nested" 0 (some exNestedDesc)), ("field", .mk "field" 1 none)]

/-- The type `type Holder struct { Field string; Nested *NestedStruct }`, json keys
`field` and `nested`: the fields of `PointerNestedStruct` in the other order. -/
def exHolder : GoType :=
  .Struct "Holder" [⟨"Field", "", "field", .basic .String, 0⟩,
    ⟨"Nested", "", "nested", .Ptr 0, 16⟩]

/-- The type `type ComplexStruct struct { Field1 NestedStruct; Field2 string }` of the
tests, json keys `field1` and `field2`: the nested record is the first field. -/
def exComplex : GoType :=
  .Struct "ComplexStruct" [⟨"Field1", "", "field1", exNested, 0⟩,
    ⟨"Field2", "", "field2", .basic .String, 16⟩]

/-- The descriptor of `ComplexStruct`. -/
def exComplexDesc : typeDescriptor :=
  .mk [("field1", .mk "field1" 0 (some exNestedDesc)), ("field2", .mk "field2" 1 none)]

/-- The type `type Swapped struct { Field2 string; Field1 NestedStruct }`, json keys
`field2` and `field1`: the fields of `ComplexStruct` in the other order. -/
def exSwapped : GoType :=
  .Struct "Swapped" [⟨"Field2", "", "field2", .basic .String, 0⟩,
    ⟨"Field1", "", "field1", exNested, 16⟩]

/-- The descriptor of `Swapped`. -/
def exSwappedDesc : typeDescriptor :=
  .mk [("field2", .mk "field2" 0 none), ("field1", .mk "field1" 1 (some exNestedDesc))]

/-- The fields of `type PrivateFieldStruct struct { Public string; private string }` of
the tests; `Public` has the json key `public`, `private` is not exported. -/
def exPrivateFields : List StructField :=
  [⟨"Public", "", "public", .basic .String, 0⟩,
    ⟨"private", "fieldmask_test", "", .basic .String, 16⟩]

/-- The type `PrivateFieldStruct` of the tests. -/
def exPrivate : GoType := .Struct "PrivateFieldStruct" exPrivateFields

/-- The fields of `type Wrapper struct { Name string; Inner PrivateFieldStruct }`, json
keys `name` and `inner`. -/
def exWrapperFields : List StructField :=
  [⟨"Name", "", "name", .basic .String, 0⟩, ⟨"Inner", "", "inner", exPrivate, 16⟩]

/-- The type `Wrapper`. -/
def exWrapper : GoType := .Struct "Wrapper" exWrapperFields

/-- The descriptor of `Wrapper`. -/
def exWrapperDesc : typeDescriptor :=
  .mk [("name", .mk "name" 0 none),
    ("inner", .mk "inner" 1 (some (.mk [("public", .mk "public" 0 none)])))]

/-- The value `{name:"n", inner:{public:"a", private:"b"}}`. -/
def exWrapperData : Data := .struct [.string "n", .struct [.string "a", .string "b"]]

/-! ## The error predicates of errors.go -/

/-- The call `errors.As(err, &target)` for a target whose type is recognised by
`isTarget`.  `errors.As` tests `err` and then the errors it reaches through `Unwrap`
methods; none of the error types of the package has an `Unwrap` method (nor have the
values of `errors.New`), so the chain of an error of the package is that error alone.
A nil error matches nothing. -/
def errorsAs (isTarget : Error → Bool) (err : Option Error) : Bool :=
  match err with
  | none => false
  | some e => isTarget e

/-- The function `IsUnexpectedKindError`. -/
def IsUnexpectedKindError (err : Option Error) : Bool :=
  errorsAs (fun e => match e with
    | .errUnexpectedKind _ => true
    | _ => false) err

/-- The function `IsCircularReferenceError`. -/
def IsCircularReferenceError (err : Option Error) : Bool :=
  errorsAs (fun e => match e with
    | .errCircularReference _ => true
    | _ => false) err

/-- The function `IsFieldProcessingError`. -/
def IsFieldProcessingError (err : Option Error) : Bool :=
  errorsAs (fun e => match e with
    | .errFieldProcessing _ _ => true
    | _ => false) err

/-! ## Sequences of calls of `getTypeDescriptor` -/

/-- The type `getTypeDescriptor` looks up and builds for the argument `t`: the element
of a pointer type (its entry in the type table), the type itself otherwise. -/
def stripPointer (env : List GoType) : GoType → Option GoType
  | .Ptr e => env.get? e
  | other => some other

/-- The descriptor cache after the calls `getTypeDescriptor(t)` for the types `t` of a
list, in that order, starting from `cache`: a call that returns a descriptor leaves the
cache it returns, a call that returns an error has stored nothing. -/
def cacheAfter (env : List GoType) (fuel : Nat) :
    List (GoType × typeDescriptor) → List GoType → List (GoType × typeDescriptor)
  | cache, [] => cache
  | cache, t :: ts =>
    match getTypeDescriptor env fuel cache t with
    | .ok (_, cache1) => cacheAfter env fuel cache1 ts
    | _ => cacheAfter env fuel cache ts

/-! ## Example types for duplicate keys and mutual references -/

/-- The fields of `type Dup struct { A string; B int; C string }` with the json tags
`x`, `x` and `y`: the first two fields have the same serialization key. -/
def exDupFields : List StructField :=
  [⟨"A", "", "x", .basic .String, 0⟩, ⟨"B", "", "x", .basic .Int, 16⟩,
    ⟨"C", "", "y", .basic .String, 24⟩]

/-- The descriptor of `Dup`. -/
def exDupDesc : typeDescriptor := .mk [("x", .mk "x" 1 none), ("y", .mk "y" 2 none)]

/-- The type `type Ping struct { Pong *Pong }`, entry 0 of the type table `exPingEnv`. -/
def exPing : GoType := .Struct "Ping" [⟨"Pong", "", "", .Ptr 1, 0⟩]

/-- The type `type Pong struct { Ping *Ping }`, entry 1 of the type table `exPingEnv`. -/
def exPong : GoType := .Struct "Pong" [⟨"Ping", "", "", .Ptr 0, 0⟩]

/-- The type table of the two mutually referring types `Ping` and `Pong`. -/
def exPingEnv : List GoType := [exPing, exPong]

/-! ## The order of a `range` over a descriptor map -/

/-- The descriptor `d` with the entries of its map in the reverse order: the same map,
as a `range` can yield it as well. -/
def typeDescriptor.reversed (d : typeDescriptor) : typeDescriptor := .mk d.fields.reverse

/-- The method `Apply` in a call whose `range` over the map of the target's descriptor
yields the entries in the order of `order td`, where `td` is the descriptor found in
the cache or built; the cache keeps `td`.  Go picks the order of every `range` over a
map anew, so one and the same call of `Apply` can run as `FieldMask.ApplyRanged order`
for every `order` that only permutes the entries.  `FieldMask.Apply` is the case in
which `order` changes nothing. -/
def FieldMask.ApplyRanged (order : typeDescriptor → typeDescriptor) (env : List GoType)
    (fuel : Nat) (cache : List (GoType × typeDescriptor)) (f : Option FieldMask) (i : Iface) :
    ApplyOutcome :=
  if FieldMask.IsEmpty f then .returned none i cache
  else
    match i with
    | .nil => .returned (some .ErrNilInput) i cache
    | .basic _ _ => .returned (some .ErrNilInput) i cache
    | .struct _ _ _ => .returned (some .ErrNilInput) i cache
    | .pointer _ none => .returned (some .ErrNilInput) i cache
    | .pointer elem (some (addr, data)) =>
      if elem.Kind ≠ .Struct then .returned (some .ErrNoStruct) i cache
      else
        match getTypeDescriptor env fuel cache elem with
        | .fail e => .returned (some e) i cache
        | .panic => .panic
        | .outOfFuel => .outOfFuel
        | .ok (td, cache1) =>
          match (order td).apply ⟨elem, data, some addr, false⟩ (FieldMask.pathsOf f) [] with
          | none => .panic
          | some r => .returned r.err (.pointer elem (some (addr, r.data))) cache1

/-- The type `type Empty struct{}`. -/
def exEmpty : GoType := .Struct "Empty" []

/-- The type `type YZ struct { Y int; Z int }`. -/
def exYZ : GoType := .Struct "YZ" [⟨"Y", "", "", .basic .Int, 0⟩, ⟨"Z", "", "", .basic .Int, 8⟩]

/-- The type `type Alias struct { X int; A Empty; B YZ }`: the field `A` has size zero,
so `A` and `B` both stand at offset 8. -/
def exAlias : GoType :=
  .Struct "Alias" [⟨"X", "", "", .basic .Int, 0⟩, ⟨"A", "", "", exEmpty, 8⟩,
    ⟨"B", "", "", exYZ, 8⟩]

/-- The descriptor of `Alias`, its entries in the order of insertion. -/
def exAliasDesc : typeDescriptor :=
  .mk [("X", .mk "X" 0 none), ("A", .mk "A" 1 (some (.mk []))),
    ("B", .mk "B" 2 (some (.mk [("Y", .mk "Y" 0 none), ("Z", .mk "Z" 1 none)])))]

/-- The value `{X:1, A:{}, B:{Y:2, Z:3}}`. -/
def exAliasData : Data := .struct [.int 1, .struct [], .struct [.int 2, .int 3]]

/-! ## Induction over descriptors and the equations of `apply` -/

theorem sizeOf_child_lt {fields : List (String × fieldDescriptor)} {tag t : String} {i : Nat}
    {c : typeDescriptor} (h : (tag, fieldDescriptor.mk t i (some c)) ∈ fields) :
    sizeOf c < sizeOf (typeDescriptor.mk fields) := by
  have h1 := List.sizeOf_lt_of_mem h
  simp only [Prod.mk.sizeOf_spec, fieldDescriptor.mk.sizeOf_spec, Option.some.sizeOf_spec,
    typeDescriptor.mk.sizeOf_spec] at h1 ⊢
  omega

/-- Induction over a descriptor: a property holds of a descriptor once it holds of the
children of its entries. -/
theorem typeDescriptor.induct {P : typeDescriptor → Prop}
    (step : ∀ fields : List (String × fieldDescriptor),
      (∀ tag t i c, (tag, fieldDescriptor.mk t i (some c)) ∈ fields → P c) →
        P (typeDescriptor.mk fields)) :
    ∀ d, P d := by
  intro d
  generalize hn : sizeOf d = n
  induction n using Nat.strong_induction_on generalizing d with
  | _ n ih =>
    cases d with
    | mk fields =>
      apply step
      intro tag t i c hmem
      exact ih _ (hn ▸ sizeOf_child_lt hmem) c rfl

theorem apply_mk_none {fields : List (String × fieldDescriptor)} {value : Value}
    {paths : List String} {visited : List Nat} (h : value.addr = none) :
    (typeDescriptor.mk fields).apply value paths visited = some ⟨value.data, visited, none⟩ := by
  rw [typeDescriptor.apply, h]

theorem apply_mk_visited {fields : List (String × fieldDescriptor)} {value : Value}
    {paths : List String} {visited : List Nat} {addr : Nat} (h : value.addr = some addr)
    (hv : addr ∈ visited) :
    (typeDescriptor.mk fields).apply value paths visited = some ⟨value.data, visited, none⟩ := by
  rw [typeDescriptor.apply, h]
  simp [hv]

theorem apply_mk_enter {fields : List (String × fieldDescriptor)} {value : Value}
    {paths : List String} {visited : List Nat} {addr : Nat} (h : value.addr = some addr)
    (hv : addr ∉ visited) :
    (typeDescriptor.mk fields).apply value paths visited =
      applyFields fields (buildPathMaps paths).1 (buildPathMaps paths).2 value
        (addr :: visited) := by
  rw [typeDescriptor.apply, h]
  simp [hv]

theorem applyFields_nil (keepMap : List String) (nestedPaths : List (String × List String))
    (value : Value) (visited : List Nat) :
    applyFields [] keepMap nestedPaths value visited = some ⟨value.data, visited, none⟩ := by
  rw [applyFields]

section Equations

variable {tag t : String} {index : Nat} {child : Option typeDescriptor}
  {rest : List (String × fieldDescriptor)} {keepMap : List String}
  {nestedPaths : List (String × List String)} {value : Value} {visited : List Nat}

theorem applyFields_cons_panic (h : value.Field index = none) :
    applyFields ((tag, .mk t index child) :: rest) keepMap nestedPaths value visited = none := by
  rw [applyFields, h]

theorem applyFields_cons_skip {fv : Value} (h : value.Field index = some fv)
    (hs : fv.CanSet = false) :
    applyFields ((tag, .mk t index child) :: rest) keepMap nestedPaths value visited =
      applyFields rest keepMap nestedPaths value visited := by
  rw [applyFields, h]
  simp [hs]

theorem applyFields_cons_descend {fv : Value} {c : typeDescriptor} {sub : List String}
    (h : value.Field index = some fv) (hs : fv.CanSet = true)
    (hl : mapLookup nestedPaths tag = some sub) :
    applyFields ((tag, .mk t index (some c)) :: rest) keepMap nestedPaths value visited =
      match c.apply fv sub visited with
      | none => none
      | some r =>
        match r.err with
        | some e => some ⟨(value.setField index r.data).data, r.visited, some e⟩
        | none =>
          applyFields rest keepMap nestedPaths (value.setField index r.data) r.visited := by
  rw [applyFields, h]
  simp only [hs, hl]
  rfl

theorem applyFields_cons_leaf {fv : Value}
    (h : value.Field index = some fv) (hs : fv.CanSet = true)
    (hl : child = none ∨ mapLookup nestedPaths tag = none) :
    applyFields ((tag, .mk t index child) :: rest) keepMap nestedPaths value visited =
      if tag ∈ keepMap then applyFields rest keepMap nestedPaths value visited
      else
        applyFields rest keepMap nestedPaths (value.setField index (getZero fv.typ))
          visited := by
  rw [applyFields, h]
  simp only [hs]
  rcases hl with hl | hl
  · subst hl; rfl
  · rw [hl]; cases child <;> rfl

end Equations

theorem applyFields_err_none (es : List (String × fieldDescriptor))
    (hch : ∀ tag t i c, (tag, fieldDescriptor.mk t i (some c)) ∈ es →
      ∀ (v : Value) (S : List String) (V : List Nat) (r : applyResult),
        c.apply v S V = some r → r.err = none) :
    ∀ (keep : List String) (nested : List (String × List String)) (v : Value) (V : List Nat)
      (r : applyResult), applyFields es keep nested v V = some r → r.err = none := by
  induction es with
  | nil =>
    intro keep nested v V r h
    rw [applyFields_nil] at h; cases h; rfl
  | cons e rest ihr =>
    intro keep nested v V r h
    obtain ⟨tag, fd⟩ := e
    obtain ⟨t, index, child⟩ := fd
    have ihr := ihr (fun tag t i c hm => hch tag t i c (List.mem_cons_of_mem _ hm))
    cases hF : v.Field index with
    | none => rw [applyFields_cons_panic hF] at h; cases h
    | some fv =>
      cases hC : fv.CanSet with
      | false =>
        rw [applyFields_cons_skip hF hC] at h
        exact ihr _ _ _ _ _ h
      | true =>
        cases child with
        | none =>
          rw [applyFields_cons_leaf hF hC (Or.inl rfl)] at h
          split at h
          · exact ihr _ _ _ _ _ h
          · exact ihr _ _ _ _ _ h
        | some c =>
          cases hL : mapLookup nested tag with
          | none =>
            rw [applyFields_cons_leaf hF hC (Or.inr hL)] at h
            split at h
            · exact ihr _ _ _ _ _ h
            · exact ihr _ _ _ _ _ h
          | some sub =>
            rw [applyFields_cons_descend hF hC hL] at h
            cases hA : c.apply fv sub V with
            | none => rw [hA] at h; cases h
            | some r1 =>
              have h1 := hch tag t index c (List.mem_cons_self _ _) _ _ _ _ hA
              rw [hA] at h
              simp only [h1] at h
              exact ihr _ _ _ _ _ h

/-- The recursive `apply` never produces an error. -/
theorem apply_err_none : ∀ (d : typeDescriptor) (v : Value) (S : List String) (V : List Nat)
    (r : applyResult), d.apply v S V = some r → r.err = none := by
  intro d
  induction d using typeDescriptor.induct with
  | step fields ih =>
    intro v S V r h
    cases ha : v.addr with
    | none => rw [apply_mk_none ha] at h; cases h; rfl
    | some addr =>
      by_cases hv : addr ∈ V
      · rw [apply_mk_visited ha hv] at h; cases h; rfl
      · rw [apply_mk_enter ha hv] at h
        exact applyFields_err_none fields ih _ _ _ _ _ h

/-- What one round of the loop of `apply` does, case by case: the field cannot be set and
is skipped, `apply` descends into it, it is kept, or it is reset. -/
theorem applyFields_cons_inv {tag t : String} {index : Nat} {child : Option typeDescriptor}
    {rest : List (String × fieldDescriptor)} {keepMap : List String}
    {nestedPaths : List (String × List String)} {value : Value} {visited : List Nat}
    {r : applyResult}
    (h : applyFields ((tag, .mk t index child) :: rest) keepMap nestedPaths value visited
      = some r) :
    ∃ fv, value.Field index = some fv ∧
      ((fv.CanSet = false ∧ applyFields rest keepMap nestedPaths value visited = some r) ∨
       (fv.CanSet = true ∧ ∃ c sub r1, child = some c ∧ mapLookup nestedPaths tag = some sub ∧
          c.apply fv sub visited = some r1 ∧ r1.err = none ∧
          applyFields rest keepMap nestedPaths (value.setField index r1.data) r1.visited
            = some r) ∨
       (fv.CanSet = true ∧ (child = none ∨ mapLookup nestedPaths tag = none) ∧
          tag ∈ keepMap ∧ applyFields rest keepMap nestedPaths value visited = some r) ∨
       (fv.CanSet = true ∧ (child = none ∨ mapLookup nestedPaths tag = none) ∧
          tag ∉ keepMap ∧
          applyFields rest keepMap nestedPaths (value.setField index (getZero fv.typ)) visited
            = some r)) := by
  cases hF : value.Field index with
  | none => rw [applyFields_cons_panic hF] at h; cases h
  | some fv =>
    refine ⟨fv, rfl, ?_⟩
    cases hC : fv.CanSet with
    | false =>
      rw [applyFields_cons_skip hF hC] at h
      exact Or.inl ⟨rfl, h⟩
    | true =>
      by_cases hl : child = none ∨ mapLookup nestedPaths tag = none
      · rw [applyFields_cons_leaf hF hC hl] at h
        by_cases hk : tag ∈ keepMap
        · rw [if_pos hk] at h
          exact Or.inr (Or.inr (Or.inl ⟨rfl, hl, hk, h⟩))
        · rw [if_neg hk] at h
          exact Or.inr (Or.inr (Or.inr ⟨rfl, hl, hk, h⟩))
      · cases child with
        | none => exact absurd (Or.inl rfl) hl
        | some c =>
          cases hL : mapLookup nestedPaths tag with
          | none => exact absurd (Or.inr hL) hl
          | some sub =>
            rw [applyFields_cons_descend hF hC hL] at h
            cases hA : c.apply fv sub visited with
            | none => rw [hA] at h; cases h
            | some r1 =>
              have h1 := apply_err_none c _ _ _ _ hA
              rw [hA] at h
              simp only [h1] at h
              exact Or.inr (Or.inl ⟨rfl, c, sub, r1, rfl, rfl, hA, h1, h⟩)

/-! ## Values and their fields -/

theorem Value.Field_some {v : Value} {i : Nat} {fv : Value} (h : v.Field i = some fv) :
    ∃ name fields ds f x, v.typ = .Struct name fields ∧ v.data = .struct ds ∧
      fields.get? i = some f ∧ ds.get? i = some x ∧
      fv = ⟨f.Typ, x, v.addr.map (fun a => a + f.Offset), v.flagRO || !f.IsExported⟩ := by
  unfold Value.Field at h
  split at h
  · rename_i name fields ds ht hd
    split at h
    · rename_i f x hf hx
      cases h
      exact ⟨name, fields, ds, f, x, ht, hd, hf, hx, rfl⟩
    · cases h
  · cases h

theorem Value.Field_data {v : Value} {i : Nat} {fv : Value} (h : v.Field i = some fv) :
    v.data.field i = some fv.data := by
  obtain ⟨name, fields, ds, f, x, _, hd, _, hx, rfl⟩ := Value.Field_some h
  rw [hd]
  exact hx

@[simp] theorem Value.setField_typ (v : Value) (i : Nat) (x : Data) :
    (v.setField i x).typ = v.typ := rfl

@[simp] theorem Value.setField_addr (v : Value) (i : Nat) (x : Data) :
    (v.setField i x).addr = v.addr := rfl

@[simp] theorem Value.setField_flagRO (v : Value) (i : Nat) (x : Data) :
    (v.setField i x).flagRO = v.flagRO := rfl

@[simp] theorem Value.setField_data (v : Value) (i : Nat) (x : Data) :
    (v.setField i x).data = v.data.setField i x := rfl

theorem Data.field_setField_ne (d : Data) {i j : Nat} (x : Data) (h : i ≠ j) :
    (d.setField i x).field j = d.field j := by
  cases d <;> simp [Data.setField, Data.field, List.getElem?_set, h]

theorem Data.field_setField_same {d : Data} {i : Nat} {y : Data} (x : Data)
    (h : d.field i = some y) : (d.setField i x).field i = some x := by
  cases d with
  | struct ds =>
    simp only [Data.field, List.get?_eq_getElem?] at h
    have hlt : i < ds.length := by
      by_contra hc
      rw [List.getElem?_eq_none (by omega)] at h
      cases h
    simp [Data.setField, Data.field, List.getElem?_set, hlt]
  | _ => simp [Data.field] at h

theorem Data.setField_same {d : Data} {i : Nat} {y : Data} (h : d.field i = some y) :
    d.setField i y = d := by
  cases d with
  | struct ds =>
    simp only [Data.field, List.get?_eq_getElem?] at h
    simp only [Data.setField]
    congr 1
    apply List.ext_getElem?
    intro j
    rw [List.getElem?_set]
    split
    · rename_i hij
      subst hij
      split
      · exact h.symm
      · rename_i hlt
        rw [List.getElem?_eq_none (by omega)] at h
        cases h
    · rfl
  | _ => simp [Data.field] at h

theorem Value.Field_setField_ne (v : Value) {i j : Nat} (x : Data) (h : i ≠ j) :
    (v.setField i x).Field j = v.Field j := by
  unfold Value.Field
  cases hv : v.data with
  | struct ds =>
    simp only [Value.setField_typ, Value.setField_data, hv, Data.setField,
      Value.setField_addr, Value.setField_flagRO]
    cases v.typ with
    | Struct name fields =>
      simp only
      rw [List.get?_eq_getElem?, List.get?_eq_getElem?, List.get?_eq_getElem?,
        List.getElem?_set_ne h]
    | _ => rfl
  | _ => simp [Value.setField, Data.setField, hv]

theorem Value.Field_setField_same {v : Value} {i : Nat} {fv : Value} (x : Data)
    (h : v.Field i = some fv) :
    (v.setField i x).Field i = some ⟨fv.typ, x, fv.addr, fv.flagRO⟩ := by
  obtain ⟨name, fields, ds, f, y, ht, hd, hf, hy, rfl⟩ := Value.Field_some h
  have hlt : i < ds.length := by
    rw [List.get?_eq_getElem?] at hy
    by_contra hc
    rw [List.getElem?_eq_none (by omega)] at hy
    cases hy
  unfold Value.Field
  simp only [Value.setField_typ, Value.setField_data, hd, Data.setField, ht,
    Value.setField_addr, Value.setField_flagRO, hf]
  rw [List.get?_eq_getElem?, List.getElem?_set_self hlt]

/-- The loop of `apply` leaves alone every field whose number belongs to no entry. -/
theorem applyFields_frame (es : List (String × fieldDescriptor)) :
    ∀ (keep : List String) (nested : List (String × List String)) (v : Value) (V : List Nat)
      (r : applyResult), applyFields es keep nested v V = some r →
      ∀ j, (∀ e ∈ es, e.2.index ≠ j) → r.data.field j = v.data.field j := by
  induction es with
  | nil =>
    intro keep nested v V r h j _
    rw [applyFields_nil] at h; cases h; rfl
  | cons e rest ih =>
    intro keep nested v V r h j hj
    obtain ⟨tag, fd⟩ := e
    obtain ⟨t, index, child⟩ := fd
    have hne : index ≠ j := hj _ (List.mem_cons_self _ _)
    have hrest : ∀ e ∈ rest, e.2.index ≠ j := fun e he => hj e (List.mem_cons_of_mem _ he)
    obtain ⟨fv, hF, hcase⟩ := applyFields_cons_inv h
    rcases hcase with ⟨_, h1⟩ | ⟨_, c, sub, r1, _, _, _, _, h1⟩ | ⟨_, _, _, h1⟩ | ⟨_, _, _, h1⟩
    · exact ih _ _ _ _ _ h1 j hrest
    · rw [ih _ _ _ _ _ h1 j hrest, Value.setField_data, Data.field_setField_ne _ _ hne]
    · exact ih _ _ _ _ _ h1 j hrest
    · rw [ih _ _ _ _ _ h1 j hrest, Value.setField_data, Data.field_setField_ne _ _ hne]

/-! ## Paths -/

theorem cutAt_eq_none {sep : Char} {l : List Char} : cutAt sep l = none ↔ sep ∉ l := by
  induction l with
  | nil => simp [cutAt]
  | cons c cs ih =>
    unfold cutAt
    by_cases hc : c = sep
    · simp [hc]
    · rw [if_neg hc]
      cases h : cutAt sep cs with
      | none =>
        have := ih.mp h
        simp [this, Ne.symm hc]
      | some ab =>
        have : sep ∈ cs := by
          by_contra hn
          rw [ih.mpr hn] at h
          cases h
        simp [this]

theorem cutAt_eq_some {sep : Char} {l a b : List Char} :
    cutAt sep l = some (a, b) ↔ l = a ++ sep :: b ∧ sep ∉ a := by
  induction l generalizing a b with
  | nil => simp [cutAt]
  | cons c cs ih =>
    unfold cutAt
    by_cases hc : c = sep
    · subst hc
      simp only [if_true, Option.some.injEq, Prod.mk.injEq]
      constructor
      · rintro ⟨rfl, rfl⟩
        simp
      · rintro ⟨h1, h2⟩
        cases a with
        | nil => simp at h1; exact ⟨rfl, h1⟩
        | cons x xs =>
          simp at h1
          exact absurd (by simp [h1.1]) h2
    · rw [if_neg hc]
      cases h : cutAt sep cs with
      | none =>
        constructor
        · intro h0; cases h0
        · rintro ⟨h1, h2⟩
          exfalso
          cases a with
          | nil => simp at h1; exact hc h1.1
          | cons x xs =>
            simp at h1
            have : sep ∈ cs := by rw [h1.2]; simp
            exact (cutAt_eq_none.mp h) this
      | some ab =>
        obtain ⟨a1, b1⟩ := ab
        have h1 := ih.mp h
        simp only [Option.some.injEq, Prod.mk.injEq]
        constructor
        · rintro ⟨rfl, rfl⟩
          refine ⟨by simp [h1.1], ?_⟩
          simp [h1.2, Ne.symm hc]
        · rintro ⟨h2, h3⟩
          cases a with
          | nil => simp at h2; exact absurd h2.1 hc
          | cons x xs =>
            simp at h2 h3
            obtain ⟨rfl, h2⟩ := h2
            have := ih.mpr ⟨h2, h3.2⟩
            rw [h] at this
            cases this
            exact ⟨rfl, rfl⟩

theorem SplitN2_bare {p : String} (h : bare p) : SplitN2 p = [p] := by
  unfold SplitN2
  rw [cutAt_eq_none.mpr h]

theorem SplitN2_cut {p : String} {a b : List Char} (h : cutAt '.' p.data = some (a, b)) :
    SplitN2 p = [String.mk a, String.mk b] := by
  unfold SplitN2
  rw [h]

theorem bare_mk_of_cut {l a b : List Char} (h : cutAt '.' l = some (a, b)) :
    bare (String.mk a) := (cutAt_eq_some.mp h).2

theorem mapLookup_mapInsert {β : Type} (m : List (String × β)) (k k1 : String) (v : β) :
    mapLookup (mapInsert m k v) k1 = if k = k1 then some v else mapLookup m k1 := by
  induction m with
  | nil => simp [mapInsert, mapLookup]
  | cons e rest ih =>
    obtain ⟨k0, w⟩ := e
    unfold mapInsert
    by_cases h0 : k0 = k
    · subst h0
      simp only [if_true, mapLookup]
      by_cases h1 : k0 = k1
      · simp [h1]
      · simp [h1]
    · rw [if_neg h0]
      simp only [mapLookup]
      by_cases h1 : k0 = k1
      · subst h1
        simp [Ne.symm h0]
      · simp only [h1, if_false, ih]

theorem buildPathMapsStep_bare (maps : List String × List (String × List String))
    {p : String} (h : bare p) :
    buildPathMapsStep maps p = (if p ∈ maps.1 then maps.1 else maps.1 ++ [p], maps.2) := by
  unfold buildPathMapsStep
  rw [SplitN2_bare h]

theorem buildPathMapsStep_cut (maps : List String × List (String × List String))
    {p : String} {a b : List Char} (h : cutAt '.' p.data = some (a, b)) :
    buildPathMapsStep maps p =
      (maps.1, mapInsert maps.2 (String.mk a)
        ((mapLookup maps.2 (String.mk a)).getD [] ++ [String.mk b])) := by
  unfold buildPathMapsStep
  rw [SplitN2_cut h]

theorem foldl_keep_iff (S : List String) :
    ∀ (acc : List String × List (String × List String)) (k : String),
      k ∈ (S.foldl buildPathMapsStep acc).1 ↔ k ∈ acc.1 ∨ (k ∈ S ∧ bare k) := by
  induction S with
  | nil => intro acc k; simp
  | cons p rest ih =>
    intro acc k
    rw [List.foldl_cons, ih]
    cases hc : cutAt '.' p.data with
    | none =>
      have hb : bare p := cutAt_eq_none.mp hc
      rw [buildPathMapsStep_bare _ hb]
      simp only [List.mem_cons]
      by_cases hp : p ∈ acc.1
      · rw [if_pos hp]
        constructor
        · rintro (h | h)
          · exact Or.inl h
          · exact Or.inr ⟨Or.inr h.1, h.2⟩
        · rintro (h | ⟨h | h, hb2⟩)
          · exact Or.inl h
          · subst h; exact Or.inl hp
          · exact Or.inr ⟨h, hb2⟩
      · rw [if_neg hp]
        simp only [List.mem_append, List.mem_singleton]
        constructor
        · rintro ((h | h) | h)
          · exact Or.inl h
          · subst h; exact Or.inr ⟨Or.inl rfl, hb⟩
          · exact Or.inr ⟨Or.inr h.1, h.2⟩
        · rintro (h | ⟨h | h, hb2⟩)
          · exact Or.inl (Or.inl h)
          · exact Or.inl (Or.inr h)
          · exact Or.inr ⟨h, hb2⟩
    | some ab =>
      obtain ⟨a, b⟩ := ab
      rw [buildPathMapsStep_cut _ hc]
      simp only [List.mem_cons]
      have hnb : ¬ bare p := by
        intro hb
        rw [cutAt_eq_none.mpr hb] at hc
        cases hc
      constructor
      · rintro (h | h)
        · exact Or.inl h
        · exact Or.inr ⟨Or.inr h.1, h.2⟩
      · rintro (h | ⟨h | h, hb2⟩)
        · exact Or.inl h
        · subst h; exact absurd hb2 hnb
        · exact Or.inr ⟨h, hb2⟩

/-- The set `keepMap` holds exactly the paths without separator. -/
theorem mem_keepMap_iff (S : List String) (k : String) :
    k ∈ (buildPathMaps S).1 ↔ k ∈ S ∧ bare k := by
  unfold buildPathMaps
  rw [foldl_keep_iff]
  simp

theorem suffixesOf_nil (k : String) : suffixesOf k [] = [] := rfl

theorem suffixesOf_cons_bare (k : String) {p : String} (rest : List String) (h : bare p) :
    suffixesOf k (p :: rest) = suffixesOf k rest := by
  unfold suffixesOf
  rw [List.filterMap_cons]
  simp only [cutAt_eq_none.mpr h]

theorem suffixesOf_cons_cut (k : String) {p : String} (rest : List String) {a b : List Char}
    (h : cutAt '.' p.data = some (a, b)) :
    suffixesOf k (p :: rest) =
      if String.mk a = k then String.mk b :: suffixesOf k rest else suffixesOf k rest := by
  unfold suffixesOf
  rw [List.filterMap_cons]
  simp only [h]
  split <;> simp_all

theorem foldl_nested_lookup (S : List String) :
    ∀ (acc : List String × List (String × List String)) (k : String),
      mapLookup (S.foldl buildPathMapsStep acc).2 k =
        if suffixesOf k S = [] then mapLookup acc.2 k
        else some ((mapLookup acc.2 k).getD [] ++ suffixesOf k S) := by
  induction S with
  | nil => intro acc k; simp [suffixesOf_nil]
  | cons p rest ih =>
    intro acc k
    rw [List.foldl_cons, ih]
    cases hc : cutAt '.' p.data with
    | none =>
      have hb : bare p := cutAt_eq_none.mp hc
      rw [buildPathMapsStep_bare _ hb, suffixesOf_cons_bare k rest hb]
    | some ab =>
      obtain ⟨a, b⟩ := ab
      rw [buildPathMapsStep_cut _ hc, suffixesOf_cons_cut k rest hc]
      simp only [mapLookup_mapInsert]
      by_cases hk : String.mk a = k
      · subst hk
        simp only [if_true, Option.getD_some, List.append_assoc, List.singleton_append]
        by_cases hs : suffixesOf (String.mk a) rest = []
        · simp [hs]
        · simp [hs]
      · simp only [hk, if_false]

/-- The map `nestedPaths` holds, under a key, the continuations of the paths that begin
with that key and a separator, when there are any. -/
theorem nestedPaths_lookup (S : List String) (k : String) :
    mapLookup (buildPathMaps S).2 k =
      if suffixesOf k S = [] then none else some (suffixesOf k S) := by
  unfold buildPathMaps
  rw [foldl_nested_lookup]
  simp [mapLookup]

theorem data_dot_append (k rest : String) :
    (k ++ pathSeparator ++ rest).data = k.data ++ '.' :: rest.data := by
  simp [String.data_append, pathSeparator]

theorem mem_suffixesOf {k : String} (hk : bare k) (S : List String) (rest : String) :
    rest ∈ suffixesOf k S ↔ k ++ pathSeparator ++ rest ∈ S := by
  unfold suffixesOf
  rw [List.mem_filterMap]
  constructor
  · rintro ⟨p, hp, h⟩
    cases hc : cutAt '.' p.data with
    | none => rw [hc] at h; cases h
    | some ab =>
      obtain ⟨a, b⟩ := ab
      rw [hc] at h
      simp only at h
      split at h
      · rename_i hak
        cases h
        have h1 := (cutAt_eq_some.mp hc).1
        have : p = k ++ pathSeparator ++ String.mk b := by
          apply String.ext
          rw [data_dot_append, ← hak, h1]
        rw [← this]
        exact hp
      · cases h
  · intro h
    refine ⟨_, h, ?_⟩
    have : cutAt '.' (k ++ pathSeparator ++ rest).data = some (k.data, rest.data) := by
      rw [cutAt_eq_some, data_dot_append]
      exact ⟨rfl, hk⟩
    rw [this]
    simp

/-- A mask of bare keys puts nothing into `nestedPaths`. -/
theorem nestedPaths_lookup_of_bare {S : List String} (hS : ∀ p ∈ S, bare p) (k : String) :
    mapLookup (buildPathMaps S).2 k = none := by
  rw [nestedPaths_lookup]
  have : suffixesOf k S = [] := by
    induction S with
    | nil => rfl
    | cons p rest ih =>
      rw [suffixesOf_cons_bare k rest (hS p (List.mem_cons_self _ _))]
      exact ih (fun q hq => hS q (List.mem_cons_of_mem _ hq))
  rw [if_pos this]

/-! ## The descriptor builder -/

section BuildEquations

variable {build : GoType → List GoType → Result (typeDescriptor × List GoType)}
  {env : List GoType} {field : StructField} {rest : List StructField} {i : Nat}
  {desc : List (String × fieldDescriptor)} {visited : List GoType}

theorem buildFields_nil :
    buildFields build env [] i desc visited = .ok (.mk desc, visited) := by
  rw [buildFields]

theorem buildFields_cons_skip (h : field.IsExported = false ∨ field.jsonTag = jsonTagIgnore) :
    buildFields build env (field :: rest) i desc visited =
      buildFields build env rest (i + 1) desc visited := by
  rw [buildFields]
  rcases h with h | h
  · simp [h]
  · simp [h]

theorem buildFields_cons_leaf (he : field.IsExported = true)
    (hi : field.jsonTag ≠ jsonTagIgnore) (hn : nestedStruct env field.Typ = none) :
    buildFields build env (field :: rest) i desc visited =
      buildFields build env rest (i + 1)
        (mapInsert desc (tagNameOf field) (.mk (tagNameOf field) i none)) visited := by
  rw [buildFields]
  simp [he, hi, hn]

theorem buildFields_cons_nested {ft : GoType} (he : field.IsExported = true)
    (hi : field.jsonTag ≠ jsonTagIgnore) (hn : nestedStruct env field.Typ = some ft) :
    buildFields build env (field :: rest) i desc visited =
      match build ft visited with
      | .ok (child, visited1) =>
        buildFields build env rest (i + 1)
          (mapInsert desc (tagNameOf field) (.mk (tagNameOf field) i (some child))) visited1
      | .fail e => .fail e
      | .panic => .panic
      | .outOfFuel => .outOfFuel := by
  rw [buildFields]
  simp only [he, hi, hn]
  rfl

end BuildEquations

theorem buildDescriptor_zero (env : List GoType) (t : GoType) (visited : List GoType) :
    buildDescriptor env 0 t visited = .outOfFuel := by
  rw [buildDescriptor]

theorem buildDescriptor_succ_visited {env : List GoType} {fuel : Nat} {t : GoType}
    {visited : List GoType} (h : t ∈ visited) :
    buildDescriptor env (fuel + 1) t visited = .fail (.errCircularReference t) := by
  cases t <;> simp [buildDescriptor, h]

theorem buildDescriptor_succ_struct {env : List GoType} {fuel : Nat} {name : String}
    {fields : List StructField} {visited : List GoType}
    (h : GoType.Struct name fields ∉ visited) :
    buildDescriptor env (fuel + 1) (.Struct name fields) visited =
      buildFields (buildDescriptor env fuel) env fields 0 []
        (.Struct name fields :: visited) := by
  rw [buildDescriptor]
  simp [h]

theorem nestedStruct_isStruct {env : List GoType} {t s : GoType}
    (h : nestedStruct env t = some s) : ∃ name fields, s = .Struct name fields := by
  cases t with
  | basic k => simp [nestedStruct] at h
  | Struct name fields =>
    simp [nestedStruct] at h
    exact ⟨name, fields, h.symm⟩
  | Ptr e =>
    simp only [nestedStruct] at h
    split at h
    · rename_i name fields _
      cases h
      exact ⟨name, fields, rfl⟩
    · cases h

theorem drop_eq_cons_get {α : Type} {l : List α} {i : Nat} {x : α} {r : List α}
    (h : l.drop i = x :: r) : l.get? i = some x ∧ l.drop (i + 1) = r := by
  induction l generalizing i with
  | nil => simp at h
  | cons a l ih =>
    cases i with
    | zero =>
      simp at h
      obtain ⟨rfl, rfl⟩ := h
      simp
    | succ n =>
      simp at h
      have := ih h
      simpa using this

theorem mem_mapInsert {β : Type} {m : List (String × β)} {k : String} {v : β}
    {e : String × β} (hn : (m.map (fun e => e.1)).Nodup) (h : e ∈ mapInsert m k v) :
    e = (k, v) ∨ (e ∈ m ∧ e.1 ≠ k) := by
  induction m with
  | nil =>
    simp [mapInsert] at h
    exact Or.inl h
  | cons e0 rest ih =>
    obtain ⟨k0, w⟩ := e0
    simp only [List.map_cons, List.nodup_cons] at hn
    unfold mapInsert at h
    by_cases h0 : k0 = k
    · rw [if_pos h0] at h
      subst h0
      rcases List.mem_cons.mp h with h | h
      · exact Or.inl h
      · refine Or.inr ⟨List.mem_cons_of_mem _ h, ?_⟩
        intro hk
        exact hn.1 (hk ▸ List.mem_map_of_mem (fun e => e.1) h)
    · rw [if_neg h0] at h
      rcases List.mem_cons.mp h with h | h
      · subst h
        exact Or.inr ⟨List.mem_cons_self _ _, h0⟩
      · rcases ih hn.2 h with h | h
        · exact Or.inl h
        · exact Or.inr ⟨List.mem_cons_of_mem _ h.1, h.2⟩

theorem mem_mapInsert_self {β : Type} (m : List (String × β)) (k : String) (v : β) :
    (k, v) ∈ mapInsert m k v := by
  induction m with
  | nil => simp [mapInsert]
  | cons e0 rest ih =>
    obtain ⟨k0, w⟩ := e0
    unfold mapInsert
    by_cases h0 : k0 = k
    · rw [if_pos h0]; subst h0; exact List.mem_cons_self _ _
    · rw [if_neg h0]; exact List.mem_cons_of_mem _ ih

theorem mem_mapInsert_of_ne {β : Type} {m : List (String × β)} {k : String} {v : β}
    {e : String × β} (he : e ∈ m) (hk : e.1 ≠ k) : e ∈ mapInsert m k v := by
  induction m with
  | nil => cases he
  | cons e0 rest ih =>
    obtain ⟨k0, w⟩ := e0
    unfold mapInsert
    by_cases h0 : k0 = k
    · rw [if_pos h0]
      rcases List.mem_cons.mp he with h | h
      · subst h; exact absurd h0 hk
      · exact List.mem_cons_of_mem _ h
    · rw [if_neg h0]
      rcases List.mem_cons.mp he with h | h
      · subst h; exact List.mem_cons_self _ _
      · exact List.mem_cons_of_mem _ (ih h)

theorem keys_mapInsert_nodup {β : Type} {m : List (String × β)} (k : String) (v : β)
    (hn : (m.map (fun e => e.1)).Nodup) : ((mapInsert m k v).map (fun e => e.1)).Nodup := by
  induction m with
  | nil => simp [mapInsert]
  | cons e0 rest ih =>
    obtain ⟨k0, w⟩ := e0
    simp only [List.map_cons, List.nodup_cons] at hn
    unfold mapInsert
    by_cases h0 : k0 = k
    · rw [if_pos h0]
      simp only [List.map_cons, List.nodup_cons]
      exact hn
    · rw [if_neg h0]
      simp only [List.map_cons, List.nodup_cons]
      refine ⟨?_, ih hn.2⟩
      intro hmem
      obtain ⟨e, he, hek⟩ := List.mem_map.mp hmem
      rcases mem_mapInsert hn.2 he with h | h
      · subst h; exact h0 hek.symm
      · exact hn.1 (hek ▸ List.mem_map_of_mem (fun e => e.1) h.1)

theorem idx_mapInsert_nodup {m : List (String × fieldDescriptor)} (k : String)
    (fd : fieldDescriptor) (hk : (m.map (fun e => e.1)).Nodup)
    (hn : (m.map (fun e => e.2.index)).Nodup)
    (hlt : ∀ e ∈ m, e.2.index < fd.index) :
    ((mapInsert m k fd).map (fun e => e.2.index)).Nodup := by
  induction m with
  | nil => simp [mapInsert]
  | cons e0 rest ih =>
    obtain ⟨k0, w⟩ := e0
    simp only [List.map_cons, List.nodup_cons] at hn hk
    have hlt2 : ∀ e ∈ rest, e.2.index < fd.index :=
      fun e he => hlt e (List.mem_cons_of_mem _ he)
    unfold mapInsert
    by_cases h0 : k0 = k
    · rw [if_pos h0]
      simp only [List.map_cons, List.nodup_cons]
      refine ⟨?_, hn.2⟩
      intro hmem
      obtain ⟨e, he, hei⟩ := List.mem_map.mp hmem
      have := hlt2 e he
      omega
    · rw [if_neg h0]
      simp only [List.map_cons, List.nodup_cons]
      refine ⟨?_, ih hk.2 hn.2 hlt2⟩
      intro hmem
      obtain ⟨e, he, hei⟩ := List.mem_map.mp hmem
      rcases mem_mapInsert hk.2 he with h | h
      · subst h
        have := hlt (k0, w) (List.mem_cons_self _ _)
        simp only at hei this
        omega
      · exact hn.1 (hei ▸ List.mem_map_of_mem (fun e => e.2.index) h.1)

theorem DescInv_nil (env : List GoType) (all : List StructField) : DescInv env all 0 [] := by
  refine ⟨by simp, by simp, ?_, ?_, ?_⟩
  · intro tag fd h; cases h
  · intro j g hj; omega
  · intro tag t j c h; cases h

theorem DescInv_skip {env : List GoType} {all : List StructField} {i : Nat}
    {desc : List (String × fieldDescriptor)} (h : DescInv env all i desc)
    (hskip : ∀ f, all.get? i = some f → ¬ retained f) :
    DescInv env all (i + 1) desc := by
  obtain ⟨h1, h2, h3, h5, h4⟩ := h
  refine ⟨h1, h2, ?_, ?_, h4⟩
  · intro tag fd hm
    obtain ⟨hlt, f, hf, hr, hlater, hx⟩ := h3 tag fd hm
    refine ⟨by omega, f, hf, hr, ?_, hx⟩
    intro j g hj1 hj2 hg hrg
    by_cases hji : j = i
    · subst hji
      exact absurd hrg (hskip g hg)
    · exact hlater j g hj1 (by omega) hg hrg
  · intro j g hj hg hrg
    by_cases hji : j = i
    · subst hji
      exact absurd hrg (hskip g hg)
    · exact h5 j g (by omega) hg hrg

theorem DescInv_insert {env : List GoType} {all : List StructField} {i : Nat}
    {desc : List (String × fieldDescriptor)} (h : DescInv env all i desc)
    {f : StructField} (hf : all.get? i = some f) (hex : retained f)
    (child : Option typeDescriptor)
    (hiff : child = none ↔ nestedStruct env f.Typ = none)
    (hdesc : ∀ c, child = some c → ∀ s, nestedStruct env f.Typ = some s → Describes env c s) :
    DescInv env all (i + 1)
      (mapInsert desc (tagNameOf f) (.mk (tagNameOf f) i child)) := by
  obtain ⟨h1, h2, h3, h5, h4⟩ := h
  refine ⟨keys_mapInsert_nodup _ _ h1, idx_mapInsert_nodup _ _ h1 h2 ?_, ?_, ?_, ?_⟩
  · intro e he
    exact (h3 e.1 e.2 he).1
  · intro tag fd hm
    rcases mem_mapInsert h1 hm with h | h
    · cases h
      refine ⟨Nat.lt_succ_self _, f, hf, hex, ?_, rfl, rfl, hiff⟩
      intro j g hj1 hj2
      simp only [fieldDescriptor.index] at hj1
      omega
    · obtain ⟨hlt, f1, hf1, hr1, hlater, htag, hx⟩ := h3 tag fd h.1
      refine ⟨by omega, f1, hf1, hr1, ?_, htag, hx⟩
      intro j g hj1 hj2 hg hrg
      by_cases hji : j = i
      · subst hji
        rw [hf] at hg
        cases hg
        rw [htag]
        exact fun heq => h.2 heq.symm
      · exact hlater j g hj1 (by omega) hg hrg
  · intro j g hj hg hrg
    by_cases hk : tagNameOf g = tagNameOf f
    · rw [hk]
      exact ⟨_, mem_mapInsert_self _ _ _⟩
    · by_cases hji : j = i
      · subst hji
        rw [hf] at hg
        cases hg
        exact absurd rfl hk
      · obtain ⟨fd, hfd⟩ := h5 j g (by omega) hg hrg
        exact ⟨fd, mem_mapInsert_of_ne hfd hk⟩
  · intro tag t j c hm f1 s hf1 hs
    rcases mem_mapInsert h1 hm with h | h
    · cases h
      rw [hf] at hf1
      cases hf1
      exact hdesc c rfl s hs
    · exact h4 tag t j c h.1 f1 s hf1 hs

theorem retained_of_not_skip {field : StructField}
    (hskip : ¬ (field.IsExported = false ∨ field.jsonTag = jsonTagIgnore)) :
    retained field := by
  constructor
  · cases hx : field.IsExported with
    | true => rfl
    | false => exact absurd (Or.inl hx) hskip
  · exact fun hx => hskip (Or.inr hx)

theorem not_retained_of_skip {field : StructField}
    (hskip : field.IsExported = false ∨ field.jsonTag = jsonTagIgnore) :
    ¬ retained field := by
  rintro ⟨h1, h2⟩
  rcases hskip with h | h
  · rw [h] at h1; cases h1
  · exact h2 h

/-- The loop of `buildDescriptor` keeps its invariant and only adds to `visited`. -/
theorem buildFields_ok {build : GoType → List GoType → Result (typeDescriptor × List GoType)}
    {env : List GoType} (all : List StructField)
    (hb : ∀ ft V d V1, build ft V = .ok (d, V1) → Describes env d ft ∧ ∀ x ∈ V, x ∈ V1) :
    ∀ (rest : List StructField) (i : Nat) (desc : List (String × fieldDescriptor))
      (V : List GoType) (d : typeDescriptor) (V1 : List GoType),
      all.drop i = rest → DescInv env all i desc →
      buildFields build env rest i desc V = .ok (d, V1) →
      (∃ es, d = .mk es ∧ DescInv env all (i + rest.length) es) ∧ ∀ x ∈ V, x ∈ V1 := by
  intro rest
  induction rest with
  | nil =>
    intro i desc V d V1 _ hinv h
    rw [buildFields_nil] at h
    cases h
    exact ⟨⟨desc, rfl, hinv⟩, fun _ hx => hx⟩
  | cons field rest ih =>
    intro i desc V d V1 hdrop hinv h
    obtain ⟨hget, hdrop1⟩ := drop_eq_cons_get hdrop
    have hlen : i + (field :: rest).length = i + 1 + rest.length := by
      simp only [List.length_cons]; omega
    rw [hlen]
    by_cases hskip : field.IsExported = false ∨ field.jsonTag = jsonTagIgnore
    · rw [buildFields_cons_skip hskip] at h
      refine ih _ _ _ _ _ hdrop1 (DescInv_skip hinv ?_) h
      intro f hf
      rw [hget] at hf
      cases hf
      exact not_retained_of_skip hskip
    · have hret := retained_of_not_skip hskip
      have he : field.IsExported = true := hret.1
      have hi : field.jsonTag ≠ jsonTagIgnore := hret.2
      cases hn : nestedStruct env field.Typ with
      | none =>
        rw [buildFields_cons_leaf he hi hn] at h
        refine ih _ _ _ _ _ hdrop1 (DescInv_insert hinv hget hret none ?_ ?_) h
        · simp [hn]
        · intro c hc; cases hc
      | some ft =>
        rw [buildFields_cons_nested he hi hn] at h
        cases hbld : build ft V with
        | ok p =>
          obtain ⟨child, V2⟩ := p
          rw [hbld] at h
          obtain ⟨hdesc, hsub⟩ := hb _ _ _ _ hbld
          have := ih _ _ _ _ _ hdrop1
            (DescInv_insert hinv hget hret (some child) (by simp [hn])
              (by
                intro c hc s hs
                cases hc
                rw [hn] at hs
                cases hs
                exact hdesc)) h
          exact ⟨this.1, fun x hx => this.2 x (hsub x hx)⟩
        | fail e => rw [hbld] at h; cases h
        | panic => rw [hbld] at h; cases h
        | outOfFuel => rw [hbld] at h; cases h

/-- A descriptor that `buildDescriptor` returns describes the type it was built for; the
type was not in `visited`, and `visited` has only grown and now holds the type. -/
theorem buildDescriptor_ok (env : List GoType) :
    ∀ (fuel : Nat) (t : GoType) (V : List GoType) (d : typeDescriptor) (V1 : List GoType),
      buildDescriptor env fuel t V = .ok (d, V1) →
      Describes env d t ∧ (∀ x ∈ V, x ∈ V1) ∧ t ∈ V1 ∧ t ∉ V := by
  intro fuel
  induction fuel with
  | zero =>
    intro t V d V1 h
    rw [buildDescriptor_zero] at h
    cases h
  | succ fuel ih =>
    intro t V d V1 h
    by_cases hv : t ∈ V
    · rw [buildDescriptor_succ_visited hv] at h
      cases h
    · cases t with
      | basic k => simp [buildDescriptor, hv] at h
      | Ptr e => simp [buildDescriptor, hv] at h
      | Struct name fields =>
        rw [buildDescriptor_succ_struct hv] at h
        have hb : ∀ ft V d V1, buildDescriptor env fuel ft V = .ok (d, V1) →
            Describes env d ft ∧ ∀ x ∈ V, x ∈ V1 :=
          fun ft V d V1 h => ⟨(ih ft V d V1 h).1, (ih ft V d V1 h).2.1⟩
        obtain ⟨⟨es, rfl, hinv⟩, hsub⟩ :=
          buildFields_ok fields hb fields 0 [] _ _ _ (by simp) (DescInv_nil env fields) h
        obtain ⟨h1, h2, h3, h5, h4⟩ := hinv
        have hlen : ∀ (j : Nat) (g : StructField), fields.get? j = some g →
            j < 0 + fields.length := by
          intro j g hg
          rw [List.get?_eq_getElem?] at hg
          have := (List.getElem?_eq_some_iff.mp hg).1
          omega
        refine ⟨Describes.mk es name fields h1 h2 ?_ ?_ h4, ?_, ?_, hv⟩
        · intro tag fd hm
          obtain ⟨_, f, hf, hr, hlater, hx⟩ := h3 tag fd hm
          exact ⟨f, ⟨hf, hr, fun j g hj hg hrg => hlater j g hj (hlen j g hg) hg hrg⟩, hx⟩
        · intro j g hg hrg
          exact h5 j g (hlen j g hg) hg hrg
        · intro x hx
          exact hsub x (List.mem_cons_of_mem _ hx)
        · exact hsub _ (List.mem_cons_self _ _)

theorem Describes.wf {env : List GoType} {d : typeDescriptor} {t : GoType}
    (h : Describes env d t) : WFDesc d := by
  induction h with
  | mk es name fields hkeys hidx hfield hall hchild ih =>
    refine WFDesc.mk es hkeys hidx ?_
    intro tag t i c hm
    obtain ⟨f, ⟨hf, _, _⟩, _, _, hiff⟩ := hfield tag _ hm
    cases hs : nestedStruct env f.Typ with
    | none =>
      have := hiff.mpr hs
      simp [fieldDescriptor.child] at this
    | some s =>
      exact ih tag t i c hm f s hf hs

/-! ## Errors of the builder, and the descriptor cache -/

theorem buildFields_fail {build : GoType → List GoType → Result (typeDescriptor × List GoType)}
    {env : List GoType}
    (hb : ∀ ft V e, build ft V = .fail e → ∃ u, e = .errCircularReference u) :
    ∀ (rest : List StructField) (i : Nat) (desc : List (String × fieldDescriptor))
      (V : List GoType) (e : Error),
      buildFields build env rest i desc V = .fail e → ∃ u, e = .errCircularReference u := by
  intro rest
  induction rest with
  | nil =>
    intro i desc V e h
    rw [buildFields_nil] at h
    cases h
  | cons field rest ih =>
    intro i desc V e h
    by_cases hskip : field.IsExported = false ∨ field.jsonTag = jsonTagIgnore
    · rw [buildFields_cons_skip hskip] at h
      exact ih _ _ _ _ h
    · have he : field.IsExported = true := by
        cases hx : field.IsExported with
        | true => rfl
        | false => exact absurd (Or.inl hx) hskip
      have hi : field.jsonTag ≠ jsonTagIgnore := fun hx => hskip (Or.inr hx)
      cases hn : nestedStruct env field.Typ with
      | none =>
        rw [buildFields_cons_leaf he hi hn] at h
        exact ih _ _ _ _ h
      | some ft =>
        rw [buildFields_cons_nested he hi hn] at h
        cases hbld : build ft V with
        | ok p =>
          obtain ⟨child, V2⟩ := p
          rw [hbld] at h
          exact ih _ _ _ _ h
        | fail e1 =>
          rw [hbld] at h
          cases h
          exact hb _ _ _ hbld
        | panic => rw [hbld] at h; cases h
        | outOfFuel => rw [hbld] at h; cases h

/-- The only error `buildDescriptor` returns is a circular reference error. -/
theorem buildDescriptor_fail (env : List GoType) :
    ∀ (fuel : Nat) (t : GoType) (V : List GoType) (e : Error),
      buildDescriptor env fuel t V = .fail e → ∃ u, e = .errCircularReference u := by
  intro fuel
  induction fuel with
  | zero =>
    intro t V e h
    rw [buildDescriptor_zero] at h
    cases h
  | succ fuel ih =>
    intro t V e h
    by_cases hv : t ∈ V
    · rw [buildDescriptor_succ_visited hv] at h
      cases h
      exact ⟨t, rfl⟩
    · cases t with
      | basic k => simp [buildDescriptor, hv] at h
      | Ptr e => simp [buildDescriptor, hv] at h
      | Struct name fields =>
        rw [buildDescriptor_succ_struct hv] at h
        exact buildFields_fail (ih) _ _ _ _ _ h

theorem getTypeDescriptor_struct (env : List GoType) (fuel : Nat)
    (cache : List (GoType × typeDescriptor)) (name : String) (fields : List StructField) :
    getTypeDescriptor env fuel cache (.Struct name fields) =
      match cacheLoad cache (.Struct name fields) with
      | some cached => .ok (cached, cache)
      | none =>
        match buildDescriptor env fuel (.Struct name fields) [] with
        | .ok (desc, _) => .ok (desc, cacheStore cache (.Struct name fields) desc)
        | .fail e => .fail e
        | .panic => .panic
        | .outOfFuel => .outOfFuel := by
  unfold getTypeDescriptor
  rfl

theorem cacheLoad_cacheStore (cache : List (GoType × typeDescriptor)) (t t1 : GoType)
    (d : typeDescriptor) :
    cacheLoad (cacheStore cache t d) t1 = if t = t1 then some d else cacheLoad cache t1 := by
  induction cache with
  | nil => simp [cacheStore, cacheLoad]
  | cons e rest ih =>
    obtain ⟨k0, w⟩ := e
    unfold cacheStore
    by_cases h0 : k0 = t
    · subst h0
      simp only [if_true, cacheLoad]
      by_cases h1 : k0 = t1
      · simp [h1]
      · simp [h1]
    · rw [if_neg h0]
      simp only [cacheLoad]
      by_cases h1 : k0 = t1
      · subst h1
        simp [Ne.symm h0]
      · simp only [h1, if_false, ih]

/-- What `getTypeDescriptor` returns for a record type when the cache is sound: a
descriptor of that type; the cache it leaves is sound and holds that descriptor. -/
theorem getTypeDescriptor_ok {env : List GoType} {fuel : Nat}
    {cache cache1 : List (GoType × typeDescriptor)} {name : String}
    {fields : List StructField} {td : typeDescriptor} (hc : CacheSound env cache)
    (h : getTypeDescriptor env fuel cache (.Struct name fields) = .ok (td, cache1)) :
    Describes env td (.Struct name fields) ∧ CacheSound env cache1 ∧
      cacheLoad cache1 (.Struct name fields) = some td := by
  rw [getTypeDescriptor_struct] at h
  cases hl : cacheLoad cache (.Struct name fields) with
  | some cached =>
    rw [hl] at h
    cases h
    obtain ⟨fuel1, V1, hb⟩ := hc _ _ hl
    exact ⟨(buildDescriptor_ok env _ _ _ _ _ hb).1, hc, hl⟩
  | none =>
    rw [hl] at h
    cases hb : buildDescriptor env fuel (.Struct name fields) [] with
    | ok p =>
      obtain ⟨desc, V1⟩ := p
      rw [hb] at h
      cases h
      refine ⟨(buildDescriptor_ok env _ _ _ _ _ hb).1, ?_, ?_⟩
      · intro t d hld
        rw [cacheLoad_cacheStore] at hld
        by_cases ht : GoType.Struct name fields = t
        · rw [if_pos ht] at hld
          cases hld
          subst ht
          exact ⟨fuel, V1, hb⟩
        · rw [if_neg ht] at hld
          exact hc t d hld
      · rw [cacheLoad_cacheStore]
        simp
    | fail e => rw [hb] at h; cases h
    | panic => rw [hb] at h; cases h
    | outOfFuel => rw [hb] at h; cases h

theorem getTypeDescriptor_fail {env : List GoType} {fuel : Nat}
    {cache : List (GoType × typeDescriptor)} {name : String}
    {fields : List StructField} {e : Error}
    (h : getTypeDescriptor env fuel cache (.Struct name fields) = .fail e) :
    ∃ u, e = .errCircularReference u := by
  rw [getTypeDescriptor_struct] at h
  cases hl : cacheLoad cache (.Struct name fields) with
  | some cached => rw [hl] at h; cases h
  | none =>
    rw [hl] at h
    cases hb : buildDescriptor env fuel (.Struct name fields) [] with
    | ok p => rw [hb] at h; cases h
    | fail e1 =>
      rw [hb] at h
      cases h
      exact buildDescriptor_fail env _ _ _ _ hb
    | panic => rw [hb] at h; cases h
    | outOfFuel => rw [hb] at h; cases h

/-- A call of `getTypeDescriptor` that finds the type in the cache returns the cached
descriptor and leaves the cache alone, whatever the recursion budget. -/
theorem getTypeDescriptor_hit {env : List GoType} (fuel : Nat)
    {cache : List (GoType × typeDescriptor)} {name : String}
    {fields : List StructField} {td : typeDescriptor}
    (h : cacheLoad cache (.Struct name fields) = some td) :
    getTypeDescriptor env fuel cache (.Struct name fields) = .ok (td, cache) := by
  rw [getTypeDescriptor_struct, h]

theorem GoType.Kind_struct {t : GoType} (h : t.Kind = .Struct) :
    ∃ name fields, t = .Struct name fields := by
  cases t with
  | basic k => cases k <;> simp [GoType.Kind] at h
  | Ptr e => simp [GoType.Kind] at h
  | Struct name fields => exact ⟨name, fields, rfl⟩

/-- The call `Apply` on a non-nil pointer to a record, with a mask that is not empty. -/
theorem Apply_pointer_struct (env : List GoType) (fuel : Nat)
    (cache : List (GoType × typeDescriptor)) (f : Option FieldMask)
    (hf : FieldMask.IsEmpty f = false) (name : String) (fields : List StructField)
    (addr : Nat) (data : Data) :
    FieldMask.Apply env fuel cache f (.pointer (.Struct name fields) (some (addr, data))) =
      match getTypeDescriptor env fuel cache (.Struct name fields) with
      | .fail e => .returned (some e) (.pointer (.Struct name fields) (some (addr, data))) cache
      | .panic => .panic
      | .outOfFuel => .outOfFuel
      | .ok (td, cache1) =>
        match td.apply ⟨.Struct name fields, data, some addr, false⟩ (FieldMask.pathsOf f) []
        with
        | none => .panic
        | some r =>
          .returned r.err (.pointer (.Struct name fields) (some (addr, r.data))) cache1 := by
  unfold FieldMask.Apply
  simp only [hf, GoType.Kind]
  rfl

theorem IsEmpty_false_iff (f : Option FieldMask) :
    FieldMask.IsEmpty f = false ↔ ∃ m, f = some m ∧ m.Paths ≠ [] := by
  cases f with
  | none => simp [FieldMask.IsEmpty]
  | some m =>
    cases hp : m.Paths with
    | nil => simp [FieldMask.IsEmpty, hp]
    | cons p ps => simp [FieldMask.IsEmpty, hp]

/-! ## Claims about the entry checks of `Apply` -/

/-- C5: for every target and every mask that is nil or has an empty path list, `Apply`
returns the nil error and leaves the target (and the descriptor cache) as they were. -/
theorem C5_empty_mask_is_identity (env : List GoType) (fuel : Nat)
    (cache : List (GoType × typeDescriptor)) (f : Option FieldMask) (i : Iface)
    (h : ∀ m, f = some m → m.Paths = []) :
    FieldMask.Apply env fuel cache f i = .returned none i cache := by
  have he : FieldMask.IsEmpty f = true := by
    cases f with
    | none => rfl
    | some m => simp [FieldMask.IsEmpty, h m rfl]
  unfold FieldMask.Apply
  simp [he]

/-- The theorem `C5_empty_mask_is_identity` at a concrete input. -/
theorem C5_empty_mask_is_identity_witness :
    (∀ m, (some ⟨[]⟩ : Option FieldMask) = some m → m.Paths = []) ∧
    FieldMask.Apply [] 0 [] (some ⟨[]⟩) (.pointer exUser (some (4096, exUserData))) =
      .returned none (.pointer exUser (some (4096, exUserData))) [] :=
  ⟨fun m hm => by cases hm; rfl,
    C5_empty_mask_is_identity [] 0 [] (some ⟨[]⟩) (.pointer exUser (some (4096, exUserData)))
      (fun m hm => by cases hm; rfl)⟩

/-- C7: for every non-empty mask, `Apply` returns `ErrNilInput` for the nil interface and
for a nil pointer, returns `ErrNoStruct` for a non-nil pointer whose pointee is not a
record, and for a non-nil pointer to a record returns neither of the two. -/
theorem C7_nil_and_non_record_targets (env : List GoType) (fuel : Nat)
    (cache : List (GoType × typeDescriptor)) (f : Option FieldMask)
    (hf : ∃ m, f = some m ∧ m.Paths ≠ []) :
    FieldMask.Apply env fuel cache f .nil = .returned (some .ErrNilInput) .nil cache ∧
    (∀ elem, FieldMask.Apply env fuel cache f (.pointer elem none) =
      .returned (some .ErrNilInput) (.pointer elem none) cache) ∧
    (∀ elem addr data, elem.Kind ≠ .Struct →
      FieldMask.Apply env fuel cache f (.pointer elem (some (addr, data))) =
        .returned (some .ErrNoStruct) (.pointer elem (some (addr, data))) cache) ∧
    (∀ elem addr data, elem.Kind = .Struct →
      (FieldMask.Apply env fuel cache f (.pointer elem (some (addr, data)))).err ≠
          some (some .ErrNilInput) ∧
        (FieldMask.Apply env fuel cache f (.pointer elem (some (addr, data)))).err ≠
          some (some .ErrNoStruct)) := by
  have he : FieldMask.IsEmpty f = false := (IsEmpty_false_iff f).mpr hf
  refine ⟨?_, ?_, ?_, ?_⟩
  · unfold FieldMask.Apply
    simp [he]
  · intro elem
    unfold FieldMask.Apply
    simp [he]
  · intro elem addr data hk
    unfold FieldMask.Apply
    simp [he, hk]
  · intro elem addr data hk
    obtain ⟨name, fields, rfl⟩ := GoType.Kind_struct hk
    rw [Apply_pointer_struct env fuel cache f he]
    cases hg : getTypeDescriptor env fuel cache (.Struct name fields) with
    | fail e =>
      obtain ⟨u, rfl⟩ := getTypeDescriptor_fail hg
      simp [ApplyOutcome.err]
    | panic => simp [ApplyOutcome.err]
    | outOfFuel => simp [ApplyOutcome.err]
    | ok p =>
      obtain ⟨td, cache1⟩ := p
      simp only
      cases ha : td.apply ⟨.Struct name fields, data, some addr, false⟩
          (FieldMask.pathsOf f) [] with
      | none => simp [ApplyOutcome.err]
      | some r =>
        have := apply_err_none _ _ _ _ _ ha
        simp [ApplyOutcome.err, this]

/-- The theorem `C7_nil_and_non_record_targets` at a concrete input. -/
theorem C7_nil_and_non_record_targets_witness :
    (∃ m, (some ⟨["field1"]⟩ : Option FieldMask) = some m ∧ m.Paths ≠ []) ∧
    FieldMask.Apply [] 2 [] (some ⟨["field1"]⟩) .nil =
      .returned (some .ErrNilInput) .nil [] :=
  ⟨⟨⟨["field1"]⟩, rfl, by simp⟩,
    (C7_nil_and_non_record_targets [] 2 [] (some ⟨["field1"]⟩)
      ⟨⟨["field1"]⟩, rfl, by simp⟩).1⟩

/-- C8, counterexample: `Apply` with the mask `["field"]` on a `TestStruct{}` passed by
value returns `ErrNilInput`, not `ErrNoStruct`. -/
theorem C8_counterexample :
    (FieldMask.Apply [] 2 [] (some ⟨["field"]⟩)
      (.struct "TestStruct" exTestStructFields (.struct [.string "", .string ""]))).err =
        some (some .ErrNilInput) ∧
    (FieldMask.Apply [] 2 [] (some ⟨["field"]⟩)
      (.struct "TestStruct" exTestStructFields (.struct [.string "", .string ""]))).err ≠
        some (some .ErrNoStruct) := by
  constructor
  · rfl
  · decide

/-- C8, amended: for every non-empty mask and every target that is a record passed by
value, `Apply` returns the `ErrNilInput` error (the test `v.Kind() != reflect.Ptr` comes
first) and leaves the target alone. -/
theorem C8_record_by_value_is_nil_input (env : List GoType) (fuel : Nat)
    (cache : List (GoType × typeDescriptor)) (f : Option FieldMask)
    (hf : ∃ m, f = some m ∧ m.Paths ≠ []) (name : String) (fields : List StructField)
    (data : Data) :
    FieldMask.Apply env fuel cache f (.struct name fields data) =
      .returned (some .ErrNilInput) (.struct name fields data) cache := by
  have he : FieldMask.IsEmpty f = false := (IsEmpty_false_iff f).mpr hf
  unfold FieldMask.Apply
  simp [he]

/-- The theorem `C8_record_by_value_is_nil_input` at a concrete input. -/
theorem C8_record_by_value_is_nil_input_witness :
    (∃ m, (some ⟨["field"]⟩ : Option FieldMask) = some m ∧ m.Paths ≠ []) ∧
    FieldMask.Apply [] 2 [] (some ⟨["field"]⟩)
      (.struct "TestStruct" exTestStructFields (.struct [.string "", .string ""])) =
      .returned (some .ErrNilInput)
        (.struct "TestStruct" exTestStructFields (.struct [.string "", .string ""])) [] :=
  ⟨⟨⟨["field"]⟩, rfl, by simp⟩,
    C8_record_by_value_is_nil_input [] 2 [] (some ⟨["field"]⟩) ⟨⟨["field"]⟩, rfl, by simp⟩
      "TestStruct" exTestStructFields (.struct [.string "", .string ""])⟩

/-! ## Behaviour at concrete inputs -/

/-- C3, the code at the failing input: with `profile` the first declared field of its
parent, `Apply` with mask `["profile.age"]` on `{profile:{age:30,bio:"x"}, name:"John"}`
returns nil and leaves `{profile:{age:30,bio:"x"}, name:""}`: the nested record has the
address of its parent, which `visited` holds already, so `bio` is not reset and the
result is not the `{profile:{age:30,bio:""}, name:""}` of the scenario. -/
theorem C3_nested_first_field_not_masked (n : Nat) :
    FieldMask.Apply [] (n + 2) [] (some ⟨["profile.age"]⟩)
        (.pointer exUser (some (4096, exUserData))) =
      .returned none
        (.pointer exUser (some (4096, .struct [.struct [.int 30, .string "x"], .string ""])))
        [(exUser, exUserDesc)] ∧
    Data.struct [.struct [.int 30, .string "x"], .string ""] ≠
      .struct [.struct [.int 30, .string ""], .string ""] := by
  constructor
  · rfl
  · decide

/-- C2, the code at the failing input: in `{owner:{name:"Ann",email:"ann@example.com"},
balance:7}` with mask `["owner.name"]`, the maskable field `owner.email` is not in the
mask and has neither an ancestor nor a descendant in it, yet after the successful `Apply`
it still holds `"ann@example.com"` and not the zero value `""` of its type. -/
theorem C2_unnamed_field_of_first_nested_record_not_reset (n : Nat) :
    FieldMask.Apply [] (n + 2) [] (some ⟨["owner.name"]⟩)
        (.pointer exAccount (some (4096, exAccountData))) =
      .returned none
        (.pointer exAccount
          (some (4096, .struct [.struct [.string "Ann", .string "ann@example.com"], .int 0])))
        [(exAccount, exAccountDesc)] ∧
    fieldAt (some exAccountDesc)
        (.struct [.struct [.string "Ann", .string "ann@example.com"], .int 0])
        ["owner", "email"] = some (.string "ann@example.com") ∧
    typeAt (some exAccountDesc) exAccount ["owner", "email"] = some (.basic .String) ∧
    Zero (.basic .String) = .string "" ∧
    FieldMask.HasPath (some ⟨["owner.name"]⟩) "owner.email" = false ∧
    "owner" ∉ ["owner.name"] := by
  refine ⟨rfl, rfl, rfl, rfl, by decide, by decide⟩

/-! ## Records under a mask of bare keys -/

theorem HasTypeFields_length : ∀ (fields : List StructField) (ds : List Data),
    HasTypeFields fields ds = true → ds.length = fields.length := by
  intro fields
  induction fields with
  | nil =>
    intro ds h
    cases ds with
    | nil => rfl
    | cons x xs => simp [HasTypeFields] at h
  | cons f fs ih =>
    intro ds h
    cases ds with
    | nil => simp [HasTypeFields] at h
    | cons x xs =>
      obtain ⟨n, p, j, t, o⟩ := f
      simp only [HasTypeFields, Bool.and_eq_true] at h
      simp [ih xs h.2]

theorem HasType_struct_length {name : String} {fields : List StructField} {ds : List Data}
    (h : HasType (.Struct name fields) (.struct ds) = true) : ds.length = fields.length := by
  rw [HasType] at h
  exact HasTypeFields_length fields ds h

/-- The field of an addressable record value that a maskable field number names. -/
theorem Field_of_get (name : String) {fields : List StructField} {ds : List Data}
    (addr : Option Nat) (ro : Bool) {i : Nat} {f : StructField}
    (hlen : ds.length = fields.length) (hf : fields.get? i = some f) :
    ∃ x, ds.get? i = some x ∧
      (Value.mk (.Struct name fields) (.struct ds) addr ro).Field i =
        some ⟨f.Typ, x, addr.map (fun a => a + f.Offset), ro || !f.IsExported⟩ := by
  have hi : i < ds.length := by
    rw [List.get?_eq_getElem?] at hf
    have := (List.getElem?_eq_some_iff.mp hf).1
    omega
  refine ⟨ds[i], by rw [List.get?_eq_getElem?]; exact List.getElem?_eq_getElem hi, ?_⟩
  unfold Value.Field
  simp only [hf]
  rw [List.get?_eq_getElem?, List.getElem?_eq_getElem hi]

theorem applyFields_shape (es : List (String × fieldDescriptor)) :
    ∀ (keep : List String) (nested : List (String × List String)) (v : Value) (V : List Nat)
      (r : applyResult) (ds : List Data), applyFields es keep nested v V = some r →
      v.data = .struct ds → ∃ ds1, r.data = .struct ds1 ∧ ds1.length = ds.length := by
  induction es with
  | nil =>
    intro keep nested v V r ds h hd
    rw [applyFields_nil] at h; cases h
    exact ⟨ds, hd, rfl⟩
  | cons e rest ih =>
    intro keep nested v V r ds h hd
    obtain ⟨tag, fd⟩ := e
    obtain ⟨t, index, child⟩ := fd
    obtain ⟨fv, hF, hcase⟩ := applyFields_cons_inv h
    have hset : ∀ x, (v.setField index x).data = .struct (ds.set index x) := by
      intro x
      rw [Value.setField_data, hd]
      rfl
    rcases hcase with ⟨_, h1⟩ | ⟨_, c, sub, r1, _, _, _, _, h1⟩ | ⟨_, _, _, h1⟩ | ⟨_, _, _, h1⟩
    · exact ih _ _ _ _ _ _ h1 hd
    · obtain ⟨ds1, h2, h3⟩ := ih _ _ _ _ _ _ h1 (hset _)
      exact ⟨ds1, h2, by simp [h3]⟩
    · exact ih _ _ _ _ _ _ h1 hd
    · obtain ⟨ds1, h2, h3⟩ := ih _ _ _ _ _ _ h1 (hset _)
      exact ⟨ds1, h2, by simp [h3]⟩

/-- The loop of `apply` when `nestedPaths` is empty: a field that can be set keeps its
contents when its key is in `keepMap` and is reset to the zero value of its type
otherwise. -/
theorem applyFields_bare (es : List (String × fieldDescriptor))
    (hidx : (es.map (fun e => e.2.index)).Nodup) (keep : List String)
    (nested : List (String × List String)) (hn : ∀ k, mapLookup nested k = none) :
    ∀ (v : Value) (V : List Nat) (r : applyResult),
      applyFields es keep nested v V = some r →
      ∀ tag fd, (tag, fd) ∈ es → ∃ fv, v.Field fd.index = some fv ∧
        (fv.CanSet = true →
          (tag ∈ keep → r.data.field fd.index = some fv.data) ∧
          (tag ∉ keep → r.data.field fd.index = some (getZero fv.typ))) := by
  induction es with
  | nil => intro v V r _ tag fd hm; cases hm
  | cons e rest ih =>
    intro v V r h tag fd hm
    obtain ⟨tag0, fd0⟩ := e
    obtain ⟨t, index, child⟩ := fd0
    simp only [List.map_cons, List.nodup_cons, fieldDescriptor.index] at hidx
    have hnot : ∀ e ∈ rest, e.2.index ≠ index := by
      intro e he heq
      exact hidx.1 (heq ▸ List.mem_map_of_mem (fun e => e.2.index) he)
    obtain ⟨fv, hF, hcase⟩ := applyFields_cons_inv h
    rcases List.mem_cons.mp hm with heq | hrest
    · cases heq
      simp only [fieldDescriptor.index]
      refine ⟨fv, hF, ?_⟩
      intro hcs
      rcases hcase with ⟨hc, _⟩ | ⟨_, c, sub, r1, _, hl, _⟩ | ⟨_, _, hk, h1⟩ | ⟨_, _, hk, h1⟩
      · rw [hcs] at hc; cases hc
      · rw [hn] at hl; cases hl
      · refine ⟨fun _ => ?_, fun hk2 => absurd hk hk2⟩
        rw [applyFields_frame rest _ _ _ _ _ h1 index hnot]
        exact Value.Field_data hF
      · refine ⟨fun hk2 => absurd hk2 hk, fun _ => ?_⟩
        rw [applyFields_frame rest _ _ _ _ _ h1 index hnot, Value.setField_data]
        exact Data.field_setField_same _ (Value.Field_data hF)
    · have hne : index ≠ fd.index := fun heq => hnot _ hrest heq.symm
      rcases hcase with ⟨_, h1⟩ | ⟨_, c, sub, r1, _, hl, _⟩ | ⟨_, _, _, h1⟩ | ⟨_, _, _, h1⟩
      · exact ih hidx.2 _ _ _ h1 tag fd hrest
      · rw [hn] at hl; cases hl
      · exact ih hidx.2 _ _ _ h1 tag fd hrest
      · have := ih hidx.2 _ _ _ h1 tag fd hrest
        rw [Value.Field_setField_ne _ _ hne] at this
        exact this

/-- The loop of `apply` does not panic when `nestedPaths` is empty and every field number
of the descriptor names a field of the value. -/
theorem applyFields_bare_total (es : List (String × fieldDescriptor)) (keep : List String)
    (nested : List (String × List String)) (hn : ∀ k, mapLookup nested k = none) :
    ∀ (v : Value) (V : List Nat), (∀ e ∈ es, ∃ fv, v.Field e.2.index = some fv) →
      ∃ r, applyFields es keep nested v V = some r := by
  induction es with
  | nil =>
    intro v V _
    exact ⟨_, applyFields_nil _ _ _ _⟩
  | cons e rest ih =>
    intro v V hall
    obtain ⟨tag0, fd0⟩ := e
    obtain ⟨t, index, child⟩ := fd0
    obtain ⟨fv, hF⟩ := hall _ (List.mem_cons_self _ _)
    simp only [fieldDescriptor.index] at hF
    have hrest : ∀ e ∈ rest, ∃ fv, v.Field e.2.index = some fv :=
      fun e he => hall e (List.mem_cons_of_mem _ he)
    have hrest2 : ∀ x, ∀ e ∈ rest, ∃ fv, (v.setField index x).Field e.2.index = some fv := by
      intro x e he
      by_cases hi : index = e.2.index
      · rw [← hi]
        exact ⟨_, Value.Field_setField_same x hF⟩
      · rw [Value.Field_setField_ne _ _ hi]
        exact hrest e he
    cases hC : fv.CanSet with
    | false =>
      rw [applyFields_cons_skip hF hC]
      exact ih v V hrest
    | true =>
      rw [applyFields_cons_leaf hF hC (Or.inr (hn tag0))]
      by_cases hk : tag0 ∈ keep
      · rw [if_pos hk]
        exact ih v V hrest
      · rw [if_neg hk]
        exact ih _ V (hrest2 _)

/-- The loop of `buildDescriptor` over fields none of which holds a nested record
returns a descriptor without calling `buildDescriptor` again. -/
theorem buildFields_flat (build : GoType → List GoType → Result (typeDescriptor × List GoType))
    (env : List GoType) :
    ∀ (rest : List StructField) (i : Nat) (desc : List (String × fieldDescriptor))
      (V : List GoType), (∀ f ∈ rest, retained f → nestedStruct env f.Typ = none) →
      ∃ d, buildFields build env rest i desc V = .ok (d, V) := by
  intro rest
  induction rest with
  | nil =>
    intro i desc V _
    exact ⟨_, buildFields_nil⟩
  | cons field rest ih =>
    intro i desc V hflat
    have hrest : ∀ f ∈ rest, retained f → nestedStruct env f.Typ = none :=
      fun f hf => hflat f (List.mem_cons_of_mem _ hf)
    by_cases hskip : field.IsExported = false ∨ field.jsonTag = jsonTagIgnore
    · rw [buildFields_cons_skip hskip]
      exact ih _ _ _ hrest
    · have hret := retained_of_not_skip hskip
      rw [buildFields_cons_leaf hret.1 hret.2 (hflat field (List.mem_cons_self _ _) hret)]
      exact ih _ _ _ hrest

theorem getTypeDescriptor_flat {env : List GoType} {fuel : Nat} (hfuel : 0 < fuel)
    (cache : List (GoType × typeDescriptor)) (name : String) (fields : List StructField)
    (hflat : ∀ f ∈ fields, retained f → nestedStruct env f.Typ = none) :
    ∃ td cache1, getTypeDescriptor env fuel cache (.Struct name fields) = .ok (td, cache1) := by
  rw [getTypeDescriptor_struct]
  cases hl : cacheLoad cache (.Struct name fields) with
  | some cached => exact ⟨_, _, rfl⟩
  | none =>
    obtain ⟨n, rfl⟩ : ∃ n, fuel = n + 1 := ⟨fuel - 1, by omega⟩
    rw [buildDescriptor_succ_struct (by simp)]
    obtain ⟨d, hd⟩ := buildFields_flat (buildDescriptor env n) env
      fields 0 [] [.Struct name fields] hflat
    rw [hd]
    exact ⟨_, _, rfl⟩

/-- Two maskable fields of one record type with the same serialization key are the same
field. -/
theorem maskable_unique {fields : List StructField} {i j : Nat} {f g : StructField}
    (hf : maskable fields i f) (hg : maskable fields j g) (hk : tagNameOf g = tagNameOf f) :
    i = j ∧ f = g := by
  obtain ⟨hf1, hf2, hf3⟩ := hf
  obtain ⟨hg1, hg2, hg3⟩ := hg
  have hij : i = j := by
    rcases Nat.lt_trichotomy i j with h | h | h
    · exact absurd hk (hf3 j g h hg1 hg2)
    · exact h
    · exact absurd hk.symm (hg3 i f h hf1 hf2)
  subst hij
  rw [hf1] at hg1
  cases hg1
  exact ⟨rfl, rfl⟩

/-- The entry of a descriptor that stands for a given maskable field of the type it
describes. -/
theorem Describes.entry_of_maskable {env : List GoType} {es : List (String × fieldDescriptor)}
    {name : String} {fields : List StructField}
    (hd : Describes env (.mk es) (.Struct name fields)) {i : Nat} {f : StructField}
    (hm : maskable fields i f) :
    ∃ fd, (tagNameOf f, fd) ∈ es ∧ fd.index = i ∧
      (fd.child = none ↔ nestedStruct env f.Typ = none) := by
  cases hd with
  | mk _ _ _ hkeys hidx hfield hall hchild =>
    obtain ⟨fd, hfd⟩ := hall i f hm.1 hm.2.1
    obtain ⟨f1, hm1, htag, _, hiff⟩ := hfield _ _ hfd
    obtain ⟨hij, hff⟩ := maskable_unique hm hm1 htag
    subst hff
    exact ⟨fd, hfd, hij.symm, hiff⟩

/-- C4: for every record whose maskable fields are all leaves and every non-empty mask of
bare keys (paths without separator), `Apply` returns nil, and afterwards each maskable
field whose serialization key is in the mask holds what it held before and each other
maskable field holds the zero value of its type. -/
theorem C4_flat_record_bare_mask (env : List GoType) (fuel : Nat) (hfuel : 0 < fuel)
    (cache : List (GoType × typeDescriptor)) (hc : CacheSound env cache)
    (m : FieldMask) (hne : m.Paths ≠ []) (hbare : ∀ p ∈ m.Paths, bare p)
    (name : String) (fields : List StructField)
    (hflat : ∀ f ∈ fields, retained f → nestedStruct env f.Typ = none)
    (addr : Nat) (ds : List Data) (hty : HasType (.Struct name fields) (.struct ds) = true) :
    ∃ ds1 cache1,
      FieldMask.Apply env fuel cache (some m)
          (.pointer (.Struct name fields) (some (addr, .struct ds))) =
        .returned none (.pointer (.Struct name fields) (some (addr, .struct ds1))) cache1 ∧
      ∀ i f, maskable fields i f →
        (tagNameOf f ∈ m.Paths → ds1.get? i = ds.get? i) ∧
        (tagNameOf f ∉ m.Paths → ds1.get? i = some (Zero f.Typ)) := by
  have he : FieldMask.IsEmpty (some m) = false :=
    (IsEmpty_false_iff _).mpr ⟨m, rfl, hne⟩
  have hlen := HasType_struct_length hty
  obtain ⟨td, cache1, hg⟩ := getTypeDescriptor_flat hfuel cache name fields hflat
  obtain ⟨hdesc, _, _⟩ := getTypeDescriptor_ok hc hg
  obtain ⟨es⟩ := td
  have hD := hdesc
  cases hdesc with
  | mk _ _ _ hkeys hidx hfield hall hchild =>
    have hnone : ∀ k, mapLookup (buildPathMaps m.Paths).2 k = none :=
      nestedPaths_lookup_of_bare hbare
    have hFall : ∀ e ∈ es, ∃ fv,
        (Value.mk (.Struct name fields) (.struct ds) (some addr) false).Field e.2.index
          = some fv := by
      intro e he
      obtain ⟨f, hm, _⟩ := hfield e.1 e.2 he
      obtain ⟨x, _, hx⟩ := Field_of_get name (some addr) false
        hlen hm.1
      exact ⟨_, hx⟩
    obtain ⟨r, hr⟩ := applyFields_bare_total es (buildPathMaps m.Paths).1 _ hnone
      ⟨.Struct name fields, .struct ds, some addr, false⟩ [addr] hFall
    have hap : (typeDescriptor.mk es).apply ⟨.Struct name fields, .struct ds, some addr, false⟩
        (FieldMask.pathsOf (some m)) [] = some r := by
      rw [@apply_mk_enter _ _ _ _ addr rfl (by simp)]
      exact hr
    have herr := apply_err_none _ _ _ _ _ hap
    obtain ⟨ds1, hds1, _⟩ := applyFields_shape es _ _ _ _ _ ds hr rfl
    refine ⟨ds1, cache1, ?_, ?_⟩
    · rw [Apply_pointer_struct env fuel cache _ he, hg]
      simp only [hap, herr, hds1]
    · intro i f hm
      obtain ⟨fd, hfd, hidxeq, _⟩ := hD.entry_of_maskable hm
      obtain ⟨fv, hF, hres⟩ := applyFields_bare es hidx _ _ hnone _ _ _ hr _ _ hfd
      obtain ⟨x, hx, hFx⟩ := Field_of_get name (some addr) false
        hlen hm.1
      rw [hidxeq] at hF hres
      rw [hFx] at hF
      cases hF
      have hcs : (Value.mk f.Typ x ((some addr).map (fun a => a + f.Offset))
          (false || !f.IsExported)).CanSet = true := by
        simp [Value.CanSet, hm.2.1.1]
      have hres := hres hcs
      rw [hds1] at hres
      simp only [Data.field] at hres
      constructor
      · intro hk
        rw [hx]
        exact hres.1 ((mem_keepMap_iff _ _).mpr ⟨hk, hbare _ hk⟩)
      · intro hk
        exact hres.2 (fun hk2 => hk ((mem_keepMap_iff _ _).mp hk2).1)

theorem CacheSound_nil (env : List GoType) : CacheSound env [] := by
  intro t d h
  cases h

/-- The theorem `C4_flat_record_bare_mask` at a concrete input. -/
theorem C4_flat_record_bare_mask_witness :
    (0 < 1 ∧ CacheSound [] [] ∧ (⟨["name"]⟩ : FieldMask).Paths ≠ [] ∧
      (∀ p ∈ (⟨["name"]⟩ : FieldMask).Paths, bare p) ∧
      (∀ f ∈ exFlatFields, retained f → nestedStruct [] f.Typ = none) ∧
      HasType (.Struct "Flat" exFlatFields) (.struct [.string "John", .int 30, .string "x"])
        = true) ∧
    ∃ ds1 cache1,
      FieldMask.Apply [] 1 [] (some ⟨["name"]⟩)
          (.pointer (.Struct "Flat" exFlatFields)
            (some (4096, .struct [.string "John", .int 30, .string "x"]))) =
        .returned none (.pointer (.Struct "Flat" exFlatFields) (some (4096, .struct ds1)))
          cache1 ∧
      ∀ i f, maskable exFlatFields i f →
        (tagNameOf f ∈ (⟨["name"]⟩ : FieldMask).Paths →
          ds1.get? i = [Data.string "John", .int 30, .string "x"].get? i) ∧
        (tagNameOf f ∉ (⟨["name"]⟩ : FieldMask).Paths → ds1.get? i = some (Zero f.Typ)) :=
  have hbare : ∀ p ∈ (⟨["name"]⟩ : FieldMask).Paths, bare p := by
    intro p hp
    simp at hp
    subst hp
    decide
  have hflat : ∀ f ∈ exFlatFields, retained f → nestedStruct [] f.Typ = none := by
    intro f hf _
    simp [exFlatFields] at hf
    rcases hf with rfl | rfl | rfl <;> rfl
  ⟨⟨by decide, CacheSound_nil [], by simp, hbare, hflat, rfl⟩,
    C4_flat_record_bare_mask [] 1 (by decide) [] (CacheSound_nil []) ⟨["name"]⟩ (by simp)
      hbare "Flat" exFlatFields hflat 4096 _ rfl⟩

/-- The scenario of C4: `{name:"John", age:30, bio:"x"}` with mask `["name"]` becomes
`{name:"John", age:0, bio:""}`. -/
theorem flat_scenario (n : Nat) :
    (FieldMask.Apply [] (n + 1) [] (some ⟨["name"]⟩)
        (.pointer exFlat (some (4096, exFlatData)))).contents =
      some (.struct [.string "John", .int 0, .string ""]) := rfl

/-! ## Cycle detection of the builder -/

theorem nestedIn_isStruct {env : List GoType} {s c : GoType} (h : nestedIn env s c) :
    (∃ name fields, s = .Struct name fields) ∧ ∃ name fields, c = .Struct name fields := by
  obtain ⟨name, fields, f, hs, _, _, _, hn⟩ := h
  exact ⟨⟨name, fields, hs⟩, nestedStruct_isStruct hn⟩

theorem nestedIn.any {env : List GoType} {s c : GoType} (h : nestedIn env s c) :
    nestedInAny env s c := by
  obtain ⟨name, fields, f, hs, hf, _, _, hn⟩ := h
  exact ⟨name, fields, f, hs, hf, hn⟩

/-- The loop of `buildDescriptor`, when it returns a descriptor, has entered the nested
record type of every retained field, and nothing reachable from there was in `visited`. -/
theorem buildFields_reach {build : GoType → List GoType → Result (typeDescriptor × List GoType)}
    {env : List GoType}
    (hb : ∀ ft W d W1, build ft W = .ok (d, W1) →
      (∀ x ∈ W, x ∈ W1) ∧ ∀ u, Relation.ReflTransGen (nestedIn env) ft u → u ∉ W) :
    ∀ (rest : List StructField) (i : Nat) (desc : List (String × fieldDescriptor))
      (V : List GoType) (d : typeDescriptor) (V1 : List GoType),
      buildFields build env rest i desc V = .ok (d, V1) →
      (∀ x ∈ V, x ∈ V1) ∧
      ∀ f ∈ rest, retained f → ∀ c, nestedStruct env f.Typ = some c →
        ∀ u, Relation.ReflTransGen (nestedIn env) c u → u ∉ V := by
  intro rest
  induction rest with
  | nil =>
    intro i desc V d V1 h
    rw [buildFields_nil] at h
    cases h
    exact ⟨fun _ hx => hx, fun f hf => by cases hf⟩
  | cons field rest ih =>
    intro i desc V d V1 h
    by_cases hskip : field.IsExported = false ∨ field.jsonTag = jsonTagIgnore
    · rw [buildFields_cons_skip hskip] at h
      obtain ⟨h1, h2⟩ := ih _ _ _ _ _ h
      refine ⟨h1, ?_⟩
      intro f hf hr
      rcases List.mem_cons.mp hf with rfl | hf
      · exact absurd hr (not_retained_of_skip hskip)
      · exact h2 f hf hr
    · have hret := retained_of_not_skip hskip
      cases hn : nestedStruct env field.Typ with
      | none =>
        rw [buildFields_cons_leaf hret.1 hret.2 hn] at h
        obtain ⟨h1, h2⟩ := ih _ _ _ _ _ h
        refine ⟨h1, ?_⟩
        intro f hf hr c hc
        rcases List.mem_cons.mp hf with rfl | hf
        · rw [hn] at hc; cases hc
        · exact h2 f hf hr c hc
      | some ft =>
        rw [buildFields_cons_nested hret.1 hret.2 hn] at h
        cases hbld : build ft V with
        | ok p =>
          obtain ⟨child, V2⟩ := p
          rw [hbld] at h
          obtain ⟨hsub, hreach⟩ := hb _ _ _ _ hbld
          obtain ⟨h1, h2⟩ := ih _ _ _ _ _ h
          refine ⟨fun x hx => h1 x (hsub x hx), ?_⟩
          intro f hf hr c hc u hu
          rcases List.mem_cons.mp hf with rfl | hf
          · rw [hn] at hc
            cases hc
            exact hreach u hu
          · exact fun hx => h2 f hf hr c hc u hu (hsub u hx)
        | fail e => rw [hbld] at h; cases h
        | panic => rw [hbld] at h; cases h
        | outOfFuel => rw [hbld] at h; cases h

/-- When `buildDescriptor` returns a descriptor for `t`, neither `t` nor any record type
reachable from `t` through retained fields was in `visited`, and no type reachable in
one step or more is `t` itself. -/
theorem buildDescriptor_reach (env : List GoType) :
    ∀ (fuel : Nat) (t : GoType) (V : List GoType) (d : typeDescriptor) (V1 : List GoType),
      buildDescriptor env fuel t V = .ok (d, V1) →
      (∀ x ∈ V, x ∈ V1) ∧ t ∉ V ∧
        ∀ u, Relation.TransGen (nestedIn env) t u → u ∉ t :: V := by
  intro fuel
  induction fuel with
  | zero =>
    intro t V d V1 h
    rw [buildDescriptor_zero] at h
    cases h
  | succ fuel ih =>
    intro t V d V1 h
    by_cases hv : t ∈ V
    · rw [buildDescriptor_succ_visited hv] at h
      cases h
    · cases t with
      | basic k => simp [buildDescriptor, hv] at h
      | Ptr e => simp [buildDescriptor, hv] at h
      | Struct name fields =>
        rw [buildDescriptor_succ_struct hv] at h
        have hb : ∀ ft W d W1, buildDescriptor env fuel ft W = .ok (d, W1) →
            (∀ x ∈ W, x ∈ W1) ∧ ∀ u, Relation.ReflTransGen (nestedIn env) ft u → u ∉ W := by
          intro ft W d W1 hft
          obtain ⟨h1, h2, h3⟩ := ih ft W d W1 hft
          refine ⟨h1, ?_⟩
          intro u hu
          rcases Relation.reflTransGen_iff_eq_or_transGen.mp hu with rfl | hu
          · exact h2
          · exact fun hx => h3 u hu (List.mem_cons_of_mem _ hx)
        obtain ⟨h1, h2⟩ := buildFields_reach hb _ _ _ _ _ _ h
        refine ⟨fun x hx => h1 x (List.mem_cons_of_mem _ hx), hv, ?_⟩
        intro u hu
        obtain ⟨c, hc, hcu⟩ := Relation.TransGen.head'_iff.mp hu
        obtain ⟨name1, fields1, f, hs, hf, he, hi, hn⟩ := hc
        cases hs
        exact h2 f hf ⟨he, hi⟩ c hn u hcu

theorem buildFields_no_panic
    {build : GoType → List GoType → Result (typeDescriptor × List GoType)} {env : List GoType}
    (hb : ∀ name fields W, build (.Struct name fields) W ≠ .panic) :
    ∀ (rest : List StructField) (i : Nat) (desc : List (String × fieldDescriptor))
      (V : List GoType), buildFields build env rest i desc V ≠ .panic := by
  intro rest
  induction rest with
  | nil =>
    intro i desc V h
    rw [buildFields_nil] at h
    cases h
  | cons field rest ih =>
    intro i desc V h
    by_cases hskip : field.IsExported = false ∨ field.jsonTag = jsonTagIgnore
    · rw [buildFields_cons_skip hskip] at h
      exact ih _ _ _ h
    · have hret := retained_of_not_skip hskip
      cases hn : nestedStruct env field.Typ with
      | none =>
        rw [buildFields_cons_leaf hret.1 hret.2 hn] at h
        exact ih _ _ _ h
      | some ft =>
        rw [buildFields_cons_nested hret.1 hret.2 hn] at h
        obtain ⟨name, fields, rfl⟩ := nestedStruct_isStruct hn
        cases hbld : build (.Struct name fields) V with
        | ok p =>
          obtain ⟨child, V2⟩ := p
          rw [hbld] at h
          exact ih _ _ _ h
        | fail e => rw [hbld] at h; cases h
        | panic => exact hb _ _ _ hbld
        | outOfFuel => rw [hbld] at h; cases h

/-- On a struct type `buildDescriptor` does not panic. -/
theorem buildDescriptor_no_panic (env : List GoType) :
    ∀ (fuel : Nat) (name : String) (fields : List StructField) (V : List GoType),
      buildDescriptor env fuel (.Struct name fields) V ≠ .panic := by
  intro fuel
  induction fuel with
  | zero =>
    intro name fields V h
    rw [buildDescriptor_zero] at h
    cases h
  | succ fuel ih =>
    intro name fields V h
    by_cases hv : GoType.Struct name fields ∈ V
    · rw [buildDescriptor_succ_visited hv] at h
      cases h
    · rw [buildDescriptor_succ_struct hv] at h
      exact buildFields_no_panic ih _ _ _ _ h

/-! ### Enough fuel -/

theorem unvisited_le_of_subset (U : List GoType) {V V1 : List GoType}
    (h : ∀ x ∈ V, x ∈ V1) : unvisited U V1 ≤ unvisited U V := by
  unfold unvisited
  apply List.Sublist.length_le
  apply List.monotone_filter_right
  intro a ha
  simp only [decide_eq_true_eq] at ha ⊢
  exact fun hx => ha (h a hx)

theorem unvisited_cons_lt (U : List GoType) {V : List GoType} {t : GoType}
    (ht : t ∈ U) (hv : t ∉ V) : unvisited U (t :: V) < unvisited U V := by
  unfold unvisited
  induction U with
  | nil => cases ht
  | cons a U ih =>
    have hle : (U.filter (fun x => decide (x ∉ t :: V))).length ≤
        (U.filter (fun x => decide (x ∉ V))).length :=
      unvisited_le_of_subset U (fun x hx => List.mem_cons_of_mem _ hx)
    by_cases hat : a = t
    · subst hat
      rw [List.filter_cons_of_neg (by simp), List.filter_cons_of_pos (by simpa using hv)]
      simp only [List.length_cons]
      omega
    · have htU : t ∈ U := by
        rcases List.mem_cons.mp ht with h | h
        · exact absurd h.symm hat
        · exact h
      have := ih htU
      by_cases haV : a ∈ V
      · rw [List.filter_cons_of_neg (by simp [haV]), List.filter_cons_of_neg (by simp [haV])]
        exact this
      · rw [List.filter_cons_of_pos (by simp [haV, hat]),
          List.filter_cons_of_pos (by simp [haV])]
        simp only [List.length_cons]
        omega

theorem unvisited_le_length (U V : List GoType) : unvisited U V ≤ U.length := by
  unfold unvisited
  exact List.length_filter_le _ _

theorem buildFields_fuel {build : GoType → List GoType → Result (typeDescriptor × List GoType)}
    {env : List GoType} (U : List GoType) (n : Nat)
    (hb : ∀ c ∈ U, ∀ W, unvisited U W < n → build c W ≠ .outOfFuel)
    (hmono : ∀ ft W d W1, build ft W = .ok (d, W1) → ∀ x ∈ W, x ∈ W1) :
    ∀ (rest : List StructField) (i : Nat) (desc : List (String × fieldDescriptor))
      (V : List GoType), (∀ f ∈ rest, ∀ c, nestedStruct env f.Typ = some c → c ∈ U) →
      unvisited U V < n → buildFields build env rest i desc V ≠ .outOfFuel := by
  intro rest
  induction rest with
  | nil =>
    intro i desc V _ _ h
    rw [buildFields_nil] at h
    cases h
  | cons field rest ih =>
    intro i desc V hU hV h
    have hrest : ∀ f ∈ rest, ∀ c, nestedStruct env f.Typ = some c → c ∈ U :=
      fun f hf => hU f (List.mem_cons_of_mem _ hf)
    by_cases hskip : field.IsExported = false ∨ field.jsonTag = jsonTagIgnore
    · rw [buildFields_cons_skip hskip] at h
      exact ih _ _ _ hrest hV h
    · have hret := retained_of_not_skip hskip
      cases hn : nestedStruct env field.Typ with
      | none =>
        rw [buildFields_cons_leaf hret.1 hret.2 hn] at h
        exact ih _ _ _ hrest hV h
      | some ft =>
        rw [buildFields_cons_nested hret.1 hret.2 hn] at h
        cases hbld : build ft V with
        | ok p =>
          obtain ⟨child, V2⟩ := p
          rw [hbld] at h
          have hsub := hmono _ _ _ _ hbld
          have : unvisited U V2 < n :=
            Nat.lt_of_le_of_lt (unvisited_le_of_subset U hsub) hV
          exact ih _ _ _ hrest this h
        | fail e => rw [hbld] at h; cases h
        | panic => rw [hbld] at h; cases h
        | outOfFuel => exact hb ft (hU field (List.mem_cons_self _ _) ft hn) V hV hbld

/-- With a budget above the number of types of `U` not yet in `visited`, where `U` is
closed under taking the nested record type of a field, `buildDescriptor` returns. -/
theorem buildDescriptor_fuel (env : List GoType) (U : List GoType)
    (hclosed : ∀ s ∈ U, ∀ c, nestedInAny env s c → c ∈ U) :
    ∀ (fuel : Nat) (t : GoType) (V : List GoType), t ∈ U → unvisited U V < fuel →
      buildDescriptor env fuel t V ≠ .outOfFuel := by
  intro fuel
  induction fuel with
  | zero => intro t V _ h; omega
  | succ fuel ih =>
    intro t V ht hV h
    by_cases hv : t ∈ V
    · rw [buildDescriptor_succ_visited hv] at h
      cases h
    · cases t with
      | basic k => simp [buildDescriptor, hv] at h
      | Ptr e => simp [buildDescriptor, hv] at h
      | Struct name fields =>
        rw [buildDescriptor_succ_struct hv] at h
        have hlt := unvisited_cons_lt U ht hv
        refine buildFields_fuel U fuel (fun c hc W hW => ih c W hc hW)
          (fun ft W d W1 hft => (buildDescriptor_ok env _ _ _ _ _ hft).2.1)
          fields 0 [] _ ?_ (by omega) h
        intro f hf c hc
        exact hclosed _ ht c ⟨name, fields, f, rfl, hf, hc⟩

/-! ### The types the builder can meet -/

theorem structsOf_struct (name : String) (fields : List StructField) :
    structsOf (.Struct name fields) = .Struct name fields :: structsOfFields fields := by
  rw [structsOf]

theorem structsOfFields_cons (f : StructField) (rest : List StructField) :
    structsOfFields (f :: rest) = structsOf f.Typ ++ structsOfFields rest := by
  obtain ⟨n, p, j, t, o⟩ := f
  rw [structsOfFields]

theorem mem_structsOfFields {s : GoType} {fields : List StructField} :
    s ∈ structsOfFields fields ↔ ∃ f ∈ fields, s ∈ structsOf f.Typ := by
  induction fields with
  | nil => simp [structsOfFields]
  | cons f rest ih =>
    rw [structsOfFields_cons, List.mem_append, ih]
    simp

theorem sizeOf_field_lt (name : String) {fields : List StructField} {f : StructField}
    (h : f ∈ fields) : sizeOf f.Typ < sizeOf (GoType.Struct name fields) := by
  have h1 := List.sizeOf_lt_of_mem h
  obtain ⟨n, p, j, t, o⟩ := f
  simp only [StructFieldOf.mk.sizeOf_spec, GoType.Struct.sizeOf_spec] at h1 ⊢
  omega

/-- The struct types inside a struct type that occurs in `x` occur in `x`. -/
theorem structsOf_trans : ∀ (x s : GoType), s ∈ structsOf x → ∀ u ∈ structsOf s,
    u ∈ structsOf x := by
  intro x
  generalize hn : sizeOf x = n
  induction n using Nat.strong_induction_on generalizing x with
  | _ n ih =>
    intro s hs u hu
    cases x with
    | basic k => simp [structsOf] at hs
    | Ptr e => simp [structsOf] at hs
    | Struct name fields =>
      rw [structsOf_struct] at hs
      rcases List.mem_cons.mp hs with rfl | hs
      · exact hu
      · obtain ⟨f, hf, hsf⟩ := mem_structsOfFields.mp hs
        have := ih _ (hn ▸ sizeOf_field_lt name hf) f.Typ rfl s hsf u hu
        rw [structsOf_struct]
        exact List.mem_cons_of_mem _ (mem_structsOfFields.mpr ⟨f, hf, this⟩)

theorem mem_structsOfTable {s : GoType} {env : List GoType} :
    s ∈ structsOfTable env ↔ ∃ x ∈ env, s ∈ structsOf x := by
  induction env with
  | nil => simp [structsOfTable]
  | cons t rest ih =>
    simp only [structsOfTable, List.mem_append, ih]
    simp

theorem nestedInAny_mem_structs {env : List GoType} {s c : GoType}
    (h : nestedInAny env s c) : c ∈ structsOf s ∨ c ∈ structsOfTable env := by
  obtain ⟨name, fields, f, rfl, hf, hn⟩ := h
  cases hT : f.Typ with
  | basic k => rw [hT] at hn; simp [nestedStruct] at hn
  | Struct n1 fs1 =>
    rw [hT] at hn
    simp only [nestedStruct, Option.some.injEq] at hn
    subst hn
    left
    rw [structsOf_struct]
    refine List.mem_cons_of_mem _ (mem_structsOfFields.mpr ⟨f, hf, ?_⟩)
    rw [hT, structsOf_struct]
    exact List.mem_cons_self _ _
  | Ptr e =>
    rw [hT] at hn
    simp only [nestedStruct] at hn
    right
    split at hn
    · rename_i n1 fs1 he
      cases hn
      refine mem_structsOfTable.mpr ⟨_, List.get?_mem he, ?_⟩
      rw [structsOf_struct]
      exact List.mem_cons_self _ _
    · cases hn

/-- The universe of a type is closed under taking the nested record type of a field. -/
theorem typeUniverse_closed (env : List GoType) (t : GoType) :
    ∀ s ∈ typeUniverse env t, ∀ c, nestedInAny env s c → c ∈ typeUniverse env t := by
  intro s hs c hc
  unfold typeUniverse at hs ⊢
  rcases nestedInAny_mem_structs hc with h | h
  · rcases List.mem_append.mp hs with hs | hs
    · exact List.mem_append_left _ (structsOf_trans t s hs c h)
    · obtain ⟨x, hx, hsx⟩ := mem_structsOfTable.mp hs
      exact List.mem_append_right _
        (mem_structsOfTable.mpr ⟨x, hx, structsOf_trans x s hsx c h⟩)
  · exact List.mem_append_right _ h

theorem self_mem_typeUniverse (env : List GoType) (name : String)
    (fields : List StructField) :
    GoType.Struct name fields ∈ typeUniverse env (.Struct name fields) := by
  unfold typeUniverse
  rw [structsOf_struct]
  exact List.mem_append_left _ (List.mem_cons_self _ _)

/-- With the budget `buildFuel env t` or more, `buildDescriptor` on a struct type `t`
returns a descriptor or an error: it neither panics nor runs out of budget. -/
theorem buildDescriptor_returns (env : List GoType) (name : String)
    (fields : List StructField) (fuel : Nat)
    (hfuel : buildFuel env (.Struct name fields) ≤ fuel) :
    (∃ d V, buildDescriptor env fuel (.Struct name fields) [] = .ok (d, V)) ∨
    ∃ u, buildDescriptor env fuel (.Struct name fields) [] =
      .fail (.errCircularReference u) := by
  have h1 := buildDescriptor_no_panic env fuel name fields []
  have h2 := buildDescriptor_fuel env _ (typeUniverse_closed env (.Struct name fields)) fuel
    (.Struct name fields) [] (self_mem_typeUniverse env name fields)
    (by
      have := unvisited_le_length (typeUniverse env (.Struct name fields)) []
      unfold buildFuel at hfuel
      omega)
  cases h : buildDescriptor env fuel (.Struct name fields) [] with
  | ok p => exact Or.inl ⟨p.1, p.2, rfl⟩
  | fail e =>
    obtain ⟨u, rfl⟩ := buildDescriptor_fail env _ _ _ _ h
    exact Or.inr ⟨u, rfl⟩
  | panic => exact absurd h h1
  | outOfFuel => exact absurd h h2

/-- C9, amended: for every record type that reaches itself through a chain of retained
fields (exported, not tagged `json:"-"`) whose types are records or single-level
references to records, building its descriptor with enough budget fails with a
circular reference error, and so does `Apply` with a non-empty mask on a value of that type
as long as the cache holds no descriptor for it. -/
theorem C9_self_reference_through_retained_fields (env : List GoType) (t : GoType)
    (hcyc : Relation.TransGen (nestedIn env) t t) (fuel : Nat)
    (hfuel : buildFuel env t ≤ fuel) :
    ∃ u, buildDescriptor env fuel t [] = .fail (.errCircularReference u) ∧
      ∀ (cache : List (GoType × typeDescriptor)) (f : Option FieldMask) (addr : Nat)
        (data : Data), cacheLoad cache t = none → (∃ m, f = some m ∧ m.Paths ≠ []) →
        FieldMask.Apply env fuel cache f (.pointer t (some (addr, data))) =
          .returned (some (.errCircularReference u)) (.pointer t (some (addr, data)))
            cache := by
  obtain ⟨c, hc, _⟩ := Relation.TransGen.head'_iff.mp hcyc
  obtain ⟨⟨name, fields, rfl⟩, _⟩ := nestedIn_isStruct hc
  rcases buildDescriptor_returns env name fields fuel hfuel with ⟨d, V, hok⟩ | ⟨u, hu⟩
  · exfalso
    exact (buildDescriptor_reach env _ _ _ _ _ hok).2.2 _ hcyc (List.mem_cons_self _ _)
  · refine ⟨u, hu, ?_⟩
    intro cache f addr data hload hf
    have he : FieldMask.IsEmpty f = false := (IsEmpty_false_iff f).mpr hf
    rw [Apply_pointer_struct env fuel cache f he, getTypeDescriptor_struct, hload, hu]

theorem exNode_cycle : Relation.TransGen (nestedIn [exNode]) exNode exNode :=
  Relation.TransGen.single
    ⟨"Node", [⟨"Next", "", "", .Ptr 0, 0⟩], ⟨"Next", "", "", .Ptr 0, 0⟩, rfl,
      List.mem_cons_self _ _, rfl, by decide, rfl⟩

/-- The theorem `C9_self_reference_through_retained_fields` at a concrete input. -/
theorem C9_self_reference_through_retained_fields_witness :
    (Relation.TransGen (nestedIn [exNode]) exNode exNode ∧
      buildFuel [exNode] exNode ≤ 3) ∧
    ∃ u, buildDescriptor [exNode] 3 exNode [] = .fail (.errCircularReference u) ∧
      ∀ (cache : List (GoType × typeDescriptor)) (f : Option FieldMask) (addr : Nat)
        (data : Data), cacheLoad cache exNode = none → (∃ m, f = some m ∧ m.Paths ≠ []) →
        FieldMask.Apply [exNode] 3 cache f (.pointer exNode (some (addr, data))) =
          .returned (some (.errCircularReference u)) (.pointer exNode (some (addr, data)))
            cache :=
  ⟨⟨exNode_cycle, by decide⟩,
    C9_self_reference_through_retained_fields [exNode] exNode exNode_cycle 3 (by decide)⟩

/-- C9, counterexample: `type chain struct { next *chain; Val int }` reaches itself
through the field `next`, a single-level reference to a record, and so does
`type Tree struct { Parent *Tree; Val int }` with `Parent` tagged `json:"-"`; yet their
descriptors build, and `Apply` returns nil. -/
theorem C9_counterexample :
    Relation.TransGen (nestedInAny [exChain]) exChain exChain ∧
    buildDescriptor [exChain] (buildFuel [exChain] exChain) exChain [] =
      .ok (.mk [("Val", .mk "Val" 1 none)], [exChain]) ∧
    (FieldMask.Apply [exChain] (buildFuel [exChain] exChain) [] (some ⟨["Val"]⟩)
      (.pointer exChain (some (4096, .struct [.nil, .int 5])))).err = some none ∧
    Relation.TransGen (nestedInAny [exTree]) exTree exTree ∧
    buildDescriptor [exTree] (buildFuel [exTree] exTree) exTree [] =
      .ok (.mk [("Val", .mk "Val" 1 none)], [exTree]) := by
  refine ⟨?_, rfl, rfl, ?_, rfl⟩
  · exact Relation.TransGen.single
      ⟨"chain", _, ⟨"next", "fieldmask", "", .Ptr 0, 0⟩, rfl, List.mem_cons_self _ _, rfl⟩
  · exact Relation.TransGen.single
      ⟨"Tree", _, ⟨"Parent", "", "-", .Ptr 0, 0⟩, rfl, List.mem_cons_self _ _, rfl⟩

/-! ## A second call in the same order -/

theorem Value.Field_withData {v : Value} {i : Nat} {fv : Value} {xf y : Data}
    (h : v.Field i = some fv) (hx : xf.field i = some y) :
    (v.withData xf).Field i = some (fv.withData y) := by
  obtain ⟨name, fields, ds, f, x, ht, hd, hf, hx0, rfl⟩ := Value.Field_some h
  cases xf with
  | struct xs =>
    simp only [Data.field] at hx
    unfold Value.Field
    simp only [Value.withData, ht, hf, hx]
  | _ => simp [Data.field] at hx

theorem Value.withData_setField_same {v : Value} {i : Nat} {xf y : Data}
    (hx : xf.field i = some y) : (v.withData xf).setField i y = v.withData xf := by
  simp only [Value.setField, Value.withData, Data.setField_same hx]

theorem Value.setField_withData (v : Value) (i : Nat) (x xf : Data) :
    (v.setField i x).withData xf = v.withData xf := rfl

@[simp] theorem Value.withData_CanSet (v : Value) (x : Data) :
    (v.withData x).CanSet = v.CanSet := rfl

@[simp] theorem Value.withData_typ (v : Value) (x : Data) : (v.withData x).typ = v.typ := rfl

@[simp] theorem Value.withData_addr (v : Value) (x : Data) :
    (v.withData x).addr = v.addr := rfl

@[simp] theorem Value.withData_data (v : Value) (x : Data) : (v.withData x).data = x := rfl

theorem Value.withData_self (v : Value) : v.withData v.data = v := rfl

/-- The loop of `apply`, run again over the entries in the same order on contents that
agree with its result on the fields of the entries, changes nothing and leaves the same
`visited`. -/
theorem applyFields_again (es : List (String × fieldDescriptor))
    (hidx : (es.map (fun e => e.2.index)).Nodup)
    (hch : ∀ tag t i c, (tag, fieldDescriptor.mk t i (some c)) ∈ es →
      ∀ (v : Value) (S : List String) (V : List Nat) (r : applyResult),
        c.apply v S V = some r → c.apply (v.withData r.data) S V = some r)
    (keep : List String) (nested : List (String × List String)) :
    ∀ (v : Value) (V : List Nat) (r : applyResult),
      applyFields es keep nested v V = some r →
      ∀ xf : Data, (∀ e ∈ es, xf.field e.2.index = r.data.field e.2.index) →
        applyFields es keep nested (v.withData xf) V = some ⟨xf, r.visited, r.err⟩ := by
  induction es with
  | nil =>
    intro v V r h xf _
    rw [applyFields_nil] at h
    cases h
    rw [applyFields_nil]
    rfl
  | cons e rest ih =>
    intro v V r h xf hxf
    obtain ⟨tag, fd⟩ := e
    obtain ⟨t, index, child⟩ := fd
    simp only [List.map_cons, List.nodup_cons, fieldDescriptor.index] at hidx
    have hnot : ∀ e ∈ rest, e.2.index ≠ index := by
      intro e he heq
      exact hidx.1 (heq ▸ List.mem_map_of_mem (fun e => e.2.index) he)
    have ih := ih hidx.2 (fun tag t i c hm => hch tag t i c (List.mem_cons_of_mem _ hm))
    have hxrest : ∀ e ∈ rest, xf.field e.2.index = r.data.field e.2.index :=
      fun e he => hxf e (List.mem_cons_of_mem _ he)
    have hxhead : xf.field index = r.data.field index := hxf _ (List.mem_cons_self _ _)
    obtain ⟨fv, hF, hcase⟩ := applyFields_cons_inv h
    rcases hcase with ⟨hcs, h1⟩ | ⟨hcs, c, sub, r1, hc, hl, ha, he1, h1⟩ |
        ⟨hcs, hl, hk, h1⟩ | ⟨hcs, hl, hk, h1⟩
    · have hfield : xf.field index = some fv.data := by
        rw [hxhead, applyFields_frame rest _ _ _ _ _ h1 index hnot]
        exact Value.Field_data hF
      rw [applyFields_cons_skip (Value.Field_withData hF hfield) (by simpa using hcs)]
      exact ih _ _ _ h1 xf hxrest
    · subst hc
      have hfield : xf.field index = some r1.data := by
        rw [hxhead, applyFields_frame rest _ _ _ _ _ h1 index hnot, Value.setField_data]
        exact Data.field_setField_same _ (Value.Field_data hF)
      rw [applyFields_cons_descend (Value.Field_withData hF hfield) (by simpa using hcs) hl]
      have hagain := hch tag t index c (List.mem_cons_self _ _) _ _ _ _ ha
      rw [hagain]
      simp only [he1]
      rw [Value.withData_setField_same hfield]
      exact ih _ _ _ h1 xf hxrest
    · have hfield : xf.field index = some fv.data := by
        rw [hxhead, applyFields_frame rest _ _ _ _ _ h1 index hnot]
        exact Value.Field_data hF
      rw [applyFields_cons_leaf (Value.Field_withData hF hfield) (by simpa using hcs) hl,
        if_pos hk]
      exact ih _ _ _ h1 xf hxrest
    · have hfield : xf.field index = some (getZero fv.typ) := by
        rw [hxhead, applyFields_frame rest _ _ _ _ _ h1 index hnot, Value.setField_data]
        exact Data.field_setField_same _ (Value.Field_data hF)
      rw [applyFields_cons_leaf (Value.Field_withData hF hfield) (by simpa using hcs) hl,
        if_neg hk]
      simp only [Value.withData_typ]
      rw [Value.withData_setField_same hfield]
      exact ih _ _ _ h1 xf hxrest

/-- The recursive `apply`, run again on its own result with the same `visited` and the
maps ranged in the same order, returns the same result. -/
theorem apply_again : ∀ (d : typeDescriptor), WFDesc d →
    ∀ (v : Value) (S : List String) (V : List Nat) (r : applyResult),
      d.apply v S V = some r → d.apply (v.withData r.data) S V = some r := by
  intro d
  induction d using typeDescriptor.induct with
  | step fields ih =>
    intro hwf v S V r h
    cases hwf with
    | mk _ hkeys hidx hchild =>
      cases ha : v.addr with
      | none =>
        rw [apply_mk_none ha] at h
        cases h
        exact apply_mk_none ha
      | some addr =>
        by_cases hv : addr ∈ V
        · rw [apply_mk_visited ha hv] at h
          cases h
          exact apply_mk_visited ha hv
        · rw [apply_mk_enter ha hv] at h
          have ha2 : (v.withData r.data).addr = some addr := ha
          rw [apply_mk_enter ha2 hv]
          exact applyFields_again fields hidx
            (fun tag t i c hm => ih tag t i c hm (hchild tag t i c hm)) _ _ _ _ _ h r.data
            (fun _ _ => rfl)

/-- A second call of `Apply` that ranges over the maps of the descriptor in the order of
the first call (Go does not promise that it does) succeeds on the result of the first
call, with the same path set, and leaves that result as it is. -/
theorem Apply_again_in_the_same_order (env : List GoType) (fuel fuel2 : Nat)
    (cache cache1 : List (GoType × typeDescriptor)) (hc : CacheSound env cache)
    (f : Option FieldMask) (i i1 : Iface)
    (h : FieldMask.Apply env fuel cache f i = .returned none i1 cache1) :
    FieldMask.Apply env fuel2 cache1 f i1 = .returned none i1 cache1 := by
  cases he : FieldMask.IsEmpty f with
  | true =>
    unfold FieldMask.Apply
    simp [he]
  | false =>
    cases i with
    | nil => simp [FieldMask.Apply, he] at h
    | basic k data => simp [FieldMask.Apply, he] at h
    | struct name fields data => simp [FieldMask.Apply, he] at h
    | pointer elem target =>
      cases target with
      | none => simp [FieldMask.Apply, he] at h
      | some p =>
        obtain ⟨addr, data⟩ := p
        by_cases hk : elem.Kind = .Struct
        · obtain ⟨name, fields, rfl⟩ := GoType.Kind_struct hk
          rw [Apply_pointer_struct env fuel cache f he] at h
          cases hg : getTypeDescriptor env fuel cache (.Struct name fields) with
          | fail e => rw [hg] at h; cases h
          | panic => rw [hg] at h; cases h
          | outOfFuel => rw [hg] at h; cases h
          | ok p =>
            obtain ⟨td, cache2⟩ := p
            rw [hg] at h
            simp only at h
            cases ha : td.apply ⟨.Struct name fields, data, some addr, false⟩
                (FieldMask.pathsOf f) [] with
            | none => rw [ha] at h; cases h
            | some r =>
              rw [ha] at h
              simp only [ApplyOutcome.returned.injEq] at h
              obtain ⟨herr, hi1, hc1⟩ := h
              subst hi1 hc1
              obtain ⟨hdesc, _, hload⟩ := getTypeDescriptor_ok hc hg
              rw [Apply_pointer_struct env fuel2 cache2 f he, getTypeDescriptor_hit fuel2 hload]
              have := apply_again td hdesc.wf _ _ _ _ ha
              simp only [Value.withData] at this
              simp only [this, herr]
        · simp [FieldMask.Apply, he, hk] at h

/-! ## Kept fields -/

theorem mapLookup_mem {β : Type} {m : List (String × β)} {k : String} {v : β}
    (h : mapLookup m k = some v) : (k, v) ∈ m := by
  induction m with
  | nil => simp [mapLookup] at h
  | cons e rest ih =>
    obtain ⟨k0, w⟩ := e
    simp only [mapLookup] at h
    by_cases h0 : k0 = k
    · rw [if_pos h0] at h
      cases h
      subst h0
      exact List.mem_cons_self _ _
    · rw [if_neg h0] at h
      exact List.mem_cons_of_mem _ (ih h)

theorem mem_unique_of_keys_nodup {β : Type} {m : List (String × β)}
    (hn : (m.map (fun e => e.1)).Nodup) {e1 e2 : String × β} (h1 : e1 ∈ m) (h2 : e2 ∈ m)
    (hk : e1.1 = e2.1) : e1 = e2 :=
  List.inj_on_of_nodup_map hn h1 h2 hk

theorem fieldAt_cons_none {d : typeDescriptor} (x : Data) {k : String} (ks : List String)
    (h : mapLookup d.fields k = none) : fieldAt (some d) x (k :: ks) = none := by
  rw [fieldAt, h]

theorem fieldAt_cons_some {d : typeDescriptor} (x : Data) {k : String} (ks : List String)
    {fd : fieldDescriptor} (h : mapLookup d.fields k = some fd) :
    fieldAt (some d) x (k :: ks) =
      (x.field fd.index).bind (fun y => fieldAt fd.child y ks) := by
  rw [fieldAt, h]
  simp only
  cases hx : x.field fd.index <;> simp

theorem fieldAt_none_cons (x : Data) (k : String) (ks : List String) :
    fieldAt none x (k :: ks) = none := by
  rw [fieldAt]

theorem descAt_cons_some {d : typeDescriptor} {k : String} (ks : List String)
    {fd : fieldDescriptor} (h : mapLookup d.fields k = some fd) :
    descAt (some d) (k :: ks) = descAt fd.child ks := by
  rw [descAt, h]

theorem descAt_nil (d : Option typeDescriptor) : descAt d [] = d := by
  cases d <;> rw [descAt]

theorem dotted_cons_cons (k k2 : String) (ks : List String) :
    dotted (k :: k2 :: ks) = k ++ pathSeparator ++ dotted (k2 :: ks) := by
  rw [dotted]

theorem dotted_singleton (k : String) : dotted [k] = k := by
  rw [dotted]

theorem HasPrefix_dot_self (k rest : String) :
    HasPrefix (k ++ pathSeparator ++ rest) (k ++ pathSeparator) = true := by
  unfold HasPrefix
  rw [List.isPrefixOf_iff_prefix]
  simp only [String.data_append]
  exact List.prefix_append _ _

theorem HasPrefix_dot_cancel (k s x : String) :
    HasPrefix (k ++ pathSeparator ++ s) (k ++ pathSeparator ++ x ++ pathSeparator) =
      HasPrefix s (x ++ pathSeparator) := by
  unfold HasPrefix
  rw [Bool.eq_iff_iff, List.isPrefixOf_iff_prefix, List.isPrefixOf_iff_prefix]
  simp only [String.data_append, List.append_assoc]
  rw [List.prefix_append_right_inj, List.prefix_append_right_inj]

/-- The loop of `apply` keeps what is below the field of key `k`, when every round that
handles that field does. -/
theorem applyFields_field_inv (k : String) (t0 : String) (i0 : Nat)
    (child0 : Option typeDescriptor) (ks : List String) (keep : List String)
    (nested : List (String × List String))
    (hdesc : ∀ c sub, child0 = some c → mapLookup nested k = some sub →
      ∀ (fv : Value) (V : List Nat) (r1 : applyResult), c.apply fv sub V = some r1 →
        fieldAt (some c) r1.data ks = fieldAt (some c) fv.data ks)
    (hleaf : (child0 = none ∨ mapLookup nested k = none) →
      k ∈ keep ∨ (ks ≠ [] ∧ child0 = none)) :
    ∀ (es : List (String × fieldDescriptor)),
      (∀ e ∈ es, e.1 = k → e.2 = .mk t0 i0 child0) →
      (∀ e ∈ es, e.1 ≠ k → e.2.index ≠ i0) →
      ∀ (v : Value) (V : List Nat) (r : applyResult),
        applyFields es keep nested v V = some r →
        (r.data.field i0).bind (fun y => fieldAt child0 y ks) =
          (v.data.field i0).bind (fun y => fieldAt child0 y ks) := by
  intro es
  induction es with
  | nil =>
    intro _ _ v V r h
    rw [applyFields_nil] at h
    cases h
    rfl
  | cons e rest ih =>
    intro hkey hidx v V r h
    obtain ⟨tag, fd⟩ := e
    obtain ⟨t, index, child⟩ := fd
    have ihr := ih (fun e he => hkey e (List.mem_cons_of_mem _ he))
      (fun e he => hidx e (List.mem_cons_of_mem _ he))
    clear ih
    obtain ⟨fv, hF, hcase⟩ := applyFields_cons_inv h
    by_cases htag : tag = k
    · have hfd := hkey _ (List.mem_cons_self _ _) htag
      simp only [fieldDescriptor.mk.injEq] at hfd
      obtain ⟨_, rfl, rfl⟩ := hfd
      subst htag
      have hvf := Value.Field_data hF
      rcases hcase with ⟨_, h1⟩ | ⟨_, c, sub, r1, hc, hl, ha, _, h1⟩ |
          ⟨_, _, _, h1⟩ | ⟨_, hl, hk, h1⟩
      · exact ihr _ _ _ h1
      · rw [ihr _ _ _ h1, Value.setField_data, Data.field_setField_same _ hvf, hvf]
        subst hc
        simp only [Option.some_bind]
        exact hdesc c sub rfl hl _ _ _ ha
      · exact ihr _ _ _ h1
      · rw [ihr _ _ _ h1, Value.setField_data, Data.field_setField_same _ hvf, hvf]
        rcases hleaf hl with hk2 | ⟨hks, hc⟩
        · exact absurd hk2 hk
        · subst hc
          cases ks with
          | nil => exact absurd rfl hks
          | cons k1 ks1 => simp only [Option.some_bind, fieldAt_none_cons]
    · have hne : index ≠ i0 := hidx _ (List.mem_cons_self _ _) htag
      rcases hcase with ⟨_, h1⟩ | ⟨_, c, sub, r1, _, _, _, _, h1⟩ |
          ⟨_, _, _, h1⟩ | ⟨_, _, _, h1⟩
      · exact ihr _ _ _ h1
      · rw [ihr _ _ _ h1, Value.setField_data, Data.field_setField_ne _ _ hne]
      · exact ihr _ _ _ h1
      · rw [ihr _ _ _ h1, Value.setField_data, Data.field_setField_ne _ _ hne]

theorem suffixesOf_ne_nil_of_lookup {S : List String} {k : String} {sub : List String}
    (h : mapLookup (buildPathMaps S).2 k = some sub) : sub = suffixesOf k S ∧ sub ≠ [] := by
  rw [nestedPaths_lookup] at h
  by_cases hs : suffixesOf k S = []
  · rw [if_pos hs] at h; cases h
  · rw [if_neg hs] at h
    cases h
    exact ⟨rfl, hs⟩

/-- The recursive `apply` keeps every field that has a path of the list on the way from
the root to it, when that path names a leaf of the descriptor or no path of the list
continues below it. -/
theorem apply_keeps : ∀ (q : List String) (d : typeDescriptor), WFDesc d →
    ∀ (v : Value) (S : List String) (V : List Nat) (r : applyResult),
      d.apply v S V = some r → (∀ k ∈ q, bare k) →
      ∀ p : List String, p ≠ [] → p <+: q → dotted p ∈ S →
        (descAt (some d) p = none ∨
          ∀ s ∈ S, HasPrefix s (dotted p ++ pathSeparator) = false) →
        fieldAt (some d) r.data q = fieldAt (some d) v.data q := by
  intro q
  induction q with
  | nil =>
    intro d _ v S V r _ _ p hp hpq
    exact absurd (List.prefix_nil.mp hpq) hp
  | cons k ks ih =>
    intro d hwf v S V r h hbare p hp hpq hkept hno
    obtain ⟨fields⟩ := d
    cases hwf with
    | mk _ hkeys hidx hchild =>
      cases ha : v.addr with
      | none => rw [apply_mk_none ha] at h; cases h; rfl
      | some addr =>
        by_cases hv : addr ∈ V
        · rw [apply_mk_visited ha hv] at h; cases h; rfl
        · rw [apply_mk_enter ha hv] at h
          cases hl : mapLookup (typeDescriptor.mk fields).fields k with
          | none => rw [fieldAt_cons_none _ _ hl, fieldAt_cons_none _ _ hl]
          | some fd =>
            rw [fieldAt_cons_some _ _ hl, fieldAt_cons_some _ _ hl]
            simp only [typeDescriptor.fields] at hl
            obtain ⟨t0, i0, child0⟩ := fd
            have hmem := mapLookup_mem hl
            cases p with
            | nil => exact absurd rfl hp
            | cons k1 ps =>
              obtain ⟨hk1, hps⟩ := List.cons_prefix_cons.mp hpq
              subst hk1
              have hkb : bare k1 := hbare k1 (List.mem_cons_self _ _)
              have hinv := applyFields_field_inv k1 t0 i0 child0 ks (buildPathMaps S).1
                (buildPathMaps S).2 ?_ ?_ fields ?_ ?_ _ _ _ h
              · exact hinv
              · -- rounds that descend into the field
                intro c sub hc hsub fv V1 r1 hap
                subst hc
                obtain ⟨rfl, hsne⟩ := suffixesOf_ne_nil_of_lookup hsub
                cases ps with
                | nil =>
                  exfalso
                  rw [dotted_singleton] at hkept hno
                  rcases hno with hno | hno
                  · rw [descAt_cons_some (d := .mk fields) _ hl, descAt_nil] at hno
                    cases hno
                  · obtain ⟨rest, hrest⟩ := List.exists_mem_of_ne_nil _ hsne
                    have hin := (mem_suffixesOf hkb S rest).mp hrest
                    have := hno _ hin
                    rw [HasPrefix_dot_self] at this
                    cases this
                | cons k2 ps1 =>
                  rw [dotted_cons_cons] at hkept hno
                  refine ih c (hchild k1 t0 i0 c hmem) fv _ V1 r1 hap
                    (fun k hk => hbare k (List.mem_cons_of_mem _ hk)) (k2 :: ps1)
                    (by simp) hps ((mem_suffixesOf hkb S _).mpr hkept) ?_
                  rcases hno with hno | hno
                  · left
                    rw [descAt_cons_some (d := .mk fields) _ hl] at hno
                    exact hno
                  · right
                    intro s hs
                    have hin := (mem_suffixesOf hkb S s).mp hs
                    have := hno _ hin
                    rw [HasPrefix_dot_cancel] at this
                    exact this
              · -- rounds that keep or reset the field
                intro hleaf
                cases ps with
                | nil =>
                  left
                  rw [dotted_singleton] at hkept
                  exact (mem_keepMap_iff S k1).mpr ⟨hkept, hkb⟩
                | cons k2 ps1 =>
                  right
                  rw [dotted_cons_cons] at hkept
                  have hin := (mem_suffixesOf hkb S _).mpr hkept
                  have hlook : mapLookup (buildPathMaps S).2 k1 ≠ none := by
                    rw [nestedPaths_lookup]
                    have : suffixesOf k1 S ≠ [] := List.ne_nil_of_mem hin
                    simp [this]
                  refine ⟨?_, ?_⟩
                  · intro hks
                    subst hks
                    exact absurd (List.prefix_nil.mp hps) (by simp)
                  · rcases hleaf with h1 | h1
                    · exact h1
                    · exact absurd h1 hlook
              · intro e he hek
                have := mem_unique_of_keys_nodup hkeys he hmem hek
                rw [this]
              · intro e he hek hidxeq
                have := List.inj_on_of_nodup_map hidx he hmem hidxeq
                rw [this] at hek
                exact hek rfl

/-- C1, amended: for every record value and every path set on which `Apply` succeeds,
every maskable field whose own dotted path, or the path of one of its ancestors, is in
the path set holds after `Apply` what it held before, provided the keys on the way to the
field contain no separator and that entry of the path set names a leaf of the descriptor
or has no path of the set strictly below it. -/
theorem C1_kept_fields_unchanged (env : List GoType) (fuel : Nat)
    (cache cache1 : List (GoType × typeDescriptor)) (hc : CacheSound env cache)
    (f : Option FieldMask) (name : String) (fields : List StructField) (addr : Nat)
    (data data1 : Data) (td : typeDescriptor)
    (hg : getTypeDescriptor env fuel cache (.Struct name fields) = .ok (td, cache1))
    (h : FieldMask.Apply env fuel cache f (.pointer (.Struct name fields) (some (addr, data))) =
      .returned none (.pointer (.Struct name fields) (some (addr, data1))) cache1)
    (q : List String) (hq : ∀ k ∈ q, bare k) (p : List String) (hp : p ≠ [])
    (hpq : p <+: q) (hkept : dotted p ∈ FieldMask.pathsOf f)
    (hno : descAt (some td) p = none ∨
      ∀ s ∈ FieldMask.pathsOf f, HasPrefix s (dotted p ++ pathSeparator) = false) :
    fieldAt (some td) data1 q = fieldAt (some td) data q := by
  have he : FieldMask.IsEmpty f = false := by
    cases f with
    | none => simp [FieldMask.pathsOf] at hkept
    | some m =>
      cases hm : m.Paths with
      | nil => simp [FieldMask.pathsOf, hm] at hkept
      | cons a b => simp [FieldMask.IsEmpty, hm]
  rw [Apply_pointer_struct env fuel cache f he, hg] at h
  simp only at h
  cases ha : td.apply ⟨.Struct name fields, data, some addr, false⟩
      (FieldMask.pathsOf f) [] with
  | none => rw [ha] at h; cases h
  | some r =>
    rw [ha] at h
    simp only [ApplyOutcome.returned.injEq] at h
    obtain ⟨_, hi, _⟩ := h
    cases hi
    exact apply_keeps q td (getTypeDescriptor_ok hc hg).1.wf _ _ _ _ ha hq p hp hpq hkept hno

/-- The theorem `C1_kept_fields_unchanged` at a concrete input. -/
theorem C1_kept_fields_unchanged_witness :
    (CacheSound [] [] ∧
      getTypeDescriptor [] 2 [] (.Struct "Member" exMemberFields) =
        .ok (exMemberDesc, [(exMember, exMemberDesc)]) ∧
      FieldMask.Apply [] 2 [] (some ⟨["name", "profile.age"]⟩)
          (.pointer (.Struct "Member" exMemberFields)
            (some (4096, exMemberData))) =
        .returned none
          (.pointer (.Struct "Member" exMemberFields)
            (some (4096, .struct [.string "John", .struct [.int 30, .string ""]])))
          [(exMember, exMemberDesc)] ∧
      (∀ k ∈ ["profile", "age"], bare k) ∧ ["profile", "age"] ≠ [] ∧
      ["profile", "age"] <+: ["profile", "age"] ∧
      dotted ["profile", "age"] ∈ FieldMask.pathsOf (some ⟨["name", "profile.age"]⟩) ∧
      (descAt (some exMemberDesc) ["profile", "age"] = none ∨
        ∀ s ∈ FieldMask.pathsOf (some ⟨["name", "profile.age"]⟩),
          HasPrefix s (dotted ["profile", "age"] ++ pathSeparator) = false)) ∧
    fieldAt (some exMemberDesc) (.struct [.string "John", .struct [.int 30, .string ""]])
        ["profile", "age"] =
      fieldAt (some exMemberDesc) exMemberData ["profile", "age"] :=
  ⟨⟨CacheSound_nil [], rfl, rfl, by decide, by simp, List.prefix_refl _, by decide,
      Or.inl rfl⟩,
    C1_kept_fields_unchanged [] 2 [] _ (CacheSound_nil []) (some ⟨["name", "profile.age"]⟩)
      "Member" exMemberFields 4096 exMemberData _ exMemberDesc rfl rfl ["profile", "age"] (by decide)
      ["profile", "age"] (by simp) (List.prefix_refl _) (by decide) (Or.inl rfl)⟩

/-- C1, counterexample: in `{name:"John", profile:{age:30,bio:"x"}}` with the path set
`["profile", "profile.age"]` the field `profile` has its own path in the set and the field
`profile.bio` has the path of its ancestor in the set, yet after the successful `Apply`
`profile` is `{age:30,bio:""}` and `profile.bio` is `""`.  And in a record whose field has
the serialization key `a.b`, the path set `["a.b"]` holds the path of that field, yet
the field is reset. -/
theorem C1_counterexample :
    "profile" ∈ ["profile", "profile.age"] ∧
    FieldMask.Apply [] 2 [] (some ⟨["profile", "profile.age"]⟩)
        (.pointer exMember (some (4096, exMemberData))) =
      .returned none
        (.pointer exMember (some (4096, .struct [.string "", .struct [.int 30, .string ""]])))
        [(exMember, exMemberDesc)] ∧
    fieldAt (some exMemberDesc) exMemberData ["profile"] =
      some (.struct [.int 30, .string "x"]) ∧
    fieldAt (some exMemberDesc) (.struct [.string "", .struct [.int 30, .string ""]])
      ["profile"] = some (.struct [.int 30, .string ""]) ∧
    fieldAt (some exMemberDesc) exMemberData ["profile", "bio"] = some (.string "x") ∧
    fieldAt (some exMemberDesc) (.struct [.string "", .struct [.int 30, .string ""]])
      ["profile", "bio"] = some (.string "") ∧
    "a.b" ∈ ["a.b"] ∧
    FieldMask.Apply [] 2 [] (some ⟨["a.b"]⟩)
        (.pointer exDotted (some (4096, .struct [.string "v1"]))) =
      .returned none (.pointer exDotted (some (4096, .struct [.string ""])))
        [(exDotted, .mk [("a.b", .mk "a.b" 0 none)])] := by
  refine ⟨by decide, rfl, rfl, rfl, rfl, rfl, by decide, rfl⟩

/-! ## Types over the empty type table have no cycle -/

theorem nestedInAny_nil_sizeOf {s c : GoType} (h : nestedInAny [] s c) :
    sizeOf c < sizeOf s := by
  obtain ⟨name, fields, f, rfl, hf, hn⟩ := h
  have hlt := sizeOf_field_lt name hf
  cases hT : f.Typ with
  | basic k => rw [hT] at hn; simp [nestedStruct] at hn
  | Struct n1 fs1 =>
    rw [hT] at hn hlt
    simp only [nestedStruct, Option.some.injEq] at hn
    subst hn
    exact hlt
  | Ptr e =>
    rw [hT] at hn
    simp [nestedStruct] at hn

theorem no_cycle_over_empty_table (t : GoType) :
    ¬ Relation.TransGen (nestedInAny []) t t := by
  have hlt : ∀ a b, Relation.TransGen (nestedInAny []) a b → sizeOf b < sizeOf a := by
    intro a b hab
    induction hab with
    | single h => exact nestedInAny_nil_sizeOf h
    | tail _ h ih => exact Nat.lt_trans (nestedInAny_nil_sizeOf h) ih
  intro h
  exact Nat.lt_irrefl _ (hlt t t h)

/-- C10, the code at the failing input: `type Pair struct { A Inner; B Inner }` has no
self-referential chain (no type over the empty type table has one), yet building its
descriptor fails with a circular reference error for `Inner`, and so does `Apply`. -/
theorem C10_sibling_fields_of_one_type_fail (n : Nat) :
    (∀ t, ¬ Relation.TransGen (nestedInAny []) t t) ∧
    buildDescriptor [] (n + 2) exPair [] = .fail (.errCircularReference exInner) ∧
    FieldMask.Apply [] (n + 2) [] (some ⟨["A"]⟩)
        (.pointer exPair (some (4096, .struct [.struct [.int 1], .struct [.int 2]]))) =
      .returned (some (.errCircularReference exInner))
        (.pointer exPair (some (4096, .struct [.struct [.int 1], .struct [.int 2]]))) [] :=
  ⟨no_cycle_over_empty_table, rfl, rfl⟩

/-! ## The path set: `HasPath`, `RemovePaths`, `Normalize`, `New` -/

theorem HasPrefix_iff (s pre : String) :
    HasPrefix s pre = true ↔ ∃ rest : String, s = pre ++ rest := by
  unfold HasPrefix
  rw [List.isPrefixOf_iff_prefix]
  constructor
  · rintro ⟨t, ht⟩
    exact ⟨⟨t⟩, String.ext (by simp [ht])⟩
  · rintro ⟨rest, rfl⟩
    exact ⟨rest.data, by simp⟩

theorem HasPath_some (P : List String) (path : String) :
    FieldMask.HasPath (some ⟨P⟩) path = true ↔
      ∃ p ∈ P, p = path ∨ HasPrefix p (path ++ ".") = true := by
  unfold FieldMask.HasPath
  cases P with
  | nil => simp
  | cons a l =>
    simp only [List.length_cons, Nat.succ_ne_zero, beq_iff_eq, if_false, List.any_eq_true,
      Bool.or_eq_true]

/-- C15: `HasPath(path)` is true exactly when the mask is not nil, holds at least one
path, and some stored path equals `path` or begins with `path` followed by a dot; so
the mask holding only `field1.subfield` answers true for `field1` and for
`field1.subfield`, and false for `field1.subfield.subfield` and for `field3`. -/
theorem C15_HasPath_iff_stored_or_ancestor_of_stored (f : Option FieldMask) (path : String) :
    (FieldMask.HasPath f path = true ↔
      ∃ m, f = some m ∧ m.Paths ≠ [] ∧
        ∃ p ∈ m.Paths, p = path ∨ ∃ rest : String, p = path ++ "." ++ rest) ∧
    FieldMask.HasPath (some ⟨["field1.subfield"]⟩) "field1" = true ∧
    FieldMask.HasPath (some ⟨["field1.subfield"]⟩) "field1.subfield" = true ∧
    FieldMask.HasPath (some ⟨["field1.subfield"]⟩) "field1.subfield.subfield" = false ∧
    FieldMask.HasPath (some ⟨["field1.subfield"]⟩) "field3" = false := by
  refine ⟨?_, by decide, by decide, by decide, by decide⟩
  cases f with
  | none => simp [FieldMask.HasPath]
  | some m =>
    obtain ⟨P⟩ := m
    rw [HasPath_some]
    constructor
    · rintro ⟨p, hp, h⟩
      refine ⟨⟨P⟩, rfl, List.ne_nil_of_mem hp, p, hp, ?_⟩
      rcases h with h | h
      · exact Or.inl h
      · exact Or.inr ((HasPrefix_iff _ _).1 h)
    · rintro ⟨m, hm, _, p, hp, h⟩
      cases hm
      refine ⟨p, hp, ?_⟩
      rcases h with h | h
      · exact Or.inl h
      · exact Or.inr ((HasPrefix_iff _ _).2 h)

/-- C16, counterexample: the mask stores `field1.subfield`, a strict ancestor of
`field1.subfield.subfield`, and `HasPath("field1.subfield.subfield")` is false; so is
`HasPath("a.b")` on the mask that stores `a`. -/
theorem C16_counterexample :
    "field1.subfield" ∈ ["field1.subfield"] ∧
    strictAncestor "field1.subfield" "field1.subfield.subfield" = true ∧
    FieldMask.HasPath (some ⟨["field1.subfield"]⟩) "field1.subfield.subfield" = false ∧
    strictAncestor "a" "a.b" = true ∧ FieldMask.HasPath (some ⟨["a"]⟩) "a.b" = false := by
  decide

/-- C16, amended: descendant containment.  For every path set `S` and every path `p`,
if some path stored in `S` equals `p` or has `p` as a strict ancestor (it begins with
`p` followed by a dot), then `HasPath(p)` is true. -/
theorem C16_descendant_containment (S : List String) (p s : String) (hs : s ∈ S)
    (h : s = p ∨ strictAncestor p s = true) :
    FieldMask.HasPath (some ⟨S⟩) p = true := by
  rw [HasPath_some]
  exact ⟨s, hs, h⟩

theorem C16_descendant_containment_witness :
    "field1.subfield" ∈ ["field1.subfield", "field2"] ∧
    strictAncestor "field1" "field1.subfield" = true ∧
    FieldMask.HasPath (some ⟨["field1.subfield", "field2"]⟩) "field1" = true :=
  ⟨by decide, by decide,
    C16_descendant_containment ["field1.subfield", "field2"] "field1" "field1.subfield"
      (by decide) (Or.inr (by decide))⟩

theorem foldl_filter_all (q : String → String → Bool) (ps : List String) :
    ∀ l : List String, ps.foldl (fun cur p => cur.filter (fun e => q e p)) l =
      l.filter (fun e => ps.all (fun p => q e p)) := by
  induction ps with
  | nil => intro l; simp
  | cons p ps ih =>
    intro l
    rw [List.foldl_cons, ih, List.filter_filter]
    congr 1
    funext e
    simp [Bool.and_comm]

theorem RemovePaths_some (P ps : List String) :
    FieldMask.RemovePaths (some ⟨P⟩) ps =
      some ⟨P.filter (fun e => ps.all (fun p => !(e == p || HasPrefix e (p ++ "."))))⟩ := by
  unfold FieldMask.RemovePaths FieldMask.IsEmpty
  cases P with
  | nil => simp
  | cons a l =>
    simp only [List.length_cons, Nat.succ_ne_zero, beq_iff_eq, if_false, Option.map_some']
    rw [foldl_filter_all (fun e p => !(e == p || HasPrefix e (p ++ "."))) ps (a :: l)]

/-- C17: after `RemovePaths(ps...)` the stored paths are the original stored paths, in
their original order, that neither equal some `p` of `ps` nor begin with such a `p`
followed by a dot; a nil mask stays nil and an empty mask stays empty. -/
theorem C17_RemovePaths_keeps_exactly_the_unrelated_paths (ps : List String) :
    FieldMask.RemovePaths none ps = none ∧
    FieldMask.RemovePaths (some ⟨[]⟩) ps = some ⟨[]⟩ ∧
    (∀ P : List String, FieldMask.RemovePaths (some ⟨P⟩) ps =
      some ⟨P.filter (fun e => decide (∀ p ∈ ps, e ≠ p ∧ HasPrefix e (p ++ ".") = false))⟩) ∧
    (∀ (P : List String) (e : String),
      e ∈ FieldMask.pathsOf (FieldMask.RemovePaths (some ⟨P⟩) ps) ↔
        e ∈ P ∧ ∀ p ∈ ps, e ≠ p ∧ ¬ ∃ rest : String, e = p ++ "." ++ rest) := by
  have hfilter : ∀ P : List String, FieldMask.RemovePaths (some ⟨P⟩) ps =
      some ⟨P.filter (fun e => decide (∀ p ∈ ps, e ≠ p ∧ HasPrefix e (p ++ ".") = false))⟩ := by
    intro P
    rw [RemovePaths_some]
    congr 2
    apply List.filter_congr
    intro e _
    rw [Bool.eq_iff_iff]
    simp
  refine ⟨by simp [FieldMask.RemovePaths, FieldMask.IsEmpty], ?_, hfilter, ?_⟩
  · simp [FieldMask.RemovePaths, FieldMask.IsEmpty]
  · intro P e
    rw [hfilter P]
    simp only [FieldMask.pathsOf, List.mem_filter, decide_eq_true_eq]
    constructor
    · rintro ⟨he, h⟩
      refine ⟨he, fun p hp => ⟨(h p hp).1, fun hex => ?_⟩⟩
      have := (HasPrefix_iff e (p ++ ".")).2 hex
      rw [(h p hp).2] at this
      exact Bool.false_ne_true this
    · rintro ⟨he, h⟩
      refine ⟨he, fun p hp => ⟨(h p hp).1, ?_⟩⟩
      cases hpre : HasPrefix e (p ++ ".") with
      | false => rfl
      | true => exact absurd ((HasPrefix_iff e (p ++ ".")).1 hpre) (h p hp).2

/-! ## Normalization -/

theorem TrimSpaceNonEmpty_iff (p : String) : TrimSpaceNonEmpty p = true ↔ ¬ blank p := by
  unfold TrimSpaceNonEmpty blank
  simp

theorem mem_removeDuplicatePathsLoop (r : String) :
    ∀ (l seen : List String), r ∈ removeDuplicatePathsLoop l seen ↔ r ∈ l ∧ r ∉ seen := by
  intro l
  induction l with
  | nil => intro seen; simp [removeDuplicatePathsLoop]
  | cons x rest ih =>
    intro seen
    unfold removeDuplicatePathsLoop
    by_cases hx : x ∈ seen
    · rw [if_pos hx, ih]
      constructor
      · rintro ⟨h1, h2⟩
        exact ⟨List.mem_cons_of_mem _ h1, h2⟩
      · rintro ⟨h1, h2⟩
        rcases List.mem_cons.1 h1 with h | h
        · subst h; exact absurd hx h2
        · exact ⟨h, h2⟩
    · rw [if_neg hx, List.mem_cons, ih]
      constructor
      · rintro (h | ⟨h1, h2⟩)
        · subst h; exact ⟨List.mem_cons_self _ _, hx⟩
        · exact ⟨List.mem_cons_of_mem _ h1, fun h => h2 (List.mem_cons_of_mem _ h)⟩
      · rintro ⟨h1, h2⟩
        by_cases hrx : r = x
        · exact Or.inl hrx
        · right
          rcases List.mem_cons.1 h1 with h | h
          · exact absurd h hrx
          · refine ⟨h, fun hm => ?_⟩
            rcases List.mem_cons.1 hm with h3 | h3
            · exact hrx h3
            · exact h2 h3

theorem removeDuplicatePathsLoop_nodup :
    ∀ (l seen : List String), (removeDuplicatePathsLoop l seen).Nodup := by
  intro l
  induction l with
  | nil => intro seen; simp [removeDuplicatePathsLoop]
  | cons x rest ih =>
    intro seen
    unfold removeDuplicatePathsLoop
    by_cases hx : x ∈ seen
    · rw [if_pos hx]; exact ih seen
    · rw [if_neg hx, List.nodup_cons]
      refine ⟨fun h => ?_, ih _⟩
      exact ((mem_removeDuplicatePathsLoop x rest (x :: seen)).1 h).2 (List.mem_cons_self _ _)

theorem removeDuplicatePathsLoop_pairwise :
    ∀ (l seen : List String),
      (removeDuplicatePathsLoop l seen).Pairwise (fun a b => l.indexOf a < l.indexOf b) := by
  intro l
  induction l with
  | nil => intro seen; simp [removeDuplicatePathsLoop]
  | cons x rest ih =>
    intro seen
    unfold removeDuplicatePathsLoop
    by_cases hx : x ∈ seen
    · rw [if_pos hx]
      refine List.Pairwise.imp_of_mem ?_ (ih seen)
      intro a b ha hb hab
      have hax : x ≠ a := fun h =>
        ((mem_removeDuplicatePathsLoop a rest seen).1 ha).2 (h ▸ hx)
      have hbx : x ≠ b := fun h =>
        ((mem_removeDuplicatePathsLoop b rest seen).1 hb).2 (h ▸ hx)
      rw [List.indexOf_cons_ne _ hax, List.indexOf_cons_ne _ hbx]
      exact Nat.succ_lt_succ hab
    · rw [if_neg hx, List.pairwise_cons]
      constructor
      · intro b hb
        have hbx : x ≠ b := fun h =>
          ((mem_removeDuplicatePathsLoop b rest (x :: seen)).1 hb).2
            (h ▸ List.mem_cons_self _ _)
        rw [List.indexOf_cons_self, List.indexOf_cons_ne _ hbx]
        exact Nat.succ_pos _
      · refine List.Pairwise.imp_of_mem ?_ (ih (x :: seen))
        intro a b ha hb hab
        have hax : x ≠ a := fun h =>
          ((mem_removeDuplicatePathsLoop a rest (x :: seen)).1 ha).2
            (h ▸ List.mem_cons_self _ _)
        have hbx : x ≠ b := fun h =>
          ((mem_removeDuplicatePathsLoop b rest (x :: seen)).1 hb).2
            (h ▸ List.mem_cons_self _ _)
        rw [List.indexOf_cons_ne _ hax, List.indexOf_cons_ne _ hbx]
        exact Nat.succ_lt_succ hab

theorem indexOf_filter_lt (q : String → Bool) (a b : String) (ha : q a = true)
    (hb : q b = true) :
    ∀ P : List String, (P.filter q).indexOf a < (P.filter q).indexOf b →
      P.indexOf a < P.indexOf b := by
  intro P
  induction P with
  | nil => simp
  | cons x P ih =>
    intro h
    by_cases hq : q x = true
    · rw [List.filter_cons_of_pos hq] at h
      by_cases hax : x = a
      · subst hax
        by_cases hbx : x = b
        · subst hbx; simp at h
        · rw [List.indexOf_cons_self, List.indexOf_cons_ne _ hbx]
          exact Nat.succ_pos _
      · by_cases hbx : x = b
        · subst hbx
          rw [List.indexOf_cons_self] at h
          exact absurd h (Nat.not_lt_zero _)
        · rw [List.indexOf_cons_ne _ hax, List.indexOf_cons_ne _ hbx] at h
          rw [List.indexOf_cons_ne _ hax, List.indexOf_cons_ne _ hbx]
          exact Nat.succ_lt_succ (ih (Nat.lt_of_succ_lt_succ h))
    · rw [List.filter_cons_of_neg hq] at h
      have hax : x ≠ a := fun e => hq (e ▸ ha)
      have hbx : x ≠ b := fun e => hq (e ▸ hb)
      rw [List.indexOf_cons_ne _ hax, List.indexOf_cons_ne _ hbx]
      exact Nat.succ_lt_succ (ih h)

/-- What `removeDuplicatePaths (removeEmptyPaths P)` is, in terms of `P`. -/
theorem normalized_spec (P : List String) :
    NormalizedOf P (removeDuplicatePaths (removeEmptyPaths P)) := by
  unfold removeDuplicatePaths removeEmptyPaths
  refine ⟨?_, removeDuplicatePathsLoop_nodup _ _, ?_, ?_⟩
  · intro r hr
    have h := ((mem_removeDuplicatePathsLoop r _ _).1 hr).1
    rw [List.mem_filter] at h
    exact ⟨h.1, (TrimSpaceNonEmpty_iff r).1 h.2⟩
  · intro p hp hb
    rw [mem_removeDuplicatePathsLoop]
    exact ⟨List.mem_filter.2 ⟨hp, (TrimSpaceNonEmpty_iff p).2 hb⟩, List.not_mem_nil _⟩
  · refine List.Pairwise.imp_of_mem ?_ (removeDuplicatePathsLoop_pairwise _ [])
    intro a b ha hb hab
    have h1 := ((mem_removeDuplicatePathsLoop a _ _).1 ha).1
    have h2 := ((mem_removeDuplicatePathsLoop b _ _).1 hb).1
    rw [List.mem_filter] at h1 h2
    exact indexOf_filter_lt TrimSpaceNonEmpty a b h1.2 h2.2 P hab

/-- C18: after `Normalize` on a mask that holds at least one path, the stored paths are
paths of the original list, none of them empty or white space only, without duplicate,
every non-blank original path is among them, and they stand in the order of their first
occurrence in the original list; `["a","a"]` and `["a",""," "]` both become `["a"]`. -/
theorem C18_Normalize_drops_blanks_and_duplicates (m : FieldMask) (hm : m.Paths ≠ []) :
    (∃ R, FieldMask.Normalize (some m) = some ⟨R⟩ ∧ NormalizedOf m.Paths R) ∧
    FieldMask.Normalize (some ⟨["a", "a"]⟩) = some ⟨["a"]⟩ ∧
    FieldMask.Normalize (some ⟨["a", "", " "]⟩) = some ⟨["a"]⟩ := by
  obtain ⟨P⟩ := m
  refine ⟨⟨removeDuplicatePaths (removeEmptyPaths P), ?_, normalized_spec _⟩,
    by decide, by decide⟩
  unfold FieldMask.Normalize FieldMask.IsEmpty
  cases P with
  | nil => exact absurd rfl hm
  | cons a l => simp

theorem C18_Normalize_drops_blanks_and_duplicates_witness :
    (∃ R, FieldMask.Normalize (some ⟨["b", " ", "a", "b", "", "c", "a"]⟩) = some ⟨R⟩ ∧
      NormalizedOf ["b", " ", "a", "b", "", "c", "a"] R) ∧
    FieldMask.Normalize (some ⟨["b", " ", "a", "b", "", "c", "a"]⟩) = some ⟨["b", "a", "c"]⟩ :=
  ⟨(C18_Normalize_drops_blanks_and_duplicates ⟨["b", " ", "a", "b", "", "c", "a"]⟩
    (by decide)).1, by decide⟩

/-- C19: `New` without arguments returns nil; with at least one argument it returns a
mask that is not nil, the one `Normalize` makes of the arguments: its stored paths are
the arguments without blank entries and without duplicates, in the order of their first
occurrence.  So `New("field1", "field1", "field2")` holds `field1, field2`, and
`New("field1", "")` holds `field1`. -/
theorem C19_New_is_nil_or_normalized (ps : List String) :
    New [] = none ∧
    (ps ≠ [] → ∃ R, New ps = some ⟨R⟩ ∧ NormalizedOf ps R ∧
      New ps = FieldMask.Normalize (some ⟨ps⟩)) ∧
    New ["field1", "field1", "field2"] = some ⟨["field1", "field2"]⟩ ∧
    New ["field1", ""] = some ⟨["field1"]⟩ := by
  refine ⟨rfl, ?_, by decide, by decide⟩
  intro hps
  have hnew : New ps = FieldMask.Normalize (some ⟨ps⟩) := by
    unfold New
    cases ps with
    | nil => exact absurd rfl hps
    | cons a l => simp
  refine ⟨removeDuplicatePaths (removeEmptyPaths ps), ?_, normalized_spec _, hnew⟩
  rw [hnew]
  unfold FieldMask.Normalize FieldMask.IsEmpty
  cases ps with
  | nil => exact absurd rfl hps
  | cons a l => simp

theorem C19_New_is_nil_or_normalized_witness :
    ∃ R, New ["x", "", "y", "x"] = some ⟨R⟩ ∧ NormalizedOf ["x", "", "y", "x"] R ∧
      New ["x", "", "y", "x"] = FieldMask.Normalize (some ⟨["x", "", "y", "x"]⟩) :=
  (C19_New_is_nil_or_normalized ["x", "", "y", "x"]).2.1 (by decide)

/-! ## Serialization keys -/

theorem cutAt_takeWhile (l : List Char) :
    (match cutAt ',' l with
      | some (a, _) => a
      | none => l) = l.takeWhile (fun c => c ≠ ',') := by
  induction l with
  | nil => rfl
  | cons c cs ih =>
    unfold cutAt
    by_cases hc : c = ','
    · simp [hc]
    · rw [if_neg hc, List.takeWhile_cons_of_pos (by simpa using hc), ← ih]
      cases cutAt ',' cs with
      | none => rfl
      | some ab => rfl

theorem parseJSONTag_takeWhile (tag : String) :
    parseJSONTag tag = String.mk (tag.data.takeWhile (fun c => c ≠ ',')) := by
  unfold parseJSONTag jsonTagSeparator
  rw [← cutAt_takeWhile]
  cases cutAt ',' tag.data with
  | none => rfl
  | some ab => rfl

theorem tagNameOf_eq_serializationKey (f : StructField) : tagNameOf f = serializationKey f := by
  unfold tagNameOf serializationKey
  rw [parseJSONTag_takeWhile]
  by_cases h : String.mk (f.jsonTag.data.takeWhile (fun c => c ≠ ',')) = ""
  · rw [if_pos h, if_neg (not_not.2 h)]
  · rw [if_neg h, if_pos h]

/-- The loop of `apply` resets the field of an entry whose key is neither kept nor the
head of a nested path. -/
theorem applyFields_resets (k : String) (fd0 : fieldDescriptor) (keep : List String)
    (nested : List (String × List String)) (hk : k ∉ keep)
    (hn : mapLookup nested k = none) :
    ∀ es : List (String × fieldDescriptor),
      (es.map (fun e => e.2.index)).Nodup → (k, fd0) ∈ es →
      ∀ (v : Value) (V : List Nat) (r : applyResult),
        applyFields es keep nested v V = some r →
        ∃ fv, v.Field fd0.index = some fv ∧
          (fv.CanSet = true → r.data.field fd0.index = some (getZero fv.typ)) := by
  intro es
  induction es with
  | nil => intro _ hmem; cases hmem
  | cons e rest ih =>
    obtain ⟨tag, ⟨t, idx, child⟩⟩ := e
    intro hidx hmem v V r h
    rw [List.map_cons, List.nodup_cons] at hidx
    obtain ⟨fv1, hfv1, hcases⟩ := applyFields_cons_inv h
    rcases List.mem_cons.1 hmem with hhead | htail
    · cases hhead
      refine ⟨fv1, hfv1, fun hset => ?_⟩
      have hnot : ∀ e ∈ rest, e.2.index ≠ idx := fun e he hc =>
        hidx.1 (List.mem_map.2 ⟨e, he, hc⟩)
      rcases hcases with ⟨hns, _⟩ | ⟨_, c, sub, r1, _, hsub, _⟩ | ⟨_, _, hkeep, _⟩ |
        ⟨_, _, _, hrest⟩
      · rw [hset] at hns; cases hns
      · rw [hn] at hsub; cases hsub
      · exact absurd hkeep hk
      · have hfr := applyFields_frame rest keep nested _ V r hrest idx hnot
        show r.data.field idx = _
        rw [hfr, Value.setField_data]
        exact Data.field_setField_same _ (Value.Field_data hfv1)
    · have hne : idx ≠ fd0.index := fun hc =>
        hidx.1 (List.mem_map.2 ⟨(k, fd0), htail, hc.symm⟩)
      rcases hcases with ⟨_, hrest⟩ | ⟨_, c, sub, r1, _, _, _, _, hrest⟩ | ⟨_, _, _, hrest⟩ |
        ⟨_, _, _, hrest⟩
      · exact ih hidx.2 htail v V r hrest
      · obtain ⟨fv, hfv, hres⟩ := ih hidx.2 htail _ _ r hrest
        rw [Value.Field_setField_ne v _ hne] at hfv
        exact ⟨fv, hfv, hres⟩
      · exact ih hidx.2 htail v V r hrest
      · obtain ⟨fv, hfv, hres⟩ := ih hidx.2 htail _ _ r hrest
        rw [Value.Field_setField_ne v _ hne] at hfv
        exact ⟨fv, hfv, hres⟩

theorem suffixesOf_eq_nil {k : String} {S : List String}
    (h : ∀ s ∈ S, HasPrefix s (k ++ ".") = false) : suffixesOf k S = [] := by
  unfold suffixesOf
  rw [List.filterMap_eq_nil_iff]
  intro s hs
  cases hcut : cutAt '.' s.data with
  | none => rfl
  | some ab =>
    obtain ⟨a, b⟩ := ab
    simp only
    by_cases hak : String.mk a = k
    · exfalso
      have hpre : HasPrefix s (k ++ ".") = true := by
        rw [HasPrefix_iff]
        refine ⟨String.mk b, String.ext ?_⟩
        have := (cutAt_eq_some.1 hcut).1
        rw [← hak, this]
        simp
      rw [h s hs] at hpre
      cases hpre
    · rw [if_neg hak]

/-- C20: the keys of the descriptor built for a record type are exactly the
serialization keys of its fields that are exported and not tagged `json:"-"`, where the
key of a field is the part of its json tag before the first comma when that part is not
empty and the declared name otherwise.  Hence `Apply` resets a maskable field when no
path of the mask is its key or begins with its key followed by a dot, whatever other
spelling of the field the mask holds. -/
theorem C20_descriptor_keys_are_serialization_keys (env : List GoType) (fuel : Nat)
    (name : String) (fields : List StructField) (d : typeDescriptor) (vis : List GoType)
    (hb : buildDescriptor env fuel (.Struct name fields) [] = .ok (d, vis)) :
    (∀ k, (∃ fd, (k, fd) ∈ d.fields) ↔
      ∃ f ∈ fields, f.IsExported = true ∧ f.jsonTag ≠ "-" ∧ serializationKey f = k) ∧
    (∀ (S : List String) (addr : Nat) (data : Data) (r : applyResult) (i : Nat)
      (f : StructField),
      d.apply ⟨.Struct name fields, data, some addr, false⟩ S [] = some r →
      maskable fields i f →
      (∀ s ∈ S, s ≠ serializationKey f ∧ HasPrefix s (serializationKey f ++ ".") = false) →
      r.data.field i = some (Zero f.Typ)) := by
  have hd := (buildDescriptor_ok env fuel _ _ d vis hb).1
  obtain ⟨es⟩ := d
  constructor
  · intro k
    cases hd with
    | mk _ _ _ hkeys hidx hfield hall hchild =>
      constructor
      · rintro ⟨fd, hmem⟩
        obtain ⟨f, hm, htag, _, _⟩ := hfield k fd hmem
        refine ⟨f, List.get?_mem hm.1, hm.2.1.1, hm.2.1.2, ?_⟩
        rw [← tagNameOf_eq_serializationKey, htag]
      · rintro ⟨f, hf, hexp, hign, hkey⟩
        obtain ⟨j, hj⟩ := List.get?_of_mem hf
        obtain ⟨fd, hfd⟩ := hall j f hj ⟨hexp, hign⟩
        rw [tagNameOf_eq_serializationKey, hkey] at hfd
        exact ⟨fd, hfd⟩
  · intro S addr data r i f happ hm hS
    obtain ⟨fd, hmem, hfi, _⟩ := hd.entry_of_maskable hm
    have hidx : (es.map (fun e => e.2.index)).Nodup := by
      cases hd with
      | mk _ _ _ hkeys hidx hfield hall hchild => exact hidx
    rw [@apply_mk_enter _ _ _ _ addr rfl (List.not_mem_nil _)] at happ
    rw [tagNameOf_eq_serializationKey] at hmem
    have hk : serializationKey f ∉ (buildPathMaps S).1 := by
      rw [mem_keepMap_iff]
      exact fun h => (hS _ h.1).1 rfl
    have hn : mapLookup (buildPathMaps S).2 (serializationKey f) = none := by
      rw [nestedPaths_lookup, if_pos (suffixesOf_eq_nil (fun s hs => (hS s hs).2))]
    obtain ⟨fv, hfv, hres⟩ :=
      applyFields_resets _ fd _ _ hk hn es hidx hmem _ _ r happ
    rw [hfi] at hfv hres
    obtain ⟨n1, fs1, ds, g, x, ht, _, hg, _, hfveq⟩ := Value.Field_some hfv
    cases ht
    rw [hm.1] at hg
    cases hg
    subst hfveq
    have hexp : f.IsExported = true := hm.2.1.1
    exact hres (by simp [Value.CanSet, hexp])

theorem C20_descriptor_keys_are_serialization_keys_witness :
    buildDescriptor [] 1 (.Struct "MixedTagsStruct" exMixedFields) [] =
      .ok (exMixedDesc, [.Struct "MixedTagsStruct" exMixedFields]) ∧
    ((∀ k, (∃ fd, (k, fd) ∈ exMixedDesc.fields) ↔
      ∃ f ∈ exMixedFields, f.IsExported = true ∧ f.jsonTag ≠ "-" ∧ serializationKey f = k) ∧
    (∀ (S : List String) (addr : Nat) (data : Data) (r : applyResult) (i : Nat)
      (f : StructField),
      exMixedDesc.apply ⟨.Struct "MixedTagsStruct" exMixedFields, data, some addr, false⟩ S []
        = some r →
      maskable exMixedFields i f →
      (∀ s ∈ S, s ≠ serializationKey f ∧ HasPrefix s (serializationKey f ++ ".") = false) →
      r.data.field i = some (Zero f.Typ))) ∧
    (exMixedDesc.apply ⟨.Struct "MixedTagsStruct" exMixedFields, exMixedData, some 4096, false⟩
      ["WithTag", "AnotherTag", "withouttag"] []).map (fun r => r.data) =
      some (.struct [.string "", .string "", .string "", .int 0]) :=
  ⟨rfl, C20_descriptor_keys_are_serialization_keys [] 1 "MixedTagsStruct" exMixedFields
    exMixedDesc [.Struct "MixedTagsStruct" exMixedFields] rfl, rfl⟩

/-! ## Fields without descriptor entry -/

/-- The loop of `apply` keeps whatever is read from the field of key `k`, when every
round that handles that field does. -/
theorem applyFields_field_read {α : Type} (φ : Data → Option α) (k : String) (t0 : String)
    (i0 : Nat) (child0 : Option typeDescriptor) (keep : List String)
    (nested : List (String × List String))
    (hdesc : ∀ c sub, child0 = some c → mapLookup nested k = some sub →
      ∀ (fv : Value) (V : List Nat) (r1 : applyResult), c.apply fv sub V = some r1 →
        φ r1.data = φ fv.data)
    (hleaf : (child0 = none ∨ mapLookup nested k = none) → k ∈ keep ∨ ∀ y, φ y = none) :
    ∀ (es : List (String × fieldDescriptor)),
      (∀ e ∈ es, e.1 = k → e.2 = .mk t0 i0 child0) →
      (∀ e ∈ es, e.1 ≠ k → e.2.index ≠ i0) →
      ∀ (v : Value) (V : List Nat) (r : applyResult),
        applyFields es keep nested v V = some r →
        (r.data.field i0).bind φ = (v.data.field i0).bind φ := by
  intro es
  induction es with
  | nil =>
    intro _ _ v V r h
    rw [applyFields_nil] at h
    cases h
    rfl
  | cons e rest ih =>
    intro hkey hidx v V r h
    obtain ⟨tag, fd⟩ := e
    obtain ⟨t, index, child⟩ := fd
    have ihr := ih (fun e he => hkey e (List.mem_cons_of_mem _ he))
      (fun e he => hidx e (List.mem_cons_of_mem _ he))
    clear ih
    obtain ⟨fv, hF, hcase⟩ := applyFields_cons_inv h
    by_cases htag : tag = k
    · have hfd := hkey _ (List.mem_cons_self _ _) htag
      simp only [fieldDescriptor.mk.injEq] at hfd
      obtain ⟨_, rfl, rfl⟩ := hfd
      subst htag
      have hvf := Value.Field_data hF
      rcases hcase with ⟨_, h1⟩ | ⟨_, c, sub, r1, hc, hl, ha, _, h1⟩ |
          ⟨_, _, _, h1⟩ | ⟨_, hl, hk, h1⟩
      · exact ihr _ _ _ h1
      · rw [ihr _ _ _ h1, Value.setField_data, Data.field_setField_same _ hvf, hvf]
        simp only [Option.some_bind]
        exact hdesc c sub hc hl _ _ _ ha
      · exact ihr _ _ _ h1
      · rw [ihr _ _ _ h1, Value.setField_data, Data.field_setField_same _ hvf, hvf]
        rcases hleaf hl with hk2 | hnone
        · exact absurd hk2 hk
        · simp only [Option.some_bind, hnone]
    · have hne : index ≠ i0 := hidx _ (List.mem_cons_self _ _) htag
      rcases hcase with ⟨_, h1⟩ | ⟨_, c, sub, r1, _, _, _, _, h1⟩ |
          ⟨_, _, _, h1⟩ | ⟨_, _, _, h1⟩
      · exact ihr _ _ _ h1
      · rw [ihr _ _ _ h1, Value.setField_data, Data.field_setField_ne _ _ hne]
      · exact ihr _ _ _ h1
      · rw [ihr _ _ _ h1, Value.setField_data, Data.field_setField_ne _ _ hne]

theorem descAt_none (q : List String) : descAt none q = none := by
  cases q <;> rfl

/-- A path that begins with the dotted keys `k :: ks` and a separator is `k`, a
separator, and a rest that begins with the dotted keys `ks` and a separator. -/
theorem HasPrefix_dotted_cons {s k : String} {ks : List String}
    (h : HasPrefix s (dotted (k :: ks) ++ pathSeparator) = true) :
    ∃ rest : String, s = k ++ pathSeparator ++ rest ∧
      (ks = [] ∨ HasPrefix rest (dotted ks ++ pathSeparator) = true) := by
  cases ks with
  | nil =>
    rw [dotted_singleton, HasPrefix_iff] at h
    obtain ⟨rest, hrest⟩ := h
    exact ⟨rest, hrest, Or.inl rfl⟩
  | cons k2 ks1 =>
    rw [dotted_cons_cons, HasPrefix_iff] at h
    obtain ⟨rest, hrest⟩ := h
    refine ⟨dotted (k2 :: ks1) ++ pathSeparator ++ rest, ?_, Or.inr ?_⟩
    · rw [hrest]
      simp only [String.append_assoc]
    · rw [HasPrefix_iff]
      exact ⟨rest, rfl⟩

/-- The recursive `apply` leaves alone every field without descriptor entry of the
record it is called on and of every nested record below which a path of the list
continues. -/
theorem apply_frame_below : ∀ (q : List String) (d : typeDescriptor), WFDesc d →
    ∀ (v : Value) (S : List String) (V : List Nat) (r : applyResult),
      d.apply v S V = some r → (∀ k ∈ q, bare k) →
      (q = [] ∨ ∃ s ∈ S, HasPrefix s (dotted q ++ pathSeparator) = true) →
      ∀ dq, descAt (some d) q = some dq → ∀ i, (∀ e ∈ dq.fields, e.2.index ≠ i) →
        (fieldAt (some d) r.data q).bind (fun y => y.field i) =
          (fieldAt (some d) v.data q).bind (fun y => y.field i) := by
  intro q
  induction q with
  | nil =>
    intro d _ v S V r h _ _ dq hdq i hi
    rw [descAt_nil] at hdq
    cases hdq
    obtain ⟨fields⟩ := d
    show r.data.field i = v.data.field i
    cases ha : v.addr with
    | none => rw [apply_mk_none ha] at h; cases h; rfl
    | some addr =>
      by_cases hv : addr ∈ V
      · rw [apply_mk_visited ha hv] at h; cases h; rfl
      · rw [apply_mk_enter ha hv] at h
        exact applyFields_frame fields _ _ _ _ _ h i hi
  | cons k ks ih =>
    intro d hwf v S V r h hbare hbelow dq hdq i hi
    obtain ⟨fields⟩ := d
    cases hwf with
    | mk _ hkeys hidx hchild =>
      cases ha : v.addr with
      | none => rw [apply_mk_none ha] at h; cases h; rfl
      | some addr =>
        by_cases hv : addr ∈ V
        · rw [apply_mk_visited ha hv] at h; cases h; rfl
        · rw [apply_mk_enter ha hv] at h
          cases hl : mapLookup (typeDescriptor.mk fields).fields k with
          | none => rw [fieldAt_cons_none _ _ hl, fieldAt_cons_none _ _ hl]
          | some fd =>
            rw [fieldAt_cons_some _ _ hl, fieldAt_cons_some _ _ hl]
            rw [descAt_cons_some (d := .mk fields) _ hl] at hdq
            simp only [typeDescriptor.fields] at hl
            obtain ⟨t0, i0, child0⟩ := fd
            simp only [fieldDescriptor.child] at hdq
            have hmem := mapLookup_mem hl
            have hkb : bare k := hbare k (List.mem_cons_self _ _)
            obtain ⟨s, hs, hpre⟩ : ∃ s ∈ S,
                HasPrefix s (dotted (k :: ks) ++ pathSeparator) = true := by
              rcases hbelow with hnil | hex
              · cases hnil
              · exact hex
            obtain ⟨rest, hrest, hks⟩ := HasPrefix_dotted_cons hpre
            subst hrest
            have hin : rest ∈ suffixesOf k S := (mem_suffixesOf hkb S rest).mpr hs
            rw [Option.bind_assoc, Option.bind_assoc]
            refine applyFields_field_read
              (fun y => (fieldAt child0 y ks).bind (fun z => z.field i)) k t0 i0 child0
              (buildPathMaps S).1 (buildPathMaps S).2 ?_ ?_ fields ?_ ?_ _ _ _ h
            · intro c sub hc hsub fv V1 r1 hap
              subst hc
              obtain ⟨rfl, _⟩ := suffixesOf_ne_nil_of_lookup hsub
              refine ih c (hchild k t0 i0 c hmem) fv _ V1 r1 hap
                (fun k1 hk1 => hbare k1 (List.mem_cons_of_mem _ hk1)) ?_ dq hdq i hi
              rcases hks with hks | hks
              · exact Or.inl hks
              · exact Or.inr ⟨rest, hin, hks⟩
            · intro hleaf
              exfalso
              rcases hleaf with hc | hn
              · rw [hc, descAt_none] at hdq
                cases hdq
              · rw [nestedPaths_lookup, if_neg (List.ne_nil_of_mem hin)] at hn
                cases hn
            · intro e he hek
              have := mem_unique_of_keys_nodup hkeys he hmem hek
              rw [this]
            · intro e he hek hidxeq
              have := List.inj_on_of_nodup_map hidx he hmem hidxeq
              rw [this] at hek
              exact hek rfl

/-- The descriptor reached by the keys that lead to a nested record describes the type
of that record. -/
theorem Describes_descAt {env : List GoType} : ∀ (q : List String) (d : typeDescriptor)
    (t : GoType), Describes env d t → ∀ (n : String) (fs : List StructField),
      typeAt (some d) t q = some (.Struct n fs) →
      ∃ dq, descAt (some d) q = some dq ∧ Describes env dq (.Struct n fs) := by
  intro q
  induction q with
  | nil =>
    intro d t hd n fs hty
    simp only [typeAt, Option.some.injEq] at hty
    subst hty
    exact ⟨d, rfl, hd⟩
  | cons k ks ih =>
    intro d t hd n fs hty
    cases hd with
    | mk es name fields hkeys hidx hfield hall hchild =>
      unfold typeAt at hty
      cases hl : mapLookup (typeDescriptor.mk es).fields k with
      | none => rw [hl] at hty; cases hty
      | some fd =>
        rw [hl] at hty
        simp only at hty
        rw [descAt_cons_some (d := .mk es) _ hl]
        simp only [typeDescriptor.fields] at hl
        have hmem := mapLookup_mem hl
        obtain ⟨t0, i0, child0⟩ := fd
        simp only [fieldDescriptor.index, fieldDescriptor.child] at hty ⊢
        cases hf : fields.get? i0 with
        | none => rw [hf] at hty; cases hty
        | some f =>
          rw [hf] at hty
          simp only at hty
          obtain ⟨f1, hm1, _, _, hiff⟩ := hfield k _ hmem
          have hf1 : f1 = f := by
            have := hm1.1
            simp only [fieldDescriptor.index] at this
            rw [hf] at this
            exact (Option.some.inj this).symm
          subst hf1
          simp only [fieldDescriptor.child] at hiff
          cases child0 with
          | none =>
            exfalso
            cases ks with
            | nil =>
              simp only [typeAt, Option.some.injEq] at hty
              have := hiff.1 rfl
              rw [hty] at this
              simp [nestedStruct] at this
            | cons k2 ks1 => simp [typeAt] at hty
          | some c =>
            cases hT : f1.Typ with
            | basic b =>
              rw [hT] at hty
              cases ks <;> simp [typeAt] at hty
            | Ptr e =>
              rw [hT] at hty
              cases ks <;> simp [typeAt] at hty
            | Struct n1 fs1 =>
              rw [hT] at hty
              have hdc := hchild k t0 i0 c hmem f1 (.Struct n1 fs1) hf
                (by rw [hT]; rfl)
              exact ih c _ hdc n fs hty

/-! ## `Apply` on nil references, on paths below a leaf, and on hidden fields -/

/-- C11, the code at the failing input: `Holder` is the record of the tests with the
string field first and the optional reference to `NestedStruct` second.  On
`&Holder{Field: "value", Nested: nil}` with the mask `["nested.subfield"]`, whose only
path is a sub-path of the nil field, `Apply` does not succeed: it panics, because the
recursive `apply` asks the pointer value for a field.  On the record of the tests,
where the reference is the first field and shares the address of the record, the same
call succeeds with `{Nested: nil, Field: ""}`. -/
theorem C11_nil_reference_after_first_field_panics (n : Nat) :
    FieldMask.Apply exNestedEnv (n + 2) [] (some ⟨["nested.subfield"]⟩)
        (.pointer exHolder (some (4096, .struct [.string "value", .nil]))) = .panic ∧
    FieldMask.Apply exNestedEnv (n + 2) [] (some ⟨["nested.subfield"]⟩)
        (.pointer exPointerNested (some (4096, .struct [.nil, .string "value"]))) =
      .returned none (.pointer exPointerNested (some (4096, .struct [.nil, .string ""])))
        [(exPointerNested, exPointerNestedDesc)] := by
  constructor <;> rfl

/-- C12, the code at the failing input: `Swapped` is `ComplexStruct` of the tests with
the string field first and the nested record second.  With the mask
`["field1.subfield.deeper.even_deeper"]`, whose path continues below the leaf
`field1.subfield`, `Apply` succeeds on `{field2:"test", field1:{subfield:"value"}}` and
leaves `field1.subfield` empty, not unchanged; likewise the mask `["field1.sub"]` empties
the leaf `field1` of `TestStruct`.  On `ComplexStruct` itself, where the nested record is
the first field and shares the address of the record, `field1.subfield` keeps `"value"`. -/
theorem C12_leaf_below_which_a_path_continues_is_reset (n : Nat) :
    FieldMask.Apply [] (n + 2) [] (some ⟨["field1.subfield.deeper.even_deeper"]⟩)
        (.pointer exSwapped (some (4096, .struct [.string "test", .struct [.string "value"]])))
      = .returned none
        (.pointer exSwapped (some (4096, .struct [.string "", .struct [.string ""]])))
        [(exSwapped, exSwappedDesc)] ∧
    descAt (some exSwappedDesc) ["field1", "subfield"] = none ∧
    fieldAt (some exSwappedDesc) (.struct [.string "test", .struct [.string "value"]])
      ["field1", "subfield"] = some (.string "value") ∧
    fieldAt (some exSwappedDesc) (.struct [.string "", .struct [.string ""]])
      ["field1", "subfield"] = some (.string "") ∧
    (FieldMask.Apply [] (n + 2) [] (some ⟨["field1.sub"]⟩)
        (.pointer (.Struct "TestStruct" exTestStructFields)
          (some (4096, .struct [.string "x", .string "y"])))).contents =
      some (.struct [.string "", .string ""]) ∧
    FieldMask.Apply [] (n + 2) [] (some ⟨["field1.subfield.deeper.even_deeper"]⟩)
        (.pointer exComplex (some (4096, .struct [.struct [.string "value"], .string "test"])))
      = .returned none
        (.pointer exComplex (some (4096, .struct [.struct [.string "value"], .string ""])))
        [(exComplex, exComplexDesc)] := by
  refine ⟨rfl, rfl, rfl, rfl, rfl, rfl⟩

/-- C13, the code at the failing input: on `&Holder{Field: "value", Nested: &NestedStruct{}}`
with the mask `["nested.subfield"]` the call of `Apply` panics.  The field `nested` of the
target is a value of kind pointer, not of kind record; the descriptor of `NestedStruct`
is applied to it, and its read of field 0 of that value is the panic. -/
theorem C13_reference_to_nested_record_panics (n : Nat) :
    FieldMask.Apply exNestedEnv (n + 2) [] (some ⟨["nested.subfield"]⟩)
        (.pointer exHolder (some (4096, .struct [.string "value", .pointer 8192]))) = .panic ∧
    (Value.mk exHolder (.struct [.string "value", .pointer 8192]) (some 4096) false).Field 1 =
      some ⟨.Ptr 0, .pointer 8192, some 4112, false⟩ ∧
    (Value.mk (.Ptr 0) (.pointer 8192) (some 4112) false).Kind = Kind.Ptr ∧
    (Value.mk (.Ptr 0) (.pointer 8192) (some 4112) false).Field 0 = none ∧
    exNestedDesc.apply ⟨.Ptr 0, .pointer 8192, some 4112, false⟩ ["subfield"] [4096] = none := by
  refine ⟨rfl, rfl, rfl, rfl, rfl⟩

/-- C14, counterexample: in `{name:"n", inner:{public:"a", private:"b"}}` the field
`private` of the nested record is not exported.  With the mask `["name"]` the call of
`Apply` succeeds and resets `inner` as a whole, so `inner.private` holds `""` after the
call and `"b"` before. -/
theorem C14_counterexample :
    FieldMask.Apply [] 2 [] (some ⟨["name"]⟩) (.pointer exWrapper (some (4096, exWrapperData))) =
      .returned none
        (.pointer exWrapper (some (4096, .struct [.string "n", .struct [.string "", .string ""]])))
        [(exWrapper, exWrapperDesc)] ∧
    typeAt (some exWrapperDesc) exWrapper ["inner"] = some exPrivate ∧
    exPrivateFields.get? 1 = some ⟨"private", "fieldmask_test", "", .basic .String, 16⟩ ∧
    StructFieldOf.IsExported
      (⟨"private", "fieldmask_test", "", .basic .String, 16⟩ : StructField) = false ∧
    (fieldAt (some exWrapperDesc) exWrapperData ["inner"]).bind (fun y => y.field 1) =
      some (.string "b") ∧
    (fieldAt (some exWrapperDesc) (.struct [.string "n", .struct [.string "", .string ""]])
      ["inner"]).bind (fun y => y.field 1) = some (.string "") := by
  refine ⟨rfl, rfl, rfl, rfl, rfl, rfl⟩

/-- C14, amended: for every record value and path set on which `Apply` succeeds, every
field that is not exported or is tagged `json:"-"` has the same value after `Apply` as
before when it is a field of the target record itself, of a nested record below which a
path of the set continues, or of a nested record kept as a whole (the path of the record
or of one of its ancestors is in the set and names a leaf or has no path of the set
strictly below it); the keys on the way to the record contain no separator.  A nested
record that is reset is reset with all its fields. -/
theorem C14_hidden_fields_of_entered_records_unchanged (env : List GoType) (fuel : Nat)
    (cache cache1 : List (GoType × typeDescriptor)) (hc : CacheSound env cache)
    (f : Option FieldMask) (name : String) (fields : List StructField) (addr : Nat)
    (data data1 : Data) (td : typeDescriptor)
    (hg : getTypeDescriptor env fuel cache (.Struct name fields) = .ok (td, cache1))
    (h : FieldMask.Apply env fuel cache f (.pointer (.Struct name fields) (some (addr, data))) =
      .returned none (.pointer (.Struct name fields) (some (addr, data1))) cache1)
    (q : List String) (hq : ∀ k ∈ q, bare k)
    (hin : q = [] ∨
      (∃ s ∈ FieldMask.pathsOf f, HasPrefix s (dotted q ++ pathSeparator) = true) ∨
      (∃ p : List String, p ≠ [] ∧ p <+: q ∧ dotted p ∈ FieldMask.pathsOf f ∧
        (descAt (some td) p = none ∨
          ∀ s ∈ FieldMask.pathsOf f, HasPrefix s (dotted p ++ pathSeparator) = false)))
    (n : String) (fs : List StructField)
    (hty : typeAt (some td) (.Struct name fields) q = some (.Struct n fs))
    (i : Nat) (g : StructField) (hgi : fs.get? i = some g)
    (hhidden : g.IsExported = false ∨ g.jsonTag = "-") :
    (fieldAt (some td) data1 q).bind (fun y => y.field i) =
      (fieldAt (some td) data q).bind (fun y => y.field i) := by
  by_cases he : FieldMask.IsEmpty f = true
  · unfold FieldMask.Apply at h
    rw [if_pos he] at h
    simp only [ApplyOutcome.returned.injEq, Iface.pointer.injEq, Option.some.injEq,
      Prod.mk.injEq, true_and] at h
    rw [← h.1]
  · have he1 : FieldMask.IsEmpty f = false := by
      cases hx : FieldMask.IsEmpty f with
      | true => exact absurd hx he
      | false => rfl
    rw [Apply_pointer_struct env fuel cache f he1, hg] at h
    simp only at h
    cases ha : td.apply ⟨.Struct name fields, data, some addr, false⟩
        (FieldMask.pathsOf f) [] with
    | none => rw [ha] at h; cases h
    | some r =>
      rw [ha] at h
      simp only [ApplyOutcome.returned.injEq] at h
      obtain ⟨_, hi, _⟩ := h
      cases hi
      have hd := (getTypeDescriptor_ok hc hg).1
      have hbelow : ∀ hcase : q = [] ∨
          ∃ s ∈ FieldMask.pathsOf f, HasPrefix s (dotted q ++ pathSeparator) = true,
          (fieldAt (some td) r.data q).bind (fun y => y.field i) =
            (fieldAt (some td) data q).bind (fun y => y.field i) := by
        intro hcase
        obtain ⟨dq, hdq, hdesc⟩ := Describes_descAt q td _ hd n fs hty
        refine apply_frame_below q td hd.wf _ _ _ _ ha hq hcase dq hdq i ?_
        intro e he2 hidx
        cases hdesc with
        | mk es _ _ hkeys hidxs hfield hall hchild =>
          obtain ⟨g1, hm, _⟩ := hfield e.1 e.2 he2
          have h1 : fs.get? e.2.index = some g1 := hm.1
          rw [hidx, hgi] at h1
          have hg1 : g = g1 := Option.some.inj h1
          subst hg1
          have hret : retained g := hm.2.1
          rcases hhidden with hx | hx
          · rw [hret.1] at hx; cases hx
          · exact hret.2 hx
      rcases hin with hnil | hex | ⟨p, hp, hpq, hkept, hno⟩
      · exact hbelow (Or.inl hnil)
      · exact hbelow (Or.inr hex)
      · rw [apply_keeps q td hd.wf _ _ _ _ ha hq p hp hpq hkept hno]

/-- The theorem `C14_hidden_fields_of_entered_records_unchanged` at a concrete input:
with the mask `["inner.public"]` the field `inner.private` still holds `"b"`. -/
theorem C14_hidden_fields_of_entered_records_unchanged_witness :
    (CacheSound [] [] ∧
      getTypeDescriptor [] 2 [] (.Struct "Wrapper" exWrapperFields) =
        .ok (exWrapperDesc, [(exWrapper, exWrapperDesc)]) ∧
      FieldMask.Apply [] 2 [] (some ⟨["inner.public"]⟩)
          (.pointer (.Struct "Wrapper" exWrapperFields) (some (4096, exWrapperData))) =
        .returned none
          (.pointer (.Struct "Wrapper" exWrapperFields)
            (some (4096, .struct [.string "", .struct [.string "a", .string "b"]])))
          [(exWrapper, exWrapperDesc)] ∧
      (∀ k ∈ ["inner"], bare k) ∧
      (∃ s ∈ FieldMask.pathsOf (some ⟨["inner.public"]⟩),
        HasPrefix s (dotted ["inner"] ++ pathSeparator) = true) ∧
      typeAt (some exWrapperDesc) (.Struct "Wrapper" exWrapperFields) ["inner"] =
        some (.Struct "PrivateFieldStruct" exPrivateFields) ∧
      exPrivateFields.get? 1 = some ⟨"private", "fieldmask_test", "", .basic .String, 16⟩ ∧
      StructFieldOf.IsExported
        (⟨"private", "fieldmask_test", "", .basic .String, 16⟩ : StructField) = false) ∧
    (fieldAt (some exWrapperDesc) (.struct [.string "", .struct [.string "a", .string "b"]])
        ["inner"]).bind (fun y => y.field 1) =
      (fieldAt (some exWrapperDesc) exWrapperData ["inner"]).bind (fun y => y.field 1) ∧
    (fieldAt (some exWrapperDesc) exWrapperData ["inner"]).bind (fun y => y.field 1) =
      some (.string "b") :=
  ⟨⟨CacheSound_nil [], rfl, rfl, by decide, ⟨"inner.public", by decide, by decide⟩, rfl, rfl,
      rfl⟩,
    C14_hidden_fields_of_entered_records_unchanged [] 2 [] _ (CacheSound_nil [])
      (some ⟨["inner.public"]⟩) "Wrapper" exWrapperFields 4096 exWrapperData _ exWrapperDesc
      rfl rfl ["inner"] (by decide) (Or.inr (Or.inl ⟨"inner.public", by decide, by decide⟩))
      "PrivateFieldStruct" exPrivateFields rfl 1
      ⟨"private", "fieldmask_test", "", .basic .String, 16⟩ rfl (Or.inl rfl),
    rfl⟩

/-! ## Error predicates -/

/-- C21, counterexample: a circular-reference error is recognised by
`IsCircularReferenceError`, the same error wrapped by `errFieldProcessing` is not; an
unexpected-kind error is recognised by `IsUnexpectedKindError`, wrapped it is not. -/
theorem C21_counterexample :
    IsCircularReferenceError (some (.errCircularReference exNode)) = true ∧
    IsCircularReferenceError
      (some (.errFieldProcessing "Next" (.errCircularReference exNode))) = false ∧
    IsUnexpectedKindError (some (.errUnexpectedKind .Ptr)) = true ∧
    IsUnexpectedKindError (some (.errFieldProcessing "Next" (.errUnexpectedKind .Ptr))) = false :=
  ⟨rfl, rfl, rfl, rfl⟩

/-- C21, amended: the classification predicates do not see through the wrapper.  For
every error `e` and field name `n`, `IsCircularReferenceError` and `IsUnexpectedKindError`
are false on `errFieldProcessing{n, e}` and `IsFieldProcessingError` is true on it; so
each of the two predicates gives the same answer on the wrapper as on `e` exactly when
`e` itself is not of the kind the predicate asks for. -/
theorem C21_wrapper_hides_the_wrapped_kind (n : String) (e : Error) :
    IsCircularReferenceError (some (.errFieldProcessing n e)) = false ∧
    IsUnexpectedKindError (some (.errFieldProcessing n e)) = false ∧
    IsFieldProcessingError (some (.errFieldProcessing n e)) = true ∧
    (IsCircularReferenceError (some (.errFieldProcessing n e)) =
        IsCircularReferenceError (some e) ↔ ∀ t, e ≠ .errCircularReference t) ∧
    (IsUnexpectedKindError (some (.errFieldProcessing n e)) =
        IsUnexpectedKindError (some e) ↔ ∀ k, e ≠ .errUnexpectedKind k) := by
  refine ⟨rfl, rfl, rfl, ?_, ?_⟩
  · cases e <;> simp [IsCircularReferenceError, errorsAs]
  · cases e <;> simp [IsUnexpectedKindError, errorsAs]

/-! ## `buildPathMaps` -/

theorem foldl_buildPathMapsStep_nodup (S : List String) :
    ∀ acc : List String × List (String × List String),
      acc.1.Nodup → (acc.2.map (fun e => e.1)).Nodup →
      (S.foldl buildPathMapsStep acc).1.Nodup ∧
        ((S.foldl buildPathMapsStep acc).2.map (fun e => e.1)).Nodup := by
  induction S with
  | nil => intro acc h1 h2; exact ⟨h1, h2⟩
  | cons p rest ih =>
    intro acc h1 h2
    rw [List.foldl_cons]
    cases hc : cutAt '.' p.data with
    | none =>
      rw [buildPathMapsStep_bare _ (cutAt_eq_none.mp hc)]
      refine ih _ ?_ h2
      by_cases hp : p ∈ acc.1
      · simp only [if_pos hp]; exact h1
      · simp only [if_neg hp]
        rw [List.nodup_append]
        refine ⟨h1, List.nodup_singleton _, ?_⟩
        intro a ha hb
        rw [List.mem_singleton] at hb
        subst hb
        exact hp ha
    | some ab =>
      obtain ⟨a, b⟩ := ab
      rw [buildPathMapsStep_cut _ hc]
      exact ih _ h1 (keys_mapInsert_nodup _ _ h2)

theorem HasPrefix_dot_of_bare {p k : String} (hp : bare p) :
    HasPrefix p (k ++ ".") = false := by
  cases h : HasPrefix p (k ++ ".") with
  | false => rfl
  | true =>
    obtain ⟨rest, hrest⟩ := (HasPrefix_iff _ _).1 h
    exfalso
    apply hp
    rw [hrest]
    simp

theorem cutAt_of_HasPrefix {p k : String} (hk : bare k)
    (h : HasPrefix p (k ++ ".") = true) :
    ∃ rest : String, cutAt '.' p.data = some (k.data, rest.data) := by
  obtain ⟨rest, hrest⟩ := (HasPrefix_iff _ _).1 h
  refine ⟨rest, ?_⟩
  rw [cutAt_eq_some, hrest]
  refine ⟨by simp, hk⟩

/-- The continuations stored under a key without separator, each put back behind the
key and a separator, are the paths of the list that begin with the key and a separator,
in the order and number of the list. -/
theorem suffixesOf_map (k : String) (hk : bare k) (S : List String) :
    (suffixesOf k S).map (fun rest => k ++ "." ++ rest) =
      S.filter (fun p => HasPrefix p (k ++ ".")) := by
  induction S with
  | nil => rfl
  | cons p rest ih =>
    cases hc : cutAt '.' p.data with
    | none =>
      have hb : bare p := cutAt_eq_none.mp hc
      rw [suffixesOf_cons_bare k rest hb, List.filter_cons_of_neg, ih]
      rw [HasPrefix_dot_of_bare hb]
      exact Bool.false_ne_true
    | some ab =>
      obtain ⟨a, b⟩ := ab
      rw [suffixesOf_cons_cut k rest hc]
      by_cases hak : String.mk a = k
      · have hp : p = k ++ "." ++ String.mk b := by
          apply String.ext
          rw [← hak, (cutAt_eq_some.mp hc).1]
          simp
        have hpre : HasPrefix p (k ++ ".") = true := (HasPrefix_iff _ _).2 ⟨_, hp⟩
        rw [if_pos hak, List.filter_cons, if_pos hpre, List.map_cons, ih, ← hp]
      · have hpre : ¬ HasPrefix p (k ++ ".") = true := by
          intro h
          obtain ⟨r, hr⟩ := cutAt_of_HasPrefix hk h
          rw [hc] at hr
          simp only [Option.some.injEq, Prod.mk.injEq] at hr
          exact hak (by rw [hr.1])
        rw [if_neg hak, List.filter_cons, if_neg hpre, ih]

theorem suffixesOf_not_bare {k : String} (hk : ¬ bare k) (S : List String) :
    suffixesOf k S = [] := by
  unfold suffixesOf
  rw [List.filterMap_eq_nil_iff]
  intro p _
  cases hc : cutAt '.' p.data with
  | none => rfl
  | some ab =>
    obtain ⟨a, b⟩ := ab
    simp only
    rw [if_neg]
    intro hak
    apply hk
    rw [← hak]
    exact (cutAt_eq_some.mp hc).2

/-- C25: `buildPathMaps` splits every path at its first dot.  The keep set holds exactly
the paths without dot.  The nested map holds, under the text `k` before a first dot, the
texts after it, of exactly the paths that begin with `k` and a dot, in the order and
number of the input; a key under which nothing would be stored is absent; the keys of
both maps are distinct.  So `["field1", "field2.subfield"]` gives keep `{field1}` and
nested `{field2: [subfield]}`, and the empty list gives two empty maps. -/
theorem C25_buildPathMaps_splits_at_first_dot (S : List String) :
    (∀ k, k ∈ (buildPathMaps S).1 ↔ k ∈ S ∧ '.' ∉ k.data) ∧
    (∀ k, mapLookup (buildPathMaps S).2 k =
      if suffixesOf k S = [] then none else some (suffixesOf k S)) ∧
    (∀ k, '.' ∉ k.data → (suffixesOf k S).map (fun rest => k ++ "." ++ rest) =
      S.filter (fun p => HasPrefix p (k ++ "."))) ∧
    (∀ k, ¬ '.' ∉ k.data → mapLookup (buildPathMaps S).2 k = none) ∧
    (buildPathMaps S).1.Nodup ∧ ((buildPathMaps S).2.map (fun e => e.1)).Nodup ∧
    buildPathMaps ["field1", "field2.subfield"] = (["field1"], [("field2", ["subfield"])]) ∧
    buildPathMaps [] = ([], []) := by
  refine ⟨mem_keepMap_iff S, nestedPaths_lookup S, fun k hk => suffixesOf_map k hk S, ?_,
    (foldl_buildPathMapsStep_nodup S ([], []) List.nodup_nil List.nodup_nil).1,
    (foldl_buildPathMapsStep_nodup S ([], []) List.nodup_nil List.nodup_nil).2,
    by decide, rfl⟩
  intro k hk
  rw [nestedPaths_lookup, if_pos (suffixesOf_not_bare hk S)]

/-! ## Duplicate serialization keys -/

/-- C24: when two exported fields not tagged `json:"-"` of a record type have the same
serialization key, the descriptor built for the type has exactly one entry under that
key; the entry refers to a field with that key declared no earlier than the second of
the two, and to the second itself when no exported, not ignored field declared after it
has the key. -/
theorem C24_last_declared_field_wins (env : List GoType) (fuel : Nat) (name : String)
    (fields : List StructField) (d : typeDescriptor) (vis : List GoType)
    (hb : buildDescriptor env fuel (.Struct name fields) [] = .ok (d, vis))
    (i j : Nat) (f g : StructField) (hij : i < j)
    (_hf : fields.get? i = some f) (hg : fields.get? j = some g)
    (_hfr : f.IsExported = true ∧ f.jsonTag ≠ "-") (hgr : g.IsExported = true ∧ g.jsonTag ≠ "-")
    (hk : serializationKey f = serializationKey g) :
    ∃ fd, (serializationKey f, fd) ∈ d.fields ∧
      (∀ fd1, (serializationKey f, fd1) ∈ d.fields → fd1 = fd) ∧
      i < fd.index ∧ j ≤ fd.index ∧
      (∃ h, fields.get? fd.index = some h ∧ h.IsExported = true ∧ h.jsonTag ≠ "-" ∧
        serializationKey h = serializationKey f) ∧
      ((∀ l h, j < l → fields.get? l = some h → h.IsExported = true → h.jsonTag ≠ "-" →
        serializationKey h ≠ serializationKey f) → fd.index = j) := by
  have hd := (buildDescriptor_ok env fuel _ _ d vis hb).1
  obtain ⟨es⟩ := d
  cases hd with
  | mk _ _ _ hkeys hidx hfield hall hchild =>
    obtain ⟨fd, hfd⟩ := hall j g hg hgr
    rw [tagNameOf_eq_serializationKey, ← hk] at hfd
    obtain ⟨h, hm, htag, _, _⟩ := hfield _ fd hfd
    rw [tagNameOf_eq_serializationKey] at htag
    have hjle : j ≤ fd.index := by
      by_contra hlt
      have hlt1 : fd.index < j := Nat.lt_of_not_le hlt
      have := hm.2.2 j g hlt1 hg hgr
      rw [tagNameOf_eq_serializationKey, tagNameOf_eq_serializationKey, htag, hk] at this
      exact this rfl
    refine ⟨fd, hfd, ?_, Nat.lt_of_lt_of_le hij hjle, hjle,
      ⟨h, hm.1, hm.2.1.1, hm.2.1.2, htag⟩, ?_⟩
    · intro fd1 hfd1
      have := mem_unique_of_keys_nodup hkeys hfd1 hfd rfl
      exact (Prod.mk.inj this).2
    · intro hlast
      by_contra hne
      have hlt : j < fd.index := Nat.lt_of_le_of_ne hjle (fun e => hne e.symm)
      exact hlast fd.index h hlt hm.1 hm.2.1.1 hm.2.1.2 htag

/-- The theorem `C24_last_declared_field_wins` at a concrete input: in
`Dup struct { A string; B int; C string }` with the json tags `x`, `x`, `y` the entry
under `x` is the one of `B`, field number 1. -/
theorem C24_last_declared_field_wins_witness :
    buildDescriptor [] 1 (.Struct "Dup" exDupFields) [] =
      .ok (exDupDesc, [.Struct "Dup" exDupFields]) ∧
    exDupDesc.fields = [("x", .mk "x" 1 none), ("y", .mk "y" 2 none)] ∧
    ∃ fd, ("x", fd) ∈ exDupDesc.fields ∧
      (∀ fd1, ("x", fd1) ∈ exDupDesc.fields → fd1 = fd) ∧
      0 < fd.index ∧ 1 ≤ fd.index ∧
      (∃ h, exDupFields.get? fd.index = some h ∧ h.IsExported = true ∧ h.jsonTag ≠ "-" ∧
        serializationKey h = "x") ∧
      ((∀ l h, 1 < l → exDupFields.get? l = some h → h.IsExported = true → h.jsonTag ≠ "-" →
        serializationKey h ≠ "x") → fd.index = 1) :=
  ⟨rfl, rfl,
    C24_last_declared_field_wins [] 1 "Dup" exDupFields exDupDesc [.Struct "Dup" exDupFields]
      rfl 0 1 ⟨"A", "", "x", .basic .String, 0⟩ ⟨"B", "", "x", .basic .Int, 16⟩ (by decide)
      rfl rfl ⟨rfl, by decide⟩ ⟨rfl, by decide⟩ (by decide)⟩

/-! ## The errors of `Apply` -/

/-- C28: when `Apply` returns an error, the target and the descriptor cache are as they
were before the call, and the error is `ErrNilInput`, `ErrNoStruct` or a
circular-reference error; it is neither an unexpected-kind error nor a field-processing
error.  The recursive `apply` never returns an error. -/
theorem C28_errors_leave_the_target_unchanged (env : List GoType) (fuel : Nat)
    (cache cache1 : List (GoType × typeDescriptor)) (f : Option FieldMask) (i i1 : Iface)
    (e : Error) (h : FieldMask.Apply env fuel cache f i = .returned (some e) i1 cache1) :
    i1 = i ∧ cache1 = cache ∧
    (e = .ErrNilInput ∨ e = .ErrNoStruct ∨ ∃ t, e = .errCircularReference t) ∧
    IsUnexpectedKindError (some e) = false ∧ IsFieldProcessingError (some e) = false ∧
    (∀ (d : typeDescriptor) (v : Value) (S : List String) (V : List Nat) (r : applyResult),
      d.apply v S V = some r → r.err = none) := by
  have key : i1 = i ∧ cache1 = cache ∧
      (e = .ErrNilInput ∨ e = .ErrNoStruct ∨ ∃ t, e = .errCircularReference t) := by
    by_cases he : FieldMask.IsEmpty f = true
    · unfold FieldMask.Apply at h
      rw [if_pos he] at h
      cases h
    · have he1 : FieldMask.IsEmpty f = false := by
        cases hx : FieldMask.IsEmpty f with
        | true => exact absurd hx he
        | false => rfl
      cases i with
      | nil =>
        unfold FieldMask.Apply at h
        simp only [he1, Bool.false_eq_true, if_false, ApplyOutcome.returned.injEq,
          Option.some.injEq] at h
        exact ⟨h.2.1.symm, h.2.2.symm, Or.inl h.1.symm⟩
      | basic k x =>
        unfold FieldMask.Apply at h
        simp only [he1, Bool.false_eq_true, if_false, ApplyOutcome.returned.injEq,
          Option.some.injEq] at h
        exact ⟨h.2.1.symm, h.2.2.symm, Or.inl h.1.symm⟩
      | struct n fs x =>
        unfold FieldMask.Apply at h
        simp only [he1, Bool.false_eq_true, if_false, ApplyOutcome.returned.injEq,
          Option.some.injEq] at h
        exact ⟨h.2.1.symm, h.2.2.symm, Or.inl h.1.symm⟩
      | pointer elem target =>
        cases target with
        | none =>
          unfold FieldMask.Apply at h
          simp only [he1, Bool.false_eq_true, if_false, ApplyOutcome.returned.injEq,
            Option.some.injEq] at h
          exact ⟨h.2.1.symm, h.2.2.symm, Or.inl h.1.symm⟩
        | some ad =>
          obtain ⟨addr, data⟩ := ad
          by_cases hkind : elem.Kind = .Struct
          · obtain ⟨name, fields, rfl⟩ := GoType.Kind_struct hkind
            rw [Apply_pointer_struct env fuel cache f he1] at h
            cases hg : getTypeDescriptor env fuel cache (.Struct name fields) with
            | fail e1 =>
              rw [hg] at h
              simp only [ApplyOutcome.returned.injEq, Option.some.injEq] at h
              obtain ⟨u, hu⟩ := getTypeDescriptor_fail hg
              exact ⟨h.2.1.symm, h.2.2.symm, Or.inr (Or.inr ⟨u, by rw [← h.1, hu]⟩)⟩
            | panic => rw [hg] at h; cases h
            | outOfFuel => rw [hg] at h; cases h
            | ok p =>
              obtain ⟨td, c1⟩ := p
              rw [hg] at h
              simp only at h
              cases ha : td.apply ⟨.Struct name fields, data, some addr, false⟩
                  (FieldMask.pathsOf f) [] with
              | none => rw [ha] at h; cases h
              | some r =>
                rw [ha] at h
                have hnone := apply_err_none _ _ _ _ _ ha
                simp only [ApplyOutcome.returned.injEq] at h
                rw [hnone] at h
                cases h.1
          · unfold FieldMask.Apply at h
            simp only [he1, Bool.false_eq_true, if_false, ne_eq, hkind, not_false_eq_true,
              if_true, ApplyOutcome.returned.injEq, Option.some.injEq] at h
            exact ⟨h.2.1.symm, h.2.2.symm, Or.inr (Or.inl h.1.symm)⟩
  refine ⟨key.1, key.2.1, key.2.2, ?_, ?_, apply_err_none⟩
  · rcases key.2.2 with rfl | rfl | ⟨t, rfl⟩ <;> rfl
  · rcases key.2.2 with rfl | rfl | ⟨t, rfl⟩ <;> rfl

/-- The theorem `C28_errors_leave_the_target_unchanged` at a concrete input: `Apply` on
a record of the self-referential type `Node` returns the circular-reference error. -/
theorem C28_errors_leave_the_target_unchanged_witness :
    FieldMask.Apply [exNode] 2 [] (some ⟨["Next"]⟩) (.pointer exNode (some (4096, .struct [.nil])))
      = .returned (some (.errCircularReference exNode))
        (.pointer exNode (some (4096, .struct [.nil]))) [] ∧
    (Iface.pointer exNode (some (4096, .struct [.nil])) =
        .pointer exNode (some (4096, .struct [.nil])) ∧
      ([] : List (GoType × typeDescriptor)) = [] ∧
      (Error.errCircularReference exNode = .ErrNilInput ∨
        Error.errCircularReference exNode = .ErrNoStruct ∨
        ∃ t, Error.errCircularReference exNode = .errCircularReference t) ∧
      IsUnexpectedKindError (some (.errCircularReference exNode)) = false ∧
      IsFieldProcessingError (some (.errCircularReference exNode)) = false ∧
      (∀ (d : typeDescriptor) (v : Value) (S : List String) (V : List Nat) (r : applyResult),
        d.apply v S V = some r → r.err = none)) :=
  ⟨rfl, C28_errors_leave_the_target_unchanged [exNode] 2 [] [] (some ⟨["Next"]⟩)
    (.pointer exNode (some (4096, .struct [.nil]))) _ (.errCircularReference exNode) rfl⟩

/-! ## The recursion budget of `buildDescriptor` -/

theorem buildDescriptor_succ_other {env : List GoType} {fuel : Nat} {t : GoType}
    {visited : List GoType} (h : t ∉ visited) (ht : ∀ name fields, t ≠ .Struct name fields) :
    buildDescriptor env (fuel + 1) t visited = .panic := by
  cases t with
  | Struct name fields => exact absurd rfl (ht name fields)
  | basic k => simp [buildDescriptor, h]
  | Ptr e => simp [buildDescriptor, h]

/-- The loop of `buildDescriptor` gives the same result with a recursive call that
returns whatever the first one returns. -/
theorem buildFields_mono
    {build build1 : GoType → List GoType → Result (typeDescriptor × List GoType)}
    {env : List GoType}
    (hb : ∀ ft W, build ft W ≠ .outOfFuel → build1 ft W = build ft W) :
    ∀ (rest : List StructField) (i : Nat) (desc : List (String × fieldDescriptor))
      (V : List GoType), buildFields build env rest i desc V ≠ .outOfFuel →
      buildFields build1 env rest i desc V = buildFields build env rest i desc V := by
  intro rest
  induction rest with
  | nil => intro i desc V _; rfl
  | cons field rest ih =>
    intro i desc V h
    by_cases hs : field.IsExported = false ∨ field.jsonTag = jsonTagIgnore
    · rw [buildFields_cons_skip hs] at h ⊢
      rw [buildFields_cons_skip hs]
      exact ih _ _ _ h
    · have he : field.IsExported = true := by
        cases hx : field.IsExported with
        | true => rfl
        | false => exact absurd (Or.inl hx) hs
      have hi : field.jsonTag ≠ jsonTagIgnore := fun hx => hs (Or.inr hx)
      cases hn : nestedStruct env field.Typ with
      | none =>
        rw [buildFields_cons_leaf he hi hn] at h ⊢
        rw [buildFields_cons_leaf he hi hn]
        exact ih _ _ _ h
      | some ft =>
        rw [buildFields_cons_nested he hi hn] at h ⊢
        rw [buildFields_cons_nested he hi hn]
        cases hbf : build ft V with
        | ok p =>
          obtain ⟨child, V1⟩ := p
          rw [hbf] at h
          rw [hb ft V (by rw [hbf]; simp), hbf]
          exact ih _ _ _ h
        | fail e => rw [hb ft V (by rw [hbf]; simp), hbf]
        | panic => rw [hb ft V (by rw [hbf]; simp), hbf]
        | outOfFuel => rw [hbf] at h; exact absurd rfl h

/-- A call of `buildDescriptor` that returns within a recursion budget returns the same
within every larger one. -/
theorem buildDescriptor_mono (env : List GoType) :
    ∀ (fuel : Nat) (t : GoType) (V : List GoType),
      buildDescriptor env fuel t V ≠ .outOfFuel →
      buildDescriptor env (fuel + 1) t V = buildDescriptor env fuel t V := by
  intro fuel
  induction fuel with
  | zero => intro t V h; exact absurd (buildDescriptor_zero env t V) h
  | succ n ih =>
    intro t V h
    by_cases hv : t ∈ V
    · rw [buildDescriptor_succ_visited hv, buildDescriptor_succ_visited hv]
    · cases t with
      | Struct name fields =>
        rw [buildDescriptor_succ_struct hv] at h ⊢
        rw [buildDescriptor_succ_struct hv]
        exact buildFields_mono (fun ft W hne => ih ft W hne) _ _ _ _ h
      | basic k =>
        rw [buildDescriptor_succ_other hv (by intro _ _ hc; cases hc),
          buildDescriptor_succ_other hv (by intro _ _ hc; cases hc)]
      | Ptr e =>
        rw [buildDescriptor_succ_other hv (by intro _ _ hc; cases hc),
          buildDescriptor_succ_other hv (by intro _ _ hc; cases hc)]

theorem buildDescriptor_mono_le (env : List GoType) (t : GoType) (V : List GoType)
    (fuel : Nat) (h : buildDescriptor env fuel t V ≠ .outOfFuel) :
    ∀ fuel1, fuel ≤ fuel1 → buildDescriptor env fuel1 t V = buildDescriptor env fuel t V := by
  intro fuel1 hle
  induction fuel1 with
  | zero =>
    have : fuel = 0 := Nat.le_zero.mp hle
    rw [this]
  | succ n ih =>
    by_cases heq : fuel = n + 1
    · rw [heq]
    · have hle1 : fuel ≤ n := by omega
      have := ih hle1
      rw [← this]
      exact buildDescriptor_mono env n t V (by rw [this]; exact h)

/-- Two calls of `buildDescriptor` that return, whatever their recursion budgets,
return the same. -/
theorem buildDescriptor_det (env : List GoType) (t : GoType) (V : List GoType)
    (fuel fuel1 : Nat) (h : buildDescriptor env fuel t V ≠ .outOfFuel)
    (h1 : buildDescriptor env fuel1 t V ≠ .outOfFuel) :
    buildDescriptor env fuel1 t V = buildDescriptor env fuel t V := by
  rw [← buildDescriptor_mono_le env t V fuel h (max fuel fuel1) (Nat.le_max_left _ _),
    ← buildDescriptor_mono_le env t V fuel1 h1 (max fuel fuel1) (Nat.le_max_right _ _)]

/-! ## Every type is entered at most once -/

theorem buildFields_nodup
    {build : GoType → List GoType → Result (typeDescriptor × List GoType)}
    {env : List GoType}
    (hb : ∀ ft W d W1, W.Nodup → build ft W = .ok (d, W1) → W1.Nodup) :
    ∀ (rest : List StructField) (i : Nat) (desc : List (String × fieldDescriptor))
      (V : List GoType) (d : typeDescriptor) (V1 : List GoType), V.Nodup →
      buildFields build env rest i desc V = .ok (d, V1) → V1.Nodup := by
  intro rest
  induction rest with
  | nil =>
    intro i desc V d V1 hV h
    simp only [buildFields_nil, Result.ok.injEq, Prod.mk.injEq] at h
    rw [← h.2]
    exact hV
  | cons field rest ih =>
    intro i desc V d V1 hV h
    by_cases hs : field.IsExported = false ∨ field.jsonTag = jsonTagIgnore
    · rw [buildFields_cons_skip hs] at h
      exact ih _ _ _ _ _ hV h
    · have he : field.IsExported = true := by
        cases hx : field.IsExported with
        | true => rfl
        | false => exact absurd (Or.inl hx) hs
      have hi : field.jsonTag ≠ jsonTagIgnore := fun hx => hs (Or.inr hx)
      cases hn : nestedStruct env field.Typ with
      | none =>
        rw [buildFields_cons_leaf he hi hn] at h
        exact ih _ _ _ _ _ hV h
      | some ft =>
        rw [buildFields_cons_nested he hi hn] at h
        cases hbf : build ft V with
        | ok p =>
          obtain ⟨child, W1⟩ := p
          rw [hbf] at h
          exact ih _ _ _ _ _ (hb ft V child W1 hV hbf) h
        | fail e => rw [hbf] at h; cases h
        | panic => rw [hbf] at h; cases h
        | outOfFuel => rw [hbf] at h; cases h

/-- The map `visited` that `buildDescriptor` returns holds every type once. -/
theorem buildDescriptor_nodup (env : List GoType) :
    ∀ (fuel : Nat) (t : GoType) (V : List GoType) (d : typeDescriptor) (V1 : List GoType),
      V.Nodup → buildDescriptor env fuel t V = .ok (d, V1) → V1.Nodup := by
  intro fuel
  induction fuel with
  | zero => intro t V d V1 _ h; rw [buildDescriptor_zero] at h; cases h
  | succ n ih =>
    intro t V d V1 hV h
    by_cases hv : t ∈ V
    · rw [buildDescriptor_succ_visited hv] at h; cases h
    · cases t with
      | Struct name fields =>
        rw [buildDescriptor_succ_struct hv] at h
        exact buildFields_nodup (fun ft W d W1 hW hb => ih ft W d W1 hW hb) _ _ _ _ _ _
          (List.nodup_cons.2 ⟨hv, hV⟩) h
      | basic k =>
        rw [buildDescriptor_succ_other hv (by intro _ _ hc; cases hc)] at h; cases h
      | Ptr e =>
        rw [buildDescriptor_succ_other hv (by intro _ _ hc; cases hc)] at h; cases h

/-- C26: `buildDescriptor` terminates on every record type over every type table.  With a
recursion depth of one more than the number of record types in reach, and with every
larger one, the call returns one and the same result, a descriptor or a
circular-reference error.  The map `visited` only grows and holds every type once, and a
type that is in it is not entered again.  The directly self-referential `Node` and the
mutually referential `Ping` and `Pong` end in a circular-reference error. -/
theorem C26_buildDescriptor_terminates (env : List GoType) (name : String)
    (fields : List StructField) :
    (∃ res, (∀ fuel, buildFuel env (.Struct name fields) ≤ fuel →
        buildDescriptor env fuel (.Struct name fields) [] = res) ∧
      ((∃ d V, res = .ok (d, V) ∧ V.Nodup) ∨ ∃ u, res = .fail (.errCircularReference u))) ∧
    (∀ fuel t V d V1, buildDescriptor env fuel t V = .ok (d, V1) →
      (∀ x ∈ V, x ∈ V1) ∧ (V.Nodup → V1.Nodup)) ∧
    (∀ fuel t V, t ∈ V →
      buildDescriptor env (fuel + 1) t V = .fail (.errCircularReference t)) ∧
    buildDescriptor [exNode] (buildFuel [exNode] exNode) exNode [] =
      .fail (.errCircularReference exNode) ∧
    buildDescriptor exPingEnv (buildFuel exPingEnv exPing) exPing [] =
      .fail (.errCircularReference exPing) := by
  refine ⟨⟨buildDescriptor env (buildFuel env (.Struct name fields)) (.Struct name fields) [],
    ?_, ?_⟩, ?_, ?_, rfl, rfl⟩
  · intro fuel hle
    refine buildDescriptor_mono_le env _ [] _ ?_ fuel hle
    rcases buildDescriptor_returns env name fields _ (Nat.le_refl _) with ⟨d, V, h⟩ | ⟨u, h⟩
    · rw [h]; simp
    · rw [h]; simp
  · rcases buildDescriptor_returns env name fields _ (Nat.le_refl _) with ⟨d, V, h⟩ | ⟨u, h⟩
    · exact Or.inl ⟨d, V, h, buildDescriptor_nodup env _ _ [] d V List.nodup_nil h⟩
    · exact Or.inr ⟨u, h⟩
  · intro fuel t V d V1 h
    exact ⟨(buildDescriptor_ok env fuel t V d V1 h).2.1,
      fun hV => buildDescriptor_nodup env fuel t V d V1 hV h⟩
  · intro fuel t V h
    exact buildDescriptor_succ_visited h

/-! ## The descriptor cache -/

theorem getTypeDescriptor_eq (env : List GoType) (fuel : Nat)
    (cache : List (GoType × typeDescriptor)) {t t1 : GoType}
    (h : stripPointer env t = some t1) :
    getTypeDescriptor env fuel cache t =
      match cacheLoad cache t1 with
      | some cached => .ok (cached, cache)
      | none =>
        match buildDescriptor env fuel t1 [] with
        | .ok (desc, _) => .ok (desc, cacheStore cache t1 desc)
        | .fail e => .fail e
        | .panic => .panic
        | .outOfFuel => .outOfFuel := by
  unfold getTypeDescriptor
  cases t with
  | Ptr e =>
    simp only [stripPointer] at h
    dsimp only
    generalize env.get? e = o at h
    subst h
    rfl
  | basic k =>
    simp only [stripPointer, Option.some.injEq] at h
    subst h
    rfl
  | Struct name fields =>
    simp only [stripPointer, Option.some.injEq] at h
    subst h
    rfl

theorem getTypeDescriptor_none (env : List GoType) (fuel : Nat)
    (cache : List (GoType × typeDescriptor)) {t : GoType} (h : stripPointer env t = none) :
    getTypeDescriptor env fuel cache t = .panic := by
  unfold getTypeDescriptor
  cases t with
  | Ptr e =>
    simp only [stripPointer] at h
    simp only [h]
  | basic k => simp [stripPointer] at h
  | Struct name fields => simp [stripPointer] at h

/-- A call of `getTypeDescriptor` that returns a descriptor leaves a sound cache that
differs from the one it found at most under the type it was asked for. -/
theorem getTypeDescriptor_sound {env : List GoType} {fuel : Nat}
    {cache cache1 : List (GoType × typeDescriptor)} {t : GoType} {d : typeDescriptor}
    (hc : CacheSound env cache) (h : getTypeDescriptor env fuel cache t = .ok (d, cache1)) :
    CacheSound env cache1 ∧ ∃ t1, stripPointer env t = some t1 ∧
      cacheLoad cache1 t1 = some d ∧ ∀ t2, t2 ≠ t1 → cacheLoad cache1 t2 = cacheLoad cache t2 := by
  cases hs : stripPointer env t with
  | none => rw [getTypeDescriptor_none env fuel cache hs] at h; cases h
  | some t1 =>
    rw [getTypeDescriptor_eq env fuel cache hs] at h
    cases hl : cacheLoad cache t1 with
    | some cached =>
      rw [hl] at h
      simp only [Result.ok.injEq, Prod.mk.injEq] at h
      obtain ⟨rfl, rfl⟩ := h
      exact ⟨hc, t1, rfl, hl, fun _ _ => rfl⟩
    | none =>
      rw [hl] at h
      simp only at h
      cases hb : buildDescriptor env fuel t1 [] with
      | ok p =>
        obtain ⟨desc, vis⟩ := p
        rw [hb] at h
        simp only [Result.ok.injEq, Prod.mk.injEq] at h
        obtain ⟨rfl, rfl⟩ := h
        refine ⟨?_, t1, rfl, ?_, ?_⟩
        · intro t2 d2 h2
          rw [cacheLoad_cacheStore] at h2
          by_cases h12 : t1 = t2
          · rw [if_pos h12] at h2
            cases h2
            subst h12
            exact ⟨fuel, vis, hb⟩
          · rw [if_neg h12] at h2
            exact hc t2 d2 h2
        · rw [cacheLoad_cacheStore, if_pos rfl]
        · intro t2 h2
          rw [cacheLoad_cacheStore, if_neg (fun e => h2 e.symm)]
      | fail e => rw [hb] at h; cases h
      | panic => rw [hb] at h; cases h
      | outOfFuel => rw [hb] at h; cases h

theorem cacheAfter_sound (env : List GoType) (fuel : Nat) (ts : List GoType) :
    ∀ cache, CacheSound env cache → CacheSound env (cacheAfter env fuel cache ts) := by
  induction ts with
  | nil => intro cache hc; exact hc
  | cons t ts ih =>
    intro cache hc
    unfold cacheAfter
    cases hg : getTypeDescriptor env fuel cache t with
    | ok p =>
      obtain ⟨d, cache1⟩ := p
      exact ih cache1 (getTypeDescriptor_sound hc hg).1
    | fail e => exact ih cache hc
    | panic => exact ih cache hc
    | outOfFuel => exact ih cache hc

/-- C27: after every sequence of calls of `getTypeDescriptor` that starts from the empty
cache, every cached entry is the descriptor a fresh build with the empty map `visited`
returns for its type; a call that fails leaves the cache as it was, and a call that
succeeds changes it at most under the type asked for; so a further call for a type `t`
returns the descriptor, or the error, that a fresh build returns for `t` with one level
of pointer stripped. -/
theorem C27_cache_transparency (env : List GoType) (fuel : Nat) (ts : List GoType) :
    (∀ t d, cacheLoad (cacheAfter env fuel [] ts) t = some d →
      ∃ fuel1 vis, buildDescriptor env fuel1 t [] = .ok (d, vis)) ∧
    (∀ cache t e, getTypeDescriptor env fuel cache t = .fail e →
      cacheAfter env fuel cache [t] = cache) ∧
    (∀ cache t d cache1, getTypeDescriptor env fuel cache t = .ok (d, cache1) →
      cacheAfter env fuel cache [t] = cache1) ∧
    (∀ t d cache1,
      getTypeDescriptor env fuel (cacheAfter env fuel [] ts) t = .ok (d, cache1) →
      ∃ t1, stripPointer env t = some t1 ∧ cacheLoad cache1 t1 = some d ∧
        ∀ t2, t2 ≠ t1 → cacheLoad cache1 t2 = cacheLoad (cacheAfter env fuel [] ts) t2) ∧
    (∀ t t1 fuel1, stripPointer env t = some t1 →
      (∀ d vis, buildDescriptor env fuel1 t1 [] = .ok (d, vis) →
        ∃ cache1, getTypeDescriptor env fuel1 (cacheAfter env fuel [] ts) t =
          .ok (d, cache1)) ∧
      (∀ e, buildDescriptor env fuel1 t1 [] = .fail e →
        getTypeDescriptor env fuel1 (cacheAfter env fuel [] ts) t = .fail e)) := by
  have hs : CacheSound env (cacheAfter env fuel [] ts) :=
    cacheAfter_sound env fuel ts [] (CacheSound_nil env)
  refine ⟨hs, ?_, ?_, ?_, ?_⟩
  · intro cache t e h
    simp only [cacheAfter, h]
  · intro cache t d cache1 h
    simp only [cacheAfter, h]
  · intro t d cache1 h
    exact (getTypeDescriptor_sound hs h).2
  · intro t t1 fuel1 hst
    constructor
    · intro d vis hb
      rw [getTypeDescriptor_eq env fuel1 _ hst]
      cases hl : cacheLoad (cacheAfter env fuel [] ts) t1 with
      | some cached =>
        obtain ⟨fuel2, vis2, hb2⟩ := hs t1 cached hl
        have := buildDescriptor_det env t1 [] fuel1 fuel2 (by rw [hb]; simp)
          (by rw [hb2]; simp)
        rw [hb, hb2] at this
        simp only [Result.ok.injEq, Prod.mk.injEq] at this
        rw [this.1]
        exact ⟨_, rfl⟩
      | none =>
        simp only [hb]
        exact ⟨_, rfl⟩
    · intro e hb
      rw [getTypeDescriptor_eq env fuel1 _ hst]
      cases hl : cacheLoad (cacheAfter env fuel [] ts) t1 with
      | some cached =>
        obtain ⟨fuel2, vis2, hb2⟩ := hs t1 cached hl
        have := buildDescriptor_det env t1 [] fuel1 fuel2 (by rw [hb]; simp)
          (by rw [hb2]; simp)
        rw [hb, hb2] at this
        cases this
      | none => simp only [hb]

/-! ## The map `visited` of `apply` -/

theorem applyFields_visited (es : List (String × fieldDescriptor))
    (hch : ∀ tag t i c, (tag, fieldDescriptor.mk t i (some c)) ∈ es →
      ∀ (v : Value) (S : List String) (V : List Nat) (r : applyResult),
        c.apply v S V = some r →
        ∃ added, r.visited = added ++ V ∧ added.Nodup ∧ ∀ a ∈ added, a ∉ V) :
    ∀ (keep : List String) (nested : List (String × List String)) (v : Value) (V : List Nat)
      (r : applyResult), applyFields es keep nested v V = some r →
      ∃ added, r.visited = added ++ V ∧ added.Nodup ∧ ∀ a ∈ added, a ∉ V := by
  induction es with
  | nil =>
    intro keep nested v V r h
    rw [applyFields_nil] at h
    cases h
    exact ⟨[], rfl, List.nodup_nil, fun _ ha => by cases ha⟩
  | cons e rest ih =>
    intro keep nested v V r h
    obtain ⟨tag, ⟨t, index, child⟩⟩ := e
    have ihr := ih (fun tag t i c hm => hch tag t i c (List.mem_cons_of_mem _ hm))
    obtain ⟨fv, _, hcase⟩ := applyFields_cons_inv h
    rcases hcase with ⟨_, h1⟩ | ⟨_, c, sub, r1, hc, _, ha, _, h1⟩ | ⟨_, _, _, h1⟩ |
      ⟨_, _, _, h1⟩
    · exact ihr _ _ _ _ _ h1
    · subst hc
      obtain ⟨a1, h1eq, h1nd, h1dis⟩ := hch tag t index c (List.mem_cons_self _ _) _ _ _ _ ha
      obtain ⟨a2, h2eq, h2nd, h2dis⟩ := ihr _ _ _ _ _ h1
      refine ⟨a2 ++ a1, ?_, ?_, ?_⟩
      · rw [h2eq, h1eq, List.append_assoc]
      · rw [List.nodup_append]
        refine ⟨h2nd, h1nd, ?_⟩
        intro a ha2 ha1
        exact h2dis a ha2 (by rw [h1eq]; exact List.mem_append_left _ ha1)
      · intro a ha
        rcases List.mem_append.1 ha with ha2 | ha1
        · exact fun hV => h2dis a ha2 (by rw [h1eq]; exact List.mem_append_right _ hV)
        · exact h1dis a ha1
    · exact ihr _ _ _ _ _ h1
    · exact ihr _ _ _ _ _ h1

/-- A call of `apply` that returns leaves in `visited` what was there, and before it the
addresses of the records it has entered, each once and none that was there already. -/
theorem apply_visited : ∀ (d : typeDescriptor) (v : Value) (S : List String) (V : List Nat)
    (r : applyResult), d.apply v S V = some r →
    ∃ added, r.visited = added ++ V ∧ added.Nodup ∧ ∀ a ∈ added, a ∉ V := by
  intro d
  induction d using typeDescriptor.induct with
  | step fields ihc =>
    intro v S V r h
    cases ha : v.addr with
    | none =>
      rw [apply_mk_none ha] at h
      cases h
      exact ⟨[], rfl, List.nodup_nil, fun _ hx => by cases hx⟩
    | some addr =>
      by_cases hv : addr ∈ V
      · rw [apply_mk_visited ha hv] at h
        cases h
        exact ⟨[], rfl, List.nodup_nil, fun _ hx => by cases hx⟩
      · rw [apply_mk_enter ha hv] at h
        obtain ⟨a, heq, hnd, hdis⟩ := applyFields_visited fields ihc _ _ _ _ _ h
        refine ⟨a ++ [addr], ?_, ?_, ?_⟩
        · rw [heq, List.append_assoc, List.singleton_append]
        · rw [List.nodup_append]
          refine ⟨hnd, List.nodup_singleton _, ?_⟩
          intro x hx hx1
          rw [List.mem_singleton] at hx1
          subst hx1
          exact hdis x hx (List.mem_cons_self _ _)
        · intro x hx
          rcases List.mem_append.1 hx with hx1 | hx1
          · exact fun hV => hdis x hx1 (List.mem_cons_of_mem _ hV)
          · rw [List.mem_singleton] at hx1
            subst hx1
            exact hv

/-- C22: the recursive `apply` is a total function of the descriptor, the value, the path
list and the map `visited`: it recurses on the children of the descriptor only.  A call
on a value whose address is in `visited` returns nil and leaves the value and `visited`
as they are.  A call that returns has entered every record at most once and none whose
address was in `visited`: it leaves `visited` with the addresses it has entered put
before the old ones, each once; and it returns no error. -/
theorem C22_each_instance_entered_at_most_once (d : typeDescriptor) (v : Value)
    (S : List String) (V : List Nat) :
    (∀ addr, v.addr = some addr → addr ∈ V → d.apply v S V = some ⟨v.data, V, none⟩) ∧
    (v.addr = none → d.apply v S V = some ⟨v.data, V, none⟩) ∧
    (∀ r, d.apply v S V = some r →
      r.err = none ∧ ∃ added, r.visited = added ++ V ∧ added.Nodup ∧ ∀ a ∈ added, a ∉ V) := by
  refine ⟨?_, ?_, ?_⟩
  · intro addr ha hv
    obtain ⟨fields⟩ := d
    exact apply_mk_visited ha hv
  · intro ha
    obtain ⟨fields⟩ := d
    exact apply_mk_none ha
  · intro r h
    exact ⟨apply_err_none d v S V r h, apply_visited d v S V r h⟩

/-- The theorem `C22_each_instance_entered_at_most_once` at a concrete input: the record
`{name:"John", profile:{age:30,bio:"x"}}` at address 4096, a second time in one call. -/
theorem C22_each_instance_entered_at_most_once_witness :
    exMemberDesc.apply ⟨exMember, exMemberData, some 4096, false⟩ ["name"] [4096] =
      some ⟨exMemberData, [4096], none⟩ ∧
    exMemberDesc.apply ⟨exMember, exMemberData, some 4096, false⟩ ["profile.age"] [] =
      some ⟨.struct [.string "", .struct [.int 30, .string ""]], [4112, 4096], none⟩ ∧
    (none : Option Error) = none ∧
    ∃ added, [4112, 4096] = added ++ ([] : List Nat) ∧ added.Nodup ∧ ∀ a ∈ added, a ∉ ([] : List Nat) :=
  ⟨(C22_each_instance_entered_at_most_once exMemberDesc
      ⟨exMember, exMemberData, some 4096, false⟩ ["name"] [4096]).1 4096 rfl (by decide),
    rfl,
    (C22_each_instance_entered_at_most_once exMemberDesc
      ⟨exMember, exMemberData, some 4096, false⟩ ["profile.age"] []).2.2
      ⟨.struct [.string "", .struct [.int 30, .string ""]], [4112, 4096], none⟩ rfl⟩

/-! ## `apply` and the way the path list is written -/

/-- The loop of `apply`, over the entries in one order, does the same with two pairs of
maps that, for every entry, are
both with or both without nested paths under its key, lead the recursive call to the
same result, and agree on whether the key is kept when the entry is not descended
into. -/
theorem applyFields_congr (keep keep1 : List String)
    (nested nested1 : List (String × List String)) :
    ∀ (es : List (String × fieldDescriptor)),
      (∀ tag t i child, (tag, fieldDescriptor.mk t i child) ∈ es →
        (mapLookup nested tag = none ↔ mapLookup nested1 tag = none) ∧
        ((child = none ∨ mapLookup nested tag = none) → (tag ∈ keep ↔ tag ∈ keep1)) ∧
        ∀ c sub sub1, child = some c → mapLookup nested tag = some sub →
          mapLookup nested1 tag = some sub1 →
          ∀ (fv : Value) (V : List Nat), c.apply fv sub V = c.apply fv sub1 V) →
      ∀ (v : Value) (V : List Nat),
        applyFields es keep nested v V = applyFields es keep1 nested1 v V := by
  intro es
  induction es with
  | nil => intro _ v V; rw [applyFields_nil, applyFields_nil]
  | cons e rest ih =>
    intro hent v V
    obtain ⟨tag, ⟨t, index, child⟩⟩ := e
    have ihr := ih (fun tag t i child hm => hent tag t i child (List.mem_cons_of_mem _ hm))
    obtain ⟨hnone, hkeep, hsub⟩ := hent tag t index child (List.mem_cons_self _ _)
    cases hF : v.Field index with
    | none => rw [applyFields_cons_panic hF, applyFields_cons_panic hF]
    | some fv =>
      cases hs : fv.CanSet with
      | false =>
        rw [applyFields_cons_skip hF hs, applyFields_cons_skip hF hs]
        exact ihr v V
      | true =>
        have leaf : (child = none ∨ mapLookup nested tag = none) →
            applyFields ((tag, .mk t index child) :: rest) keep nested v V =
              applyFields ((tag, .mk t index child) :: rest) keep1 nested1 v V := by
          intro hl
          have hl1 : child = none ∨ mapLookup nested1 tag = none :=
            hl.imp id hnone.1
          rw [applyFields_cons_leaf hF hs hl, applyFields_cons_leaf hF hs hl1]
          by_cases hk : tag ∈ keep
          · rw [if_pos hk, if_pos ((hkeep hl).1 hk)]
            exact ihr v V
          · rw [if_neg hk, if_neg (fun h => hk ((hkeep hl).2 h))]
            exact ihr _ V
        cases child with
        | none => exact leaf (Or.inl rfl)
        | some c =>
          cases hl : mapLookup nested tag with
          | none => exact leaf (Or.inr hl)
          | some sub =>
            cases hl1 : mapLookup nested1 tag with
            | none => rw [hnone.2 hl1] at hl; cases hl
            | some sub1 =>
              rw [applyFields_cons_descend hF hs hl, applyFields_cons_descend hF hs hl1,
                hsub c sub sub1 rfl hl hl1 fv V]
              cases c.apply fv sub1 V with
              | none => rfl
              | some r =>
                simp only
                cases r.err with
                | some e => rfl
                | none => exact ihr _ _

theorem mem_suffixesOf_congr {S S1 : List String} (h : ∀ p, p ∈ S ↔ p ∈ S1) (k rest : String) :
    rest ∈ suffixesOf k S ↔ rest ∈ suffixesOf k S1 := by
  unfold suffixesOf
  simp only [List.mem_filterMap]
  constructor
  · rintro ⟨p, hp, hx⟩
    exact ⟨p, (h p).1 hp, hx⟩
  · rintro ⟨p, hp, hx⟩
    exact ⟨p, (h p).2 hp, hx⟩

theorem eq_nil_congr {α : Type} {l l1 : List α} (h : ∀ x, x ∈ l ↔ x ∈ l1) :
    l = [] ↔ l1 = [] := by
  constructor
  · intro hl
    apply List.eq_nil_iff_forall_not_mem.2
    intro x hx
    rw [← h x, hl] at hx
    cases hx
  · intro hl
    apply List.eq_nil_iff_forall_not_mem.2
    intro x hx
    rw [h x, hl] at hx
    cases hx

/-- The recursive `apply` does the same for two path lists that hold the same paths, the
maps ranged in the same order. -/
theorem apply_same_paths : ∀ (d : typeDescriptor) (S S1 : List String),
    (∀ p, p ∈ S ↔ p ∈ S1) → ∀ (v : Value) (V : List Nat), d.apply v S V = d.apply v S1 V := by
  intro d
  induction d using typeDescriptor.induct with
  | step fields ihc =>
    intro S S1 hS v V
    cases ha : v.addr with
    | none => rw [apply_mk_none ha, apply_mk_none ha]
    | some addr =>
      by_cases hv : addr ∈ V
      · rw [apply_mk_visited ha hv, apply_mk_visited ha hv]
      · rw [apply_mk_enter ha hv, apply_mk_enter ha hv]
        apply applyFields_congr
        intro tag t i child hm
        have hnil := eq_nil_congr (mem_suffixesOf_congr hS tag)
        refine ⟨?_, ?_, ?_⟩
        · rw [nestedPaths_lookup, nestedPaths_lookup]
          by_cases h0 : suffixesOf tag S = []
          · rw [if_pos h0, if_pos (hnil.1 h0)]
          · rw [if_neg h0, if_neg (fun h => h0 (hnil.2 h))]
            simp
        · intro _
          rw [mem_keepMap_iff, mem_keepMap_iff, hS tag]
        · intro c sub sub1 hc hl hl1 fv V1
          subst hc
          obtain ⟨rfl, _⟩ := suffixesOf_ne_nil_of_lookup hl
          obtain ⟨rfl, _⟩ := suffixesOf_ne_nil_of_lookup hl1
          exact ihc tag t i c hm _ _ (mem_suffixesOf_congr hS tag) fv V1

/-- Two calls of `Apply` that range over the maps of the descriptor in the same order (Go
does not promise that they do) end in the same way for two non-empty path lists that
hold the same paths. -/
theorem Apply_same_paths_in_the_same_order (env : List GoType) (fuel : Nat)
    (cache : List (GoType × typeDescriptor)) (S S1 : List String) (i : Iface)
    (hS : S ≠ []) (hS1 : S1 ≠ []) (h : ∀ p, p ∈ S ↔ p ∈ S1) :
    FieldMask.Apply env fuel cache (some ⟨S⟩) i = FieldMask.Apply env fuel cache (some ⟨S1⟩) i := by
  have he : FieldMask.IsEmpty (some ⟨S⟩) = false :=
    (IsEmpty_false_iff _).2 ⟨_, rfl, hS⟩
  have he1 : FieldMask.IsEmpty (some ⟨S1⟩) = false :=
    (IsEmpty_false_iff _).2 ⟨_, rfl, hS1⟩
  unfold FieldMask.Apply
  rw [he, he1]
  simp only [Bool.false_eq_true, if_false]
  cases i with
  | nil => rfl
  | basic k x => rfl
  | struct n fs x => rfl
  | pointer elem target =>
    cases target with
    | none => rfl
    | some ad =>
      obtain ⟨addr, data⟩ := ad
      simp only
      by_cases hk : elem.Kind ≠ .Struct
      · rw [if_pos hk, if_pos hk]
      · rw [if_neg hk, if_neg hk]
        cases getTypeDescriptor env fuel cache elem with
        | fail e => rfl
        | panic => rfl
        | outOfFuel => rfl
        | ok p =>
          obtain ⟨td, cache1⟩ := p
          simp only [FieldMask.pathsOf]
          rw [apply_same_paths td S S1 h]

/-! ## A key in both forms -/

theorem suffixesOf_filter_bare (tag k : String) (hk : bare k) (S : List String) :
    suffixesOf tag (S.filter (fun p => decide (p ≠ k))) = suffixesOf tag S := by
  induction S with
  | nil => rfl
  | cons p rest ih =>
    by_cases hp : p = k
    · subst hp
      rw [List.filter_cons, if_neg (by simp), suffixesOf_cons_bare tag rest hk, ih]
    · rw [List.filter_cons, if_pos (by simpa using hp)]
      cases hc : cutAt '.' p.data with
      | none =>
        have hb : bare p := cutAt_eq_none.mp hc
        rw [suffixesOf_cons_bare tag _ hb, suffixesOf_cons_bare tag _ hb, ih]
      | some ab =>
        obtain ⟨a, b⟩ := ab
        rw [suffixesOf_cons_cut tag _ hc, suffixesOf_cons_cut tag _ hc, ih]

/-- Descend takes priority over keep: when the key `k` of entries with nested descriptor
has a path of the list that continues below it, `apply` does the same with and without
the bare path `k` in the list. -/
theorem apply_bare_key_of_descended_field (es : List (String × fieldDescriptor)) (k : String)
    (hk : bare k) (S : List String)
    (hchild : ∀ fd, (k, fd) ∈ es → fd.child ≠ none)
    (hsuf : ∃ s ∈ S, HasPrefix s (k ++ pathSeparator) = true) (v : Value) (V : List Nat) :
    (typeDescriptor.mk es).apply v S V =
      (typeDescriptor.mk es).apply v (S.filter (fun p => decide (p ≠ k))) V := by
  cases ha : v.addr with
  | none => rw [apply_mk_none ha, apply_mk_none ha]
  | some addr =>
    by_cases hv : addr ∈ V
    · rw [apply_mk_visited ha hv, apply_mk_visited ha hv]
    · rw [apply_mk_enter ha hv, apply_mk_enter ha hv]
      apply applyFields_congr
      intro tag t i child hm
      have hlook : mapLookup (buildPathMaps (S.filter (fun p => decide (p ≠ k)))).2 tag =
          mapLookup (buildPathMaps S).2 tag := by
        rw [nestedPaths_lookup, nestedPaths_lookup, suffixesOf_filter_bare tag k hk S]
      refine ⟨by rw [hlook], ?_, ?_⟩
      · intro hl
        by_cases htag : tag = k
        · exfalso
          subst htag
          rcases hl with hc | hn
          · exact hchild _ hm hc
          · obtain ⟨s, hs, hpre⟩ := hsuf
            obtain ⟨rest, hrest⟩ := (HasPrefix_iff _ _).1 hpre
            subst hrest
            have hin : rest ∈ suffixesOf tag S := (mem_suffixesOf hk S rest).mpr hs
            rw [nestedPaths_lookup, if_neg (List.ne_nil_of_mem hin)] at hn
            cases hn
        · rw [mem_keepMap_iff, mem_keepMap_iff, List.mem_filter]
          simp [htag]
      · intro c sub sub1 _ hl hl1 fv V1
        rw [hlook, hl] at hl1
        cases hl1
        rfl

/-- C23, the code at the failing input: in `{profile:{age:30,bio:"x"}, name:"John"}`,
whose nested record is the first field, the mask `["profile", "profile.age"]` holds the
key `profile` bare and with a suffix.  `Apply` gives the same result as with the mask
`["profile.age"]`, but the field `profile.bio`, which no suffix names, is not reset: it
still holds `"x"`.  In `{name:"John", profile:{age:30,bio:"x"}}`, where the nested record
is the second field, the same mask resets `profile.bio` to `""`. -/
theorem C23_first_nested_record_not_reset_under_both_forms (n : Nat) :
    FieldMask.Apply [] (n + 2) [] (some ⟨["profile", "profile.age"]⟩)
        (.pointer exUser (some (4096, exUserData))) =
      .returned none
        (.pointer exUser (some (4096, .struct [.struct [.int 30, .string "x"], .string ""])))
        [(exUser, exUserDesc)] ∧
    FieldMask.Apply [] (n + 2) [] (some ⟨["profile.age"]⟩)
        (.pointer exUser (some (4096, exUserData))) =
      FieldMask.Apply [] (n + 2) [] (some ⟨["profile", "profile.age"]⟩)
        (.pointer exUser (some (4096, exUserData))) ∧
    suffixesOf "profile" ["profile", "profile.age"] = ["age"] ∧
    fieldAt (some exUserDesc) (.struct [.struct [.int 30, .string "x"], .string ""])
      ["profile", "bio"] = some (.string "x") ∧
    typeAt (some exUserDesc) exUser ["profile", "bio"] = some (.basic .String) ∧
    Zero (.basic .String) = .string "" ∧
    FieldMask.Apply [] (n + 2) [] (some ⟨["profile", "profile.age"]⟩)
        (.pointer exMember (some (4096, exMemberData))) =
      .returned none
        (.pointer exMember (some (4096, .struct [.string "", .struct [.int 30, .string ""]])))
        [(exMember, exMemberDesc)] := by
  refine ⟨rfl, rfl, by decide, rfl, rfl, rfl, rfl⟩

/-! ## The order of the `range` over the descriptor map -/

theorem ApplyRanged_id (env : List GoType) (fuel : Nat)
    (cache : List (GoType × typeDescriptor)) (f : Option FieldMask) (i : Iface) :
    FieldMask.ApplyRanged id env fuel cache f i = FieldMask.Apply env fuel cache f i := rfl

/-- The reversed descriptor holds the entries of the descriptor, each once. -/
theorem reversed_perm (d : typeDescriptor) : d.reversed.fields.Perm d.fields :=
  List.reverse_perm d.fields

/-- C6, the code at the failing input: in `Alias struct { X int; A Empty; B YZ }` the
field `A` has size zero, so the nested records `A` and `B` have one address.  On
`{X:1, A:{}, B:{Y:2, Z:3}}` with the normalized path set `["A.q", "B.Y"]`, a first call
of `Apply` that ranges over the descriptor map in the order `X, A, B` succeeds with
`{X:0, A:{}, B:{Y:2, Z:3}}`: it enters `A` first and then takes `B` for visited.  A second
call on that result, with the same path set and the same cache, that ranges in the order
`B, A, X` succeeds with `{X:0, A:{}, B:{Y:2, Z:0}}`, which is another value. -/
theorem C6_second_apply_in_another_order_changes_the_result (n : Nat) :
    New ["A.q", "B.Y"] = some ⟨["A.q", "B.Y"]⟩ ∧
    buildDescriptor [] (n + 2) exAlias [] = .ok (exAliasDesc, [exYZ, exEmpty, exAlias]) ∧
    exAliasDesc.reversed.fields.Perm exAliasDesc.fields ∧
    FieldMask.Apply [] (n + 2) [] (some ⟨["A.q", "B.Y"]⟩)
        (.pointer exAlias (some (4096, exAliasData))) =
      .returned none
        (.pointer exAlias (some (4096, .struct [.int 0, .struct [], .struct [.int 2, .int 3]])))
        [(exAlias, exAliasDesc)] ∧
    FieldMask.ApplyRanged typeDescriptor.reversed [] (n + 2) [(exAlias, exAliasDesc)]
        (some ⟨["A.q", "B.Y"]⟩)
        (.pointer exAlias (some (4096, .struct [.int 0, .struct [], .struct [.int 2, .int 3]]))) =
      .returned none
        (.pointer exAlias (some (4096, .struct [.int 0, .struct [], .struct [.int 2, .int 0]])))
        [(exAlias, exAliasDesc)] ∧
    Data.struct [.int 0, .struct [], .struct [.int 2, .int 0]] ≠
      .struct [.int 0, .struct [], .struct [.int 2, .int 3]] := by
  refine ⟨by decide, rfl, reversed_perm _, rfl, rfl, by decide⟩

/-- C29, the code at the failing input: on `{X:1, A:{}, B:{Y:2, Z:3}}` of the type
`Alias struct { X int; A Empty; B YZ }`, whose nested records `A` and `B` have one
address, the path lists `["A.q", "B.Y"]` and `["B.Y", "A.q", "A.q"]` hold the same paths.
A call of `Apply` with the first list that ranges over the descriptor map in the order
`X, A, B` leaves `B` as `{Y:2, Z:3}`; a call with the second list, and a call with the
first list itself, that ranges in the order `B, A, X` leaves `B` as `{Y:2, Z:0}`. -/
theorem C29_result_depends_on_the_range_order (n : Nat) :
    (∀ p, p ∈ ["A.q", "B.Y"] ↔ p ∈ ["B.Y", "A.q", "A.q"]) ∧
    exAliasDesc.reversed.fields.Perm exAliasDesc.fields ∧
    (FieldMask.Apply [] (n + 2) [] (some ⟨["A.q", "B.Y"]⟩)
        (.pointer exAlias (some (4096, exAliasData)))).contents =
      some (.struct [.int 0, .struct [], .struct [.int 2, .int 3]]) ∧
    (FieldMask.ApplyRanged typeDescriptor.reversed [] (n + 2) [] (some ⟨["B.Y", "A.q", "A.q"]⟩)
        (.pointer exAlias (some (4096, exAliasData)))).contents =
      some (.struct [.int 0, .struct [], .struct [.int 2, .int 0]]) ∧
    (FieldMask.ApplyRanged typeDescriptor.reversed [] (n + 2) [] (some ⟨["A.q", "B.Y"]⟩)
        (.pointer exAlias (some (4096, exAliasData)))).contents =
      some (.struct [.int 0, .struct [], .struct [.int 2, .int 0]]) ∧
    (FieldMask.Apply [] (n + 2) [] (some ⟨["A.q", "B.Y"]⟩)
        (.pointer exAlias (some (4096, exAliasData)))).err = some none ∧
    (FieldMask.ApplyRanged typeDescriptor.reversed [] (n + 2) [] (some ⟨["B.Y", "A.q", "A.q"]⟩)
        (.pointer exAlias (some (4096, exAliasData)))).err = some none ∧
    Data.struct [.int 0, .struct [], .struct [.int 2, .int 3]] ≠
      .struct [.int 0, .struct [], .struct [.int 2, .int 0]] := by
  refine ⟨?_, reversed_perm _, rfl, rfl, rfl, rfl, rfl, by decide⟩
  intro p
  simp only [List.mem_cons, List.mem_singleton, List.not_mem_nil, or_false]
  tauto

end fieldmask
